import Mathlib

/-!
Shallow embedding of `src/basin_coding.js` (basin-coding), a base-N
binary-to-text range coder, together with proofs about the claims of its
specification.  Symbols and characters are modelled by their UTF-16 code
units (`Nat`), byte values by `Nat`, and the JavaScript `Map` used as the
decoding table by an insertion-ordered association list.  All JavaScript
number arithmetic in the source stays below 2^53 and is integer-exact
(the only non-integer operation, multiplication by the exact dyadic
`1 / 256` followed by `Math.ceil` or division followed by `Math.floor`,
coincides with exact ceiling/floor division in that range), so `Nat`/`Int`
arithmetic with explicit floor and ceiling division is a faithful model.
-/

namespace BasinCoding

/-- Ceiling division on naturals: `ceilDiv a b = ⌈a / b⌉` for `b > 0`;
models `Math.ceil(a * (1 / b))` for the exact powers of two used in the
source. -/
def ceilDiv (a b : Nat) : Nat :=
  (a + b - 1) / b

/-- Precision parameters derived once per base by `calculateParams`
(src/basin_coding.js lines 290-311). -/
structure Params where
  msdDivisor : Nat
  secondMsdDivisor : Nat
  maxDigitsToEmit : Nat
  maxDigitsToDecode : Nat
deriving DecidableEq

/-- First loop of `calculateParams`:
`while (msdDivisor <= 0x10000000000) { msdDivisor *= base; ++maxDigitsToDecode }`.
The structural `fuel` argument is an upper bound on the iteration count;
the callers pass 64, which exceeds the at most 41 iterations performed for
any base ≥ 2. -/
def msdLoop (base : Nat) : Nat → Nat → Nat → Nat × Nat
  | 0, msdDivisor, maxDigitsToDecode => (msdDivisor, maxDigitsToDecode)
  | fuel + 1, msdDivisor, maxDigitsToDecode =>
    if msdDivisor ≤ 0x10000000000 then
      msdLoop base fuel (msdDivisor * base) (maxDigitsToDecode + 1)
    else
      (msdDivisor, maxDigitsToDecode)

/-- Second loop of `calculateParams`:
`while (tmp < 0x100) { tmp *= base; ++maxDigitsToEmit }`, with the same
fuel convention as `msdLoop` (at most 8 iterations for base ≥ 2). -/
def emitCountLoop (base : Nat) : Nat → Nat → Nat → Nat
  | 0, _, maxDigitsToEmit => maxDigitsToEmit
  | fuel + 1, tmp, maxDigitsToEmit =>
    if tmp < 0x100 then
      emitCountLoop base fuel (tmp * base) (maxDigitsToEmit + 1)
    else
      maxDigitsToEmit

/-- Embedding of `calculateParams` (src/basin_coding.js lines 290-311). -/
def calculateParams (base : Nat) : Params :=
  let r := msdLoop base 64 1 0
  let msdDivisor := r.1 / (base * base)
  { msdDivisor := msdDivisor
    secondMsdDivisor := msdDivisor / base
    maxDigitsToEmit := emitCountLoop base 64 1 1
    maxDigitsToDecode := r.2 - 1 }

/-- Constant `MIN_ALPHABET_SIZE` from the source. -/
def MIN_ALPHABET_SIZE : Nat := 2

/-- Constant `MAX_ALPHABET_SIZE` from the source. -/
def MAX_ALPHABET_SIZE : Nat := 256

/-- Alphabet-length validation performed verbatim by both the `Encoder`
and the `Decoder` constructors (src/basin_coding.js lines 22-34 and
136-148): throws on length < 2 and on length > 256. -/
def validateAlphabet (alphabet : List Nat) : Except String Unit :=
  if alphabet.length < MIN_ALPHABET_SIZE then
    .error "alphabet must have at least 2 characters"
  else if alphabet.length > MAX_ALPHABET_SIZE then
    .error "alphabet must not contain more than 256 characters"
  else
    .ok ()

/-- Model of the JavaScript `Map` used as the decoding table: an
insertion-ordered association list from symbol code unit to digit value. -/
abbrev Table := List (Nat × Nat)

/-- Mirrors `Map.prototype.set`: replaces the value in place if the key is
present, otherwise appends a new entry at the end. -/
def tableSet : Table → Nat → Nat → Table
  | [], k, v => [(k, v)]
  | p :: t, k, v => if p.1 = k then (k, v) :: t else p :: tableSet t k v

/-- Mirrors `Map.prototype.get`, returning the value of the first (and,
by the `tableSet` invariant, only) entry with the key (`undefined`
becomes `none`). -/
def tableGet : Table → Nat → Option Nat
  | [], _ => none
  | p :: t, k => if p.1 = k then some p.2 else tableGet t k

/-- Mirrors `Map.prototype.has`. -/
def tableHas (t : Table) (k : Nat) : Bool :=
  (tableGet t k).isSome

/-- Mirrors `Map.prototype.size`. -/
def tableSize (t : Table) : Nat :=
  t.length

/-- Loop of the `Decoder` constructor (src/basin_coding.js lines 150-154):
`for (let i = alphabet.length; i--;) decodingTable.set(alphabet.charCodeAt(i), i)`,
i.e. the indices are inserted in descending order. -/
def buildTableLoop (alphabet : List Nat) : Nat → Table → Table
  | 0, t => t
  | i + 1, t => buildTableLoop alphabet i (tableSet t (alphabet.getD i 0) i)

/-- Decoding table built by the `Decoder` constructor. -/
def buildDecodingTable (alphabet : List Nat) : Table :=
  buildTableLoop alphabet alphabet.length []

/-- Embedding of the `Encoder` constructor: validation, then the alphabet
itself is stored as the encoding table. -/
def encoderInit (alphabet : List Nat) : Except String (List Nat) :=
  match validateAlphabet alphabet with
  | .error e => .error e
  | .ok _ => .ok alphabet

/-- Embedding of the `Decoder` constructor: validation, then the decoding
table is built. -/
def decoderInit (alphabet : List Nat) : Except String Table :=
  match validateAlphabet alphabet with
  | .error e => .error e
  | .ok _ => .ok (buildDecodingTable alphabet)

/-- Embedding of `isWhitespace` (src/basin_coding.js lines 336-338):
membership in the string " \n\r\t\v\f   ". -/
def isWhitespace (c : Nat) : Bool :=
  [32, 10, 13, 9, 11, 12, 0xA0, 0x2028, 0x2029].contains c

/-- Local state of one `Encoder.encode` call (src/basin_coding.js lines
44-115): the interval bounds, the pending-digit counter with its recorded
leading digit, the byte counter, and the symbol indices emitted so far.
The `trace` field additionally records the `(lo, hi)` interval at the
checkpoints named by the specification's interval-state invariant: at the
start of each per-byte iteration, after each narrowing step, and after
each settle/defer shift. -/
structure EncState where
  lo : Nat
  hi : Nat
  digitsToAdd : Nat
  digitsToAddHiMsd : Nat
  bytesEncoded : Nat
  out : List Nat
  trace : List (Nat × Nat)
deriving DecidableEq

/-- Interval narrowing of `Encoder.encode` (src/basin_coding.js lines
58-64): `nextLo = lo + Math.ceil((hi - lo + 1) * byte * (1 / 256))`,
`nextHi = lo + (Math.ceil((hi - lo + 1) * (byte + 1) * (1 / 256)) - 1)`. -/
def encNarrow (lo hi byte : Nat) : Nat × Nat :=
  (lo + ceilDiv ((hi - lo + 1) * byte) 256,
   lo + ceilDiv ((hi - lo + 1) * (byte + 1)) 256 - 1)

/-- Digit-extraction loop of `Encoder.encode` (src/basin_coding.js lines
66-100): runs `maxDigitsToEmit` times (the structural argument counts the
remaining iterations, mirroring `for (let _ = maxDigitsToEmit; _--;)`)
unless a `break` is reached.  When `digitsToAdd = 0` the settled branch
appends `List.replicate 0 _ = []`, matching the guarded loop of the
source. -/
def encEmitLoop (msdDivisor secondMsdDivisor base : Nat) :
    Nat → EncState → EncState
  | 0, s => s
  | n + 1, s =>
    if s.hi / msdDivisor - s.lo / msdDivisor = 1 then
      if s.lo / secondMsdDivisor % base = base - 1 ∧
          s.hi / secondMsdDivisor % base = 0 then
        encEmitLoop msdDivisor secondMsdDivisor base n
          { s with
              lo := s.lo / msdDivisor * msdDivisor + s.lo % secondMsdDivisor * base,
              hi := s.hi / msdDivisor * msdDivisor + s.hi % secondMsdDivisor * base,
              digitsToAdd := s.digitsToAdd + 1,
              digitsToAddHiMsd := s.hi / msdDivisor,
              trace := s.trace ++
                [(s.lo / msdDivisor * msdDivisor + s.lo % secondMsdDivisor * base,
                  s.hi / msdDivisor * msdDivisor + s.hi % secondMsdDivisor * base)] }
      else
        s
    else if s.lo / msdDivisor = s.hi / msdDivisor then
      encEmitLoop msdDivisor secondMsdDivisor base n
        { s with
            lo := s.lo % msdDivisor * base,
            hi := s.hi % msdDivisor * base,
            out := s.out ++ s.hi / msdDivisor ::
              List.replicate s.digitsToAdd
                (if s.hi / msdDivisor = s.digitsToAddHiMsd then 0 else base - 1),
            digitsToAdd := 0,
            trace := s.trace ++
              [(s.lo % msdDivisor * base, s.hi % msdDivisor * base)] }
    else
      s

/-- Body of the per-byte loop of `Encoder.encode` (src/basin_coding.js
lines 57-103): record the interval at the start of the iteration, narrow,
record again, run the digit-extraction loop, and increment the byte
counter. -/
def encByteStep (msdDivisor secondMsdDivisor base maxDigitsToEmit : Nat)
    (s : EncState) (byte : Nat) : EncState :=
  let s := { s with trace := s.trace ++ [(s.lo, s.hi)] }
  let p := encNarrow s.lo s.hi byte
  let s := { s with lo := p.1, hi := p.2, trace := s.trace ++ [p] }
  let s := encEmitLoop msdDivisor secondMsdDivisor base maxDigitsToEmit s
  { s with bytesEncoded := s.bytesEncoded + 1 }

/-- Initial state of one `Encoder.encode` call. -/
def encInitState (msdDivisor base : Nat) : EncState :=
  { lo := 0, hi := msdDivisor * base - 1, digitsToAdd := 0,
    digitsToAddHiMsd := 0, bytesEncoded := 0, out := [], trace := [] }

/-- State after the per-byte loop of `Encoder.encode` has consumed all
input bytes. -/
def encLoopFinal (base : Nat) (bytes : List Nat) : EncState :=
  let p := calculateParams base
  bytes.foldl
    (encByteStep p.msdDivisor p.secondMsdDivisor base p.maxDigitsToEmit)
    (encInitState p.msdDivisor base)

/-- Embedding of `Encoder.encode` at the level of emitted symbol indices
(src/basin_coding.js lines 44-115): the per-byte loop output followed by
the finalization emissions of lines 105-112 — the final leading digit
`hi / msdDivisor`, the resolved pending digits (symbol index 0), and the
parity terminator `bytesEncoded % 2`. -/
def encodeIndices (base : Nat) (bytes : List Nat) : List Nat :=
  let p := calculateParams base
  let s := encLoopFinal base bytes
  s.out ++ [s.hi / p.msdDivisor] ++ List.replicate s.digitsToAdd 0
    ++ [s.bytesEncoded % 2]

/-- Intervals reached by one `Encoder.encode` call at the invariant
checkpoints, including the interval at the start of the (empty) iteration
that observes the end of the input. -/
def encodeTrace (base : Nat) (bytes : List Nat) : List (Nat × Nat) :=
  let s := encLoopFinal base bytes
  s.trace ++ [(s.lo, s.hi)]

/-- Embedding of `Encoder.encode` at the level of characters: each emitted
index is read from the encoding table (`this.encodingTable[i]`).  The
indices are proved to be in range for every input, so the `getD` default
is never read. -/
def encode (alphabet : List Nat) (bytes : List Nat) : List Nat :=
  (encodeIndices alphabet.length bytes).map (fun i => alphabet.getD i 0)

/-- Ceiling division on integers for a positive divisor, modelling
`Math.ceil(a * (1 / b))` in the decoder, where the operand can in
principle be negative: `⌈a / b⌉ = ⌊(a + b - 1) / b⌋`. -/
def ceilDivInt (a b : Int) : Int :=
  (a + b - 1).fdiv b

/-- Per-call context of one `decode` call (src/basin_coding.js lines
177-201): the decoding table, the input code units, `endIndex`, the
precision parameters for `base = decodingTable.size`, and the parity
value read from the terminator symbol. -/
structure DecCtx where
  decodingTable : Table
  encodedText : List Nat
  endIndex : Nat
  msdDivisor : Nat
  secondMsdDivisor : Nat
  base : Nat
  maxDigitsToEmit : Nat
  maxDigitsToDecode : Nat
  lengthParity : Nat
deriving DecidableEq

/-- Local state of one `decode` call (src/basin_coding.js lines 196-203).
The interval bounds, the digit accumulator and the decoded bytes are
modelled as `Int`, with `Int.fdiv` for `Math.floor` divisions and
`Int.tmod` for the JavaScript remainder, so that the model remains
faithful even in states (reachable only for adversarial input text) where
the JavaScript numbers could leave the nonnegative range.  The counters
`requestedDigits` and `requestedDigitsKeepMsd` satisfy
`requestedDigitsKeepMsd ≤ requestedDigits` throughout (increments touch
both or only `requestedDigits`; decrements touch both exactly when they
are equal), so they never go negative and are modelled as `Nat`.  The
`trace` field records `(lo, hi)` at the specification's invariant
checkpoints, as in `EncState`. -/
structure DecState where
  bytesDecoded : Nat
  lo : Int
  hi : Int
  i : Nat
  digitsToDecode : Int
  requestedDigits : Nat
  requestedDigitsKeepMsd : Nat
  isLastDigit : Bool
  out : List Int
  trace : List (Int × Int)
deriving DecidableEq

/-- Digit-consumption tail of the request loop (src/basin_coding.js lines
223-235): `++i`, then either the MSD-preserving accumulator shift (when
`requestedDigits === requestedDigitsKeepMsd`) or the plain shift, then
`--requestedDigits`. -/
def decConsume (ctx : DecCtx) (s : DecState) (digit : Nat) : DecState :=
  let s := { s with i := s.i + 1 }
  let s :=
    if s.requestedDigits = s.requestedDigitsKeepMsd then
      let digitsToDecodeMsd := s.digitsToDecode.fdiv ctx.msdDivisor
      { s with
          digitsToDecode := digitsToDecodeMsd * ctx.msdDivisor
            + (s.digitsToDecode.tmod ctx.secondMsdDivisor) * ctx.base + digit,
          requestedDigitsKeepMsd := s.requestedDigitsKeepMsd - 1 }
    else
      { s with digitsToDecode :=
          (s.digitsToDecode.tmod ctx.msdDivisor) * ctx.base + digit }
  { s with requestedDigits := s.requestedDigits - 1 }

/-- Digit-request loop of `decode` (src/basin_coding.js lines 205-236):
`while (requestedDigits > 0)`.  A character before `endIndex` that is in
the decoding table is consumed as a digit; otherwise a whitespace
character triggers `continue` — which, as in the source, does NOT advance
the cursor `i` — and any other character raises the input error.  Past
`endIndex`, digits are synthesized as 0 and `isLastDigit` is set when the
cursor overruns the input by `maxDigitsToDecode - 2`.  The loop need not
terminate (the whitespace `continue` repeats identically), so it is
driven by fuel; `none` means the computation has not finished within the
given fuel. -/
def decFetchLoop (ctx : DecCtx) : Nat → DecState → Option (Except String DecState)
  | 0, _ => none
  | fuel + 1, s =>
    if s.requestedDigits = 0 then
      some (.ok s)
    else if s.i < ctx.endIndex then
      match tableGet ctx.decodingTable (ctx.encodedText.getD s.i 0) with
      | none =>
        if isWhitespace (ctx.encodedText.getD s.i 0) then
          decFetchLoop ctx fuel s
        else
          some (.error "invalid input string")
      | some digit => decFetchLoop ctx fuel (decConsume ctx s digit)
    else
      let s :=
        if s.i - ctx.endIndex = ctx.maxDigitsToDecode - 2 then
          { s with isLastDigit := true }
        else s
      decFetchLoop ctx fuel (decConsume ctx s 0)

/-- Settle/defer loop of `decode` (src/basin_coding.js lines 259-284):
identical interval arithmetic to `encEmitLoop`, but instead of emitting
symbols it requests further input digits (`++requestedDigits`, and
`++requestedDigitsKeepMsd` on a deferral). -/
def decEmitLoop (ctx : DecCtx) : Nat → DecState → DecState
  | 0, s => s
  | n + 1, s =>
    let loMsd := s.lo.fdiv ctx.msdDivisor
    let hiMsd := s.hi.fdiv ctx.msdDivisor
    if hiMsd - loMsd = 1 then
      if (s.lo.fdiv ctx.secondMsdDivisor).tmod ctx.base = (ctx.base : Int) - 1 ∧
          (s.hi.fdiv ctx.secondMsdDivisor).tmod ctx.base = 0 then
        let lo := loMsd * ctx.msdDivisor + (s.lo.tmod ctx.secondMsdDivisor) * ctx.base
        let hi := hiMsd * ctx.msdDivisor + (s.hi.tmod ctx.secondMsdDivisor) * ctx.base
        decEmitLoop ctx n
          { s with lo := lo, hi := hi,
                   requestedDigits := s.requestedDigits + 1,
                   requestedDigitsKeepMsd := s.requestedDigitsKeepMsd + 1,
                   trace := s.trace ++ [(lo, hi)] }
      else
        s
    else if loMsd = hiMsd then
      let lo := (s.lo.tmod ctx.msdDivisor) * ctx.base
      let hi := (s.hi.tmod ctx.msdDivisor) * ctx.base
      decEmitLoop ctx n
        { s with lo := lo, hi := hi,
                 requestedDigits := s.requestedDigits + 1,
                 trace := s.trace ++ [(lo, hi)] }
    else
      s

/-- Outer `while (true)` loop of `decode` (src/basin_coding.js lines
204-287), driven by fuel for the outer iterations; each digit-request
round receives the fixed fuel `ffuel`.  Computes the byte as
`Math.floor(256 * (digitsToDecode - lo) / (hi - lo + 1))`, handles the
`isLastDigit` parity decision, narrows the interval and runs the
settle/defer loop. -/
def decOuterLoop (ctx : DecCtx) (ffuel : Nat) :
    Nat → DecState → Option (Except String DecState)
  | 0, _ => none
  | fuel + 1, s =>
    match decFetchLoop ctx ffuel { s with trace := s.trace ++ [(s.lo, s.hi)] } with
    | none => none
    | some (.error e) => some (.error e)
    | some (.ok s) =>
      let byte := (256 * (s.digitsToDecode - s.lo)).fdiv (s.hi - s.lo + 1)
      if s.isLastDigit then
        if s.bytesDecoded % 2 ≠ ctx.lengthParity then
          some (.ok { s with out := s.out ++ [byte] })
        else
          some (.ok s)
      else
        let s := { s with out := s.out ++ [byte] }
        let nextLo := s.lo + ceilDivInt ((s.hi - s.lo + 1) * byte) 256
        let nextHi := s.lo + ceilDivInt ((s.hi - s.lo + 1) * (byte + 1)) 256 - 1
        let s := { s with lo := nextLo, hi := nextHi,
                          trace := s.trace ++ [(nextLo, nextHi)] }
        let s := decEmitLoop ctx ctx.maxDigitsToEmit s
        decOuterLoop ctx ffuel fuel { s with bytesDecoded := s.bytesDecoded + 1 }

/-- Embedding of the generator function `decode` (src/basin_coding.js
lines 177-288).  The result is `some (.ok s)` when the run completes with
final state `s`, `some (.error e)` when it throws, and `none` when it
does not finish within `fuel` outer iterations with `fuel` digit-request
steps per round (in particular, a run that loops forever yields `none`
for every fuel). -/
def decodeRun (fuel : Nat) (decodingTable : Table) (encodedText : List Nat) :
    Option (Except String DecState) :=
  match encodedText.length with
  | 0 => some (.error "invalid input string")
  | n + 1 =>
    let endIndex := n
    match tableGet decodingTable (encodedText.getD endIndex 0) with
    | none => some (.error "invalid input string")
    | some lengthParity =>
      if lengthParity > 1 then
        some (.error "invalid input string")
      else
        let base := tableSize decodingTable
        let p := calculateParams base
        let ctx : DecCtx :=
          { decodingTable := decodingTable, encodedText := encodedText,
            endIndex := endIndex, msdDivisor := p.msdDivisor,
            secondMsdDivisor := p.secondMsdDivisor, base := base,
            maxDigitsToEmit := p.maxDigitsToEmit,
            maxDigitsToDecode := p.maxDigitsToDecode,
            lengthParity := lengthParity }
        decOuterLoop ctx fuel fuel
          { bytesDecoded := 0, lo := 0, hi := (p.msdDivisor : Int) * base - 1,
            i := 0, digitsToDecode := 0,
            requestedDigits := p.maxDigitsToDecode,
            requestedDigitsKeepMsd := 0, isLastDigit := false,
            out := [], trace := [] }

/-- Byte sequence produced by a completed `decode` run. -/
def decodeBytes (fuel : Nat) (decodingTable : Table) (encodedText : List Nat) :
    Option (Except String (List Int)) :=
  (decodeRun fuel decodingTable encodedText).map (Except.map (fun s => s.out))

/-- Intervals reached at the invariant checkpoints by a completed
`decode` run (empty if the run throws or does not complete). -/
def decodeTraceOf (fuel : Nat) (decodingTable : Table) (encodedText : List Nat) :
    List (Int × Int) :=
  match decodeRun fuel decodingTable encodedText with
  | some (.ok s) => s.trace
  | _ => []

/-- Code units of the two-symbol alphabet "01", used for concrete runs. -/
def alphabet01 : List Nat := [48, 49]

/-- Decoding table of the alphabet "01". -/
def table01 : Table := buildDecodingTable alphabet01

/-- Code units of the three-symbol alphabet "012", used for concrete runs. -/
def alphabet012 : List Nat := [48, 49, 50]

/-- Decoding table of the alphabet "012". -/
def table012 : Table := buildDecodingTable alphabet012

/-- Adversarial input text for the three-symbol alphabet: twenty-six
copies of the symbol "2" followed by the terminator "0" (every character
is a valid alphabet symbol and the terminator has digit value 0). -/
def advText3 : List Nat := List.replicate 26 50 ++ [48]

/-- Two-symbol alphabet whose first symbol is the space character
(code 32): a symbol that is simultaneously whitespace. -/
def wsAlphabet : List Nat := [32, 48]

/-- Decoder context for `wsAlphabet` on the text "  0" (codes
[32, 32, 48]), built exactly as `decodeRun` builds it. -/
def wsCtx : DecCtx :=
  { decodingTable := buildDecodingTable wsAlphabet
    encodedText := [32, 32, 48]
    endIndex := 2
    msdDivisor := (calculateParams 2).msdDivisor
    secondMsdDivisor := (calculateParams 2).secondMsdDivisor
    base := 2
    maxDigitsToEmit := (calculateParams 2).maxDigitsToEmit
    maxDigitsToDecode := (calculateParams 2).maxDigitsToDecode
    lengthParity := 0 }

/-- Initial decoder state for `wsCtx`, as set up by `decodeRun`. -/
def wsState : DecState :=
  { bytesDecoded := 0, lo := 0, hi := ((calculateParams 2).msdDivisor : Int) * 2 - 1,
    i := 0, digitsToDecode := 0,
    requestedDigits := (calculateParams 2).maxDigitsToDecode,
    requestedDigitsKeepMsd := 0, isLastDigit := false, out := [], trace := [] }

/-- Decoder context built by `decodeRun` for `table01` on the text " 10"
(codes [32, 49, 48]): the valid encoding "10" of the empty byte sequence
with one whitespace character inserted before the terminator. -/
def wsHangCtx : DecCtx :=
  { decodingTable := table01
    encodedText := [32, 49, 48]
    endIndex := 2
    msdDivisor := (calculateParams 2).msdDivisor
    secondMsdDivisor := (calculateParams 2).secondMsdDivisor
    base := 2
    maxDigitsToEmit := (calculateParams 2).maxDigitsToEmit
    maxDigitsToDecode := (calculateParams 2).maxDigitsToDecode
    lengthParity := 0 }

/-- Decoder context built by `decodeRun` for `table01` on the text " x0"
(codes [32, 120, 48]): a whitespace character followed by a character
that is neither an alphabet symbol nor whitespace, then a valid
terminator. -/
def badCharCtx : DecCtx :=
  { decodingTable := table01
    encodedText := [32, 120, 48]
    endIndex := 2
    msdDivisor := (calculateParams 2).msdDivisor
    secondMsdDivisor := (calculateParams 2).secondMsdDivisor
    base := 2
    maxDigitsToEmit := (calculateParams 2).maxDigitsToEmit
    maxDigitsToDecode := (calculateParams 2).maxDigitsToDecode
    lengthParity := 0 }

/-- Value of a big-endian digit string in the given base. -/
def digitsVal (b : Nat) (ds : List Nat) : Nat :=
  ds.foldl (fun a d => a * b + d) 0

/-- Number of settle shifts and defer shifts performed by one run of the
digit-extraction loop started on the given interval with the given fuel:
the first component counts settles, the second defers.  The branch
structure mirrors `encEmitLoop` and `decEmitLoop` exactly, so it
characterizes both. -/
def sigmaCounts (msdDivisor secondMsdDivisor base : Nat) : Nat → Nat → Nat → Nat × Nat
  | 0, _, _ => (0, 0)
  | n + 1, lo, hi =>
    if hi / msdDivisor - lo / msdDivisor = 1 then
      if lo / secondMsdDivisor % base = base - 1 ∧ hi / secondMsdDivisor % base = 0 then
        let p := sigmaCounts msdDivisor secondMsdDivisor base n
          (lo / msdDivisor * msdDivisor + lo % secondMsdDivisor * base)
          (hi / msdDivisor * msdDivisor + hi % secondMsdDivisor * base)
        (p.1, p.2 + 1)
      else (0, 0)
    else if lo / msdDivisor = hi / msdDivisor then
      let p := sigmaCounts msdDivisor secondMsdDivisor base n
        (lo % msdDivisor * base) (hi % msdDivisor * base)
      (p.1 + 1, p.2)
    else (0, 0)

/-- Value of the digit window that the decoder's accumulator holds at a
byte boundary, for precision `maxDigitsToDecode = c + 2`: the leading
digit at stream position `off` followed by the `c + 1` digits at
positions `off + dta + 1 .. off + dta + c + 1` — the `dta` pending
digits in between are skipped by the MSD-preserving shifts, and
positions beyond the end of the stream read as 0. -/
def wval (b c : Nat) (O : List Nat) (off dta : Nat) : Nat :=
  digitsVal b (O.getD off 0 ::
    (List.range (c + 1)).map (fun j => O.getD (off + dta + 1 + j) 0))

/-- Shape of the digit stream ahead of a byte boundary with pending
digits: the next emitted digit is the recorded leading digit or its
predecessor, and the following `dta` stream digits are the pending
digits as resolved against it (0 on a match, `base - 1` otherwise). -/
def shapeAt (b : Nat) (O : List Nat) (off dta hMsd : Nat) : Prop :=
  (O.getD off 0 = hMsd ∨ O.getD off 0 + 1 = hMsd) ∧
  ∀ j, 1 ≤ j → j ≤ dta → O.getD (off + j) 0 =
    if O.getD off 0 = hMsd then 0 else b - 1

/-- Invariant of the encoder state at byte boundaries: ordered interval
of width above `secondMsdDivisor` inside the full range, the block of
the leading digit reaches down to `lo`, and a positive pending count
comes with a recorded leading digit that straddles a carry boundary. -/
abbrev EncInvByte (M S b : Nat) (s : EncState) : Prop :=
  s.lo + S ≤ s.hi ∧ s.hi < M * b ∧ s.lo ≤ s.hi / M * M ∧
  (0 < s.digitsToAdd → s.hi / M = s.lo / M + 1 ∧ s.digitsToAddHiMsd = s.hi / M)

/-- Digit stream of the encoded text without the final parity terminator:
the per-byte emissions followed by the final leading digit and the
resolved pending digits. -/
def encodeBody (base : Nat) (bytes : List Nat) : List Nat :=
  let p := calculateParams base
  let s := encLoopFinal base bytes
  s.out ++ [s.hi / p.msdDivisor] ++ List.replicate s.digitsToAdd 0

/-- Arithmetic facts about the precision parameters that drive the
interval-invariant proof: the most-significant place value is `base`
times the second one, the second one is large (the precision ceiling of
2^40 guarantees at least 2^16 + 1 = 65537), and the digit-extraction
budget `maxDigitsToEmit` is large enough that `base ^ (maxDigitsToEmit-1)`
covers one input byte.  Decidable for each base. -/
abbrev ParamsGood (base : Nat) : Prop :=
  2 ≤ base ∧
  (calculateParams base).msdDivisor = (calculateParams base).secondMsdDivisor * base ∧
  65537 ≤ (calculateParams base).secondMsdDivisor ∧
  2 ≤ (calculateParams base).maxDigitsToEmit ∧
  256 ≤ base ^ ((calculateParams base).maxDigitsToEmit - 1)

/-- Stronger arithmetic facts about the precision parameters used by the
round-trip proof: the place values are the explicit powers
`base ^ (maxDigitsToDecode - 1)` and `base ^ (maxDigitsToDecode - 2)`,
the second place value is at least 131071, the digit-extraction budget
fits under the decode window, and `base ^ (maxDigitsToEmit - 1)` either
equals 256 exactly with `secondMsdDivisor` a multiple of 256 (the bases
2, 4, 16, 256) or is at least 257.  Decidable for each base. -/
abbrev ParamsC1 (base : Nat) : Prop :=
  2 ≤ base ∧
  3 ≤ (calculateParams base).maxDigitsToDecode ∧
  (calculateParams base).msdDivisor = base ^ ((calculateParams base).maxDigitsToDecode - 1) ∧
  (calculateParams base).secondMsdDivisor
    = base ^ ((calculateParams base).maxDigitsToDecode - 2) ∧
  2 ≤ (calculateParams base).maxDigitsToEmit ∧
  (calculateParams base).maxDigitsToEmit ≤ (calculateParams base).maxDigitsToDecode - 1 ∧
  131071 ≤ (calculateParams base).secondMsdDivisor ∧
  256 ≤ base ^ ((calculateParams base).maxDigitsToEmit - 1) ∧
  (base ^ ((calculateParams base).maxDigitsToEmit - 1) = 256 ∧
      (calculateParams base).secondMsdDivisor % 256 = 0 ∨
    257 ≤ base ^ ((calculateParams base).maxDigitsToEmit - 1))

/-- The decoder context built by `decode` for the table of `alphabet` on
the encoding of `bytes` (the state reached after reading the parity
terminator), with the table size resolved to the alphabet length. -/
def c1Ctx (alphabet bytes : List Nat) : DecCtx :=
  { decodingTable := buildDecodingTable alphabet,
    encodedText := encode alphabet bytes,
    endIndex := (encodeBody alphabet.length bytes).length,
    msdDivisor := (calculateParams alphabet.length).msdDivisor,
    secondMsdDivisor := (calculateParams alphabet.length).secondMsdDivisor,
    base := alphabet.length,
    maxDigitsToEmit := (calculateParams alphabet.length).maxDigitsToEmit,
    maxDigitsToDecode := (calculateParams alphabet.length).maxDigitsToDecode,
    lengthParity := bytes.length % 2 }

/-- The decoder state entering the outer loop of `decode`, with the table
size resolved to the alphabet length. -/
def c1Init (alphabet : List Nat) : DecState :=
  { bytesDecoded := 0, lo := 0,
    hi := ((calculateParams alphabet.length).msdDivisor : Int)
      * (alphabet.length : Nat) - 1,
    i := 0, digitsToDecode := 0,
    requestedDigits := (calculateParams alphabet.length).maxDigitsToDecode,
    requestedDigitsKeepMsd := 0, isLastDigit := false,
    out := [], trace := [] }

end BasinCoding

namespace BasinCoding

/-! Theorems.  Each claim of the specification is settled by one theorem
below; auxiliary lemmas are shared. -/

/-- Reading a table after `tableSet`: the freshly set key returns the new
value, every other key is unchanged. -/
theorem tableGet_tableSet (t : Table) (k v k' : Nat) :
    tableGet (tableSet t k v) k' = if k' = k then some v else tableGet t k' := by
  induction t with
  | nil =>
    by_cases hk' : k' = k
    · simp [tableSet, tableGet, hk']
    · have h1 : ¬ k = k' := fun h => hk' h.symm
      simp [tableSet, tableGet, hk', h1]
  | cons p t ih =>
    by_cases hpk : p.1 = k
    · by_cases hk' : k' = k
      · subst hk'; simp [tableSet, tableGet, hpk]
      · have h1 : ¬ k = k' := fun h => hk' h.symm
        have h2 : ¬ p.1 = k' := by rw [hpk]; exact h1
        simp [tableSet, tableGet, hpk, hk', h1, h2]
    · by_cases hpk' : p.1 = k'
      · have hk' : ¬ k' = k := fun h => hpk (h ▸ hpk')
        simp [tableSet, tableGet, hpk, hpk', hk']
      · simp [tableSet, tableGet, hpk, hpk', ih]

/-- Characterization of the decoding-table loop: after inserting indices
`n-1, n-2, ..., 0` (in that order) the table returns the smallest index
below `n` carrying the symbol, falling back to the accumulator. -/
theorem buildTableLoop_get (alphabet : List Nat) (k : Nat) :
    ∀ (n : Nat) (t : Table),
      tableGet (buildTableLoop alphabet n t) k =
        ((List.range n).find? (fun i => alphabet.getD i 0 == k)).or (tableGet t k) := by
  intro n
  induction n with
  | zero => intro t; simp [buildTableLoop]
  | succ n ih =>
    intro t
    rw [buildTableLoop, ih, List.range_succ, List.find?_append, tableGet_tableSet]
    by_cases hk : alphabet.getD n 0 = k
    · have hb : (alphabet.getD n 0 == k) = true := by simpa using hk
      have h1 : List.find? (fun i => alphabet.getD i 0 == k) [n] = some n := by
        simp only [List.find?, hb]
      have h2 : (if k = alphabet.getD n 0 then some n else tableGet t k) = some n := by
        rw [if_pos hk.symm]
      rw [h1, h2, Option.or_assoc, Option.or_some]
    · have hb : (alphabet.getD n 0 == k) = false := by simpa using hk
      have h1 : List.find? (fun i => alphabet.getD i 0 == k) [n] = none := by
        simp only [List.find?, hb]
      have h2 : (if k = alphabet.getD n 0 then some n else tableGet t k) = tableGet t k := by
        rw [if_neg (fun h => hk h.symm)]
      rw [h1, h2, Option.or_none]

/-- First matches of `find?` over `List.range`: the found index satisfies
the predicate and is the least one doing so. -/
theorem range_find?_least (p : Nat → Bool) :
    ∀ (n i : Nat), (List.range n).find? p = some i →
      p i = true ∧ ∀ j < i, p j = false := by
  intro n
  induction n with
  | zero => intro i h; rw [List.range_zero] at h; simp at h
  | succ n ih =>
    intro i h
    rw [List.range_succ, List.find?_append] at h
    cases hfind : (List.range n).find? p with
    | some j =>
      rw [hfind] at h
      simp only [Option.or_some] at h
      cases h
      exact ih _ hfind
    | none =>
      rw [hfind] at h
      simp only [Option.none_or] at h
      have hall := List.find?_eq_none.mp hfind
      have hpi := List.find?_some h
      have : i = n := by
        rcases List.mem_singleton.mp (List.mem_of_find?_eq_some h) with h'
        exact h'
      subst this
      refine ⟨hpi, fun j hj => ?_⟩
      have := hall j (List.mem_range.mpr hj)
      simpa using this

/-- C3 counterexample: for the duplicated alphabet "aa" (code unit 97 at
indices 0 and 1, so the largest index carrying the symbol is 1), the
decoding table maps the symbol to 0, not to 1 as the claim states. -/
theorem decodingTable_duplicate_not_last :
    ([97, 97] : List Nat).getD 1 0 = 97 ∧
    tableGet (buildDecodingTable [97, 97]) 97 = some 0 ∧
    tableGet (buildDecodingTable [97, 97]) 97 ≠ some 1 := by decide

/-- C3 (amended): the decode-direction table built at Decoder
configuration time maps every symbol of the alphabet to the index of its
FIRST occurrence (first-wins): the insertion loop runs from the last
index down to index 0 and `Map.set` overwrites, so the smallest index is
written last. -/
theorem decodingTable_first_occurrence_wins (alphabet : List Nat) (s : Nat)
    (hs : s ∈ alphabet) :
    ∃ i, tableGet (buildDecodingTable alphabet) s = some i ∧
      alphabet.getD i 0 = s ∧ ∀ j < i, alphabet.getD j 0 ≠ s := by
  have hfind : ((List.range alphabet.length).find?
      (fun i => alphabet.getD i 0 == s)).isSome := by
    rw [List.find?_isSome]
    rcases List.getElem_of_mem hs with ⟨i, hi, hget⟩
    exact ⟨i, List.mem_range.mpr hi, by simp [List.getD_eq_getElem?_getD, hi, hget]⟩
  rcases Option.isSome_iff_exists.mp hfind with ⟨i, hi⟩
  refine ⟨i, ?_, ?_⟩
  · rw [buildDecodingTable, buildTableLoop_get, hi]
    rfl
  · have := range_find?_least _ _ _ hi
    constructor
    · simpa using this.1
    · intro j hj
      have := this.2 j hj
      simpa using this

/-- C3 witness: the amended theorem applied to the duplicated alphabet
"aa" at symbol 97. -/
theorem decodingTable_first_occurrence_wins_witness :
    (97 ∈ ([97, 97] : List Nat)) ∧
    ∃ i, tableGet (buildDecodingTable [97, 97]) 97 = some i ∧
      ([97, 97] : List Nat).getD i 0 = 97 ∧ ∀ j < i, ([97, 97] : List Nat).getD j 0 ≠ 97 :=
  ⟨by decide, decodingTable_first_occurrence_wins [97, 97] 97 (by decide)⟩

/-- C5: constructing an Encoder or a Decoder succeeds exactly when the
alphabet length lies in [2, 256] (so length exactly 2 or exactly 256
succeeds), and throws the configuration error exactly when the length is
below 2 or above 256.  In the embedding the constructor is a separate
operation from `encode`/`decode`, so the error is raised before any
encode or decode call. -/
theorem configuration_error_bounds (alphabet : List Nat) :
    ((∃ t, encoderInit alphabet = .ok t) ↔
      2 ≤ alphabet.length ∧ alphabet.length ≤ 256) ∧
    ((∃ t, decoderInit alphabet = .ok t) ↔
      2 ≤ alphabet.length ∧ alphabet.length ≤ 256) ∧
    ((∃ e, encoderInit alphabet = .error e) ↔
      (alphabet.length < 2 ∨ 256 < alphabet.length)) ∧
    ((∃ e, decoderInit alphabet = .error e) ↔
      (alphabet.length < 2 ∨ 256 < alphabet.length)) := by
  unfold encoderInit decoderInit validateAlphabet MIN_ALPHABET_SIZE MAX_ALPHABET_SIZE
  by_cases h1 : alphabet.length < 2
  · simp only [if_pos h1]
    refine ⟨?_, ?_, ?_, ?_⟩ <;> simp <;> omega
  · by_cases h2 : alphabet.length > 256
    · simp only [if_neg h1, if_pos h2]
      refine ⟨?_, ?_, ?_, ?_⟩ <;> simp <;> omega
    · simp only [if_neg h1, if_neg h2]
      refine ⟨?_, ?_, ?_, ?_⟩ <;> simp <;> omega

/-- C4 counterexample: at base 256 the smallest integer k with
256^k ≥ 256 is 1 (256^0 < 256 ≤ 256^1), but the computed
`maxDigitsToEmit` is 2, not 1. -/
theorem maxDigitsToEmit_not_least_power :
    (calculateParams 256).maxDigitsToEmit = 2 ∧
    256 ≤ 256 ^ 1 ∧ ¬ 256 ≤ 256 ^ 0 ∧
    (calculateParams 256).maxDigitsToEmit ≠ 1 := by decide

set_option maxRecDepth 4000 in
/-- C4 (amended): for every base in [2, 256], `maxDigitsToEmit` is ONE
MORE than the smallest integer k with base^k ≥ 256: it is at least 2 and
satisfies base^(maxDigitsToEmit-1) ≥ 256 > base^(maxDigitsToEmit-2)
(which, powers of a fixed base being monotone, says exactly that
maxDigitsToEmit - 1 is that smallest k). -/
theorem maxDigitsToEmit_one_more_than_least_power (base : Nat)
    (h2 : 2 ≤ base) (h256 : base ≤ 256) :
    2 ≤ (calculateParams base).maxDigitsToEmit ∧
    256 ≤ base ^ ((calculateParams base).maxDigitsToEmit - 1) ∧
    base ^ ((calculateParams base).maxDigitsToEmit - 2) < 256 := by
  have h : ∀ b, b < 257 → 2 ≤ b →
      2 ≤ (calculateParams b).maxDigitsToEmit ∧
      256 ≤ b ^ ((calculateParams b).maxDigitsToEmit - 1) ∧
      b ^ ((calculateParams b).maxDigitsToEmit - 2) < 256 := by decide
  exact h base (by omega) h2

/-- C4 witness: the amended theorem evaluated at base 85 (where
`maxDigitsToEmit` is 3: 85^2 = 7225 ≥ 256 > 85). -/
theorem maxDigitsToEmit_one_more_than_least_power_witness :
    2 ≤ 85 ∧ 85 ≤ 256 ∧
      (2 ≤ (calculateParams 85).maxDigitsToEmit ∧
       256 ≤ 85 ^ ((calculateParams 85).maxDigitsToEmit - 1) ∧
       85 ^ ((calculateParams 85).maxDigitsToEmit - 2) < 256) :=
  ⟨by decide, by decide,
    maxDigitsToEmit_one_more_than_least_power 85 (by decide) (by decide)⟩

/-- C10: the digit-request loop tests alphabet membership before testing
for whitespace: a character that is in the decoding table and is also a
whitespace character is consumed as a data digit with its table value
(the loop continues via `decConsume`), not skipped as formatting. -/
theorem membership_tested_before_whitespace (ctx : DecCtx) (s : DecState)
    (fuel : Nat) (d : Nat)
    (hreq : ¬ s.requestedDigits = 0) (hcur : s.i < ctx.endIndex)
    (hmem : tableGet ctx.decodingTable (ctx.encodedText.getD s.i 0) = some d)
    (hws : isWhitespace (ctx.encodedText.getD s.i 0) = true) :
    decFetchLoop ctx (fuel + 1) s = decFetchLoop ctx fuel (decConsume ctx s d) := by
  rw [decFetchLoop, if_neg hreq, if_pos hcur, hmem]

/-- C10 witness: for the alphabet " 0" whose first symbol is the space
character, the space at the cursor is both an alphabet symbol (digit
value 0) and whitespace, and the loop consumes it as the digit 0. -/
theorem membership_tested_before_whitespace_witness :
    ¬ wsState.requestedDigits = 0 ∧ wsState.i < wsCtx.endIndex ∧
    tableGet wsCtx.decodingTable (wsCtx.encodedText.getD wsState.i 0) = some 0 ∧
    isWhitespace (wsCtx.encodedText.getD wsState.i 0) = true ∧
    decFetchLoop wsCtx 5 wsState = decFetchLoop wsCtx 4 (decConsume wsCtx wsState 0) :=
  ⟨by decide, by decide, by decide, by decide,
    membership_tested_before_whitespace wsCtx wsState 4 0
      (by decide) (by decide) (by decide) (by decide)⟩

/-- Digit-extraction iterations do not change the byte counter. -/
theorem encEmitLoop_bytesEncoded (M S b : Nat) :
    ∀ (n : Nat) (s : EncState),
      (encEmitLoop M S b n s).bytesEncoded = s.bytesEncoded := by
  intro n
  induction n with
  | zero => intro s; rfl
  | succ n ih =>
    intro s
    rw [encEmitLoop]
    split_ifs <;> simp [ih]

/-- The per-byte loop increments the byte counter once per input byte. -/
theorem encLoop_bytesEncoded (M S b e : Nat) (bytes : List Nat) :
    ∀ s : EncState,
      (bytes.foldl (encByteStep M S b e) s).bytesEncoded
        = s.bytesEncoded + bytes.length := by
  induction bytes with
  | nil => intro s; simp
  | cons x xs ih =>
    intro s
    rw [List.foldl_cons, ih]
    have h : (encByteStep M S b e s x).bytesEncoded = s.bytesEncoded + 1 := by
      simp [encByteStep, encEmitLoop_bytesEncoded]
    rw [h, List.length_cons]
    omega

/-- C7: after the per-byte loop, `encode` emits exactly the symbol at
index `hi / msdDivisor`, then `digitsToAdd` copies of the symbol at index
0, then one terminator symbol at index `length(B) mod 2`; in particular
the last character of the encoded text is the alphabet symbol at index
`length(B) mod 2`. -/
theorem encode_final_emissions (base : Nat) (alphabet : List Nat) (bytes : List Nat) :
    encodeIndices base bytes =
      (encLoopFinal base bytes).out
        ++ [(encLoopFinal base bytes).hi / (calculateParams base).msdDivisor]
        ++ List.replicate (encLoopFinal base bytes).digitsToAdd 0
        ++ [bytes.length % 2] ∧
    (encodeIndices base bytes).getLast? = some (bytes.length % 2) ∧
    (encode alphabet bytes).getLast? = some (alphabet.getD (bytes.length % 2) 0) := by
  have key : ∀ b : Nat, encodeIndices b bytes =
      (encLoopFinal b bytes).out
        ++ [(encLoopFinal b bytes).hi / (calculateParams b).msdDivisor]
        ++ List.replicate (encLoopFinal b bytes).digitsToAdd 0
        ++ [bytes.length % 2] := by
    intro b
    have hb : (encLoopFinal b bytes).bytesEncoded = bytes.length := by
      unfold encLoopFinal
      rw [encLoop_bytesEncoded]
      simp [encInitState]
    have h1 : encodeIndices b bytes =
        (encLoopFinal b bytes).out
          ++ [(encLoopFinal b bytes).hi / (calculateParams b).msdDivisor]
          ++ List.replicate (encLoopFinal b bytes).digitsToAdd 0
          ++ [(encLoopFinal b bytes).bytesEncoded % 2] := rfl
    rw [hb] at h1
    exact h1
  refine ⟨key base, ?_, ?_⟩
  · rw [key base, List.getLast?_concat]
  · unfold encode
    rw [key alphabet.length, List.getLast?_map, List.getLast?_concat]
    rfl

/-- Digit-request loop stuck on whitespace: the `continue` taken for a
whitespace character that is not in the decoding table does not advance
the cursor, so the loop re-examines the same character forever and the
run never finishes, for any amount of fuel. -/
theorem decFetchLoop_whitespace_stuck (ctx : DecCtx) (s : DecState)
    (hreq : ¬ s.requestedDigits = 0) (hcur : s.i < ctx.endIndex)
    (hmem : tableGet ctx.decodingTable (ctx.encodedText.getD s.i 0) = none)
    (hws : isWhitespace (ctx.encodedText.getD s.i 0) = true) :
    ∀ fuel, decFetchLoop ctx fuel s = none := by
  intro fuel
  induction fuel with
  | zero => rfl
  | succ n ih =>
    rw [decFetchLoop, if_neg hreq, if_pos hcur, hmem, if_pos hws]
    exact ih

/-- Outer decode loop stuck on whitespace: lifting of
`decFetchLoop_whitespace_stuck` through one outer iteration. -/
theorem decOuterLoop_whitespace_stuck (ctx : DecCtx) (ffuel : Nat) (s : DecState)
    (hreq : ¬ s.requestedDigits = 0) (hcur : s.i < ctx.endIndex)
    (hmem : tableGet ctx.decodingTable (ctx.encodedText.getD s.i 0) = none)
    (hws : isWhitespace (ctx.encodedText.getD s.i 0) = true) :
    ∀ fuel, decOuterLoop ctx ffuel fuel s = none := by
  intro fuel
  cases fuel with
  | zero => rfl
  | succ n =>
    rw [decOuterLoop,
      decFetchLoop_whitespace_stuck ctx { s with trace := s.trace ++ [(s.lo, s.hi)] }
        hreq hcur hmem hws ffuel]

/-- C2 (code bug): decoding the valid text "10" (which decodes to the
empty byte sequence) succeeds, the space character is whitespace and not
a symbol of the alphabet "01", yet decoding " 10" — the same text with
one whitespace character inserted before the terminator — never
terminates (the run yields `none` for every fuel) instead of skipping the
whitespace and producing the same result: the `continue` in the
digit-request loop fails to advance the cursor. -/
theorem whitespace_insertion_hangs_decode :
    decodeBytes 300 table01 [49, 48] = some (.ok []) ∧
    isWhitespace 32 = true ∧ tableGet table01 32 = none ∧
    (∀ fuel, decodeRun fuel table01 [32, 49, 48] = none) := by
  refine ⟨by rfl, by rfl, by rfl, ?_⟩
  intro fuel
  exact decOuterLoop_whitespace_stuck wsHangCtx fuel wsState
    (by decide) (by decide) (by rfl) (by rfl) fuel

/-- C6 (code bug): the character "x" (code 120) in the text " x0" over
the alphabet "01" is neither an alphabet symbol nor whitespace and occurs
before the final symbol, so by the claim `decode` must raise the input
error — as it does for "x0" — but on " x0" the run instead hangs forever
on the preceding whitespace character (the run yields `none` for every
fuel) and never raises the error. -/
theorem invalid_character_error_not_raised :
    tableGet table01 120 = none ∧ isWhitespace 120 = false ∧
    decodeBytes 300 table01 [120, 48] = some (.error "invalid input string") ∧
    (∀ fuel, decodeRun fuel table01 [32, 120, 48] = none) := by
  refine ⟨by rfl, by rfl, by rfl, ?_⟩
  intro fuel
  exact decOuterLoop_whitespace_stuck badCharCtx fuel wsState
    (by decide) (by decide) (by rfl) (by rfl) fuel

set_option maxRecDepth 4000 in
/-- Precision-parameter facts hold for every base in [2, 256]. -/
theorem paramsGood_of_range (base : Nat) (h2 : 2 ≤ base) (h256 : base ≤ 256) :
    ParamsGood base := by
  have h : ∀ b, b < 257 → 2 ≤ b → ParamsGood b := by decide
  exact h base (by omega) h2

/-- Interval bounds after the settle shift `lo := lo % M * b`,
`hi := hi % M * b` taken when the leading digits agree: order and range
are preserved and the width grows by the factor `b`. -/
theorem settle_shift_bounds (M b lo hi w : Nat) (hM : 0 < M) (hb : 0 < b)
    (hw : hi = lo + w) (hhi : hi < M * b) (heq : lo / M = hi / M) :
    hi % M * b = lo % M * b + w * b ∧ hi % M * b < M * b := by
  have e1 := Nat.div_add_mod lo M
  have e2 := Nat.div_add_mod hi M
  rw [heq] at e1
  have h2 : hi % M < M := Nat.mod_lt _ hM
  have h3 : hi % M = lo % M + w := by omega
  constructor
  · rw [h3, Nat.add_mul]
  · exact Nat.mul_lt_mul_of_lt_of_le h2 (Nat.le_refl b) hb

/-- Second-digit extraction: with `M = S * b`, the digit tested by the
carry-straddle condition, `x / S % b`, is the second-most-significant
digit `x % M / S`. -/
theorem second_digit_eq (S b x : Nat) : x / S % b = x % (S * b) / S :=
  (Nat.mod_mul_right_div_self x S b).symm

/-- Interval bounds after the defer shift taken when the interval
straddles a carry boundary: order and range are preserved and the width
grows by the factor `b`. -/
theorem defer_shift_bounds (M S b lo hi w : Nat)
    (hM : M = S * b) (hb : 2 ≤ b) (hS : 0 < S)
    (hw : hi = lo + w) (hhi : hi < M * b)
    (hdiff : hi / M = lo / M + 1)
    (hlo2 : lo / S % b = b - 1) (hhi2 : hi / S % b = 0) :
    hi / M * M + hi % S * b = (lo / M * M + lo % S * b) + w * b ∧
    hi / M * M + hi % S * b < M * b ∧
    lo / M * M + lo % S * b ≤ hi / M * M + hi % S * b := by
  have hM0 : 0 < M := by rw [hM]; exact Nat.mul_pos hS (by omega)
  rw [second_digit_eq, ← hM] at hlo2 hhi2
  have e1 := Nat.div_add_mod lo M
  have e2 := Nat.div_add_mod hi M
  have e3 := Nat.div_add_mod (lo % M) S
  have e4 := Nat.div_add_mod (hi % M) S
  rw [hlo2] at e3
  rw [hhi2] at e4
  have hmodS1 : lo % M % S = lo % S := Nat.mod_mod_of_dvd lo ⟨b, hM⟩
  have hmodS2 : hi % M % S = hi % S := Nat.mod_mod_of_dvd hi ⟨b, hM⟩
  rw [hmodS1] at e3
  rw [hmodS2] at e4
  rw [hdiff]
  rw [hdiff] at e2
  -- linear decompositions with all nonlinear products expanded explicitly
  have p1 : S * (b - 1) + S = M := by
    rw [hM]
    have hb1 : b - 1 + 1 = b := by omega
    calc S * (b - 1) + S = S * ((b - 1) + 1) := by ring
    _ = S * b := by rw [hb1]
  have p2 : M * (lo / M + 1) = M * (lo / M) + M := by ring
  have p3 : (lo / M + 1) * M = M * (lo / M) + M := by ring
  have p4 : lo / M * M = M * (lo / M) := by ring
  have hrlS : lo % S < S := Nat.mod_lt _ hS
  have hrhS : hi % S < S := Nat.mod_lt _ hS
  have hdivb : lo / M + 1 < b := by
    have hx : hi / M < b :=
      (Nat.div_lt_iff_lt_mul hM0).mpr (by rw [Nat.mul_comm]; exact hhi)
    omega
  -- the linear relation between the width and the second digits
  have hrel : w + S * (b - 1) + lo % S = S * b + hi % S := by
    have hMS : M = S * b := hM
    omega
  have hrelb : w * b + S * (b - 1) * b + (lo % S) * b = S * b * b + (hi % S) * b := by
    have h := congrArg (fun x => x * b) hrel
    simpa [Nat.add_mul] using h
  have hid : S * (b - 1) * b + S * b = S * b * b := by
    calc S * (b - 1) * b + S * b = (S * (b - 1) + S) * b := by ring
    _ = M * b := by rw [p1]
    _ = S * b * b := by rw [hM]
  have hq1 : (lo % S) * b ≤ (S - 1) * b := Nat.mul_le_mul_right b (by omega)
  have hq2 : (hi % S) * b ≤ (S - 1) * b := Nat.mul_le_mul_right b (by omega)
  have hq3 : (S - 1) * b + b = M := by
    rw [hM]
    have hb1 : S - 1 + 1 = S := by omega
    calc (S - 1) * b + b = ((S - 1) + 1) * b := by ring
    _ = S * b := by rw [hb1]
  have hq4 : (lo / M + 1) * M ≤ (b - 1) * M := Nat.mul_le_mul_right M (by omega)
  have hq5 : (b - 1) * M + M = b * M := by
    have hb1 : b - 1 + 1 = b := by omega
    calc (b - 1) * M + M = ((b - 1) + 1) * M := by ring
    _ = b * M := by rw [hb1]
  have hq6 : M * b = b * M := Nat.mul_comm M b
  have hq7 : M = S * b := hM
  have hb0 : 0 < b := by omega
  refine ⟨by omega, by omega, by omega⟩

/-- Interval bounds after the narrowing step for a byte below 256 and a
width of at least 2^16 + 1: the bounds stay ordered and inside the old
interval, and the narrowed width is at least 256. -/
theorem encNarrow_bounds (lo hi byte : Nat) (hbyte : byte < 256)
    (hw : lo + 65536 ≤ hi) :
    lo ≤ (encNarrow lo hi byte).1 ∧
    (encNarrow lo hi byte).1 + 255 ≤ (encNarrow lo hi byte).2 ∧
    (encNarrow lo hi byte).2 ≤ hi := by
  unfold encNarrow ceilDiv
  have hA : (hi - lo + 1) * (byte + 1) = (hi - lo + 1) * byte + (hi - lo + 1) := by
    ring
  have hB : (hi - lo + 1) * byte ≤ 255 * (hi - lo + 1) := by
    rw [Nat.mul_comm]
    exact Nat.mul_le_mul_right _ (by omega)
  refine ⟨by omega, by omega, by omega⟩

/-- Width at a loop break with leading digits at least two apart: the
width is larger than the most-significant place value. -/
theorem exit_width_far (M lo hi w : Nat) (hM : 0 < M)
    (hw : hi = lo + w) (hdiff : lo / M + 2 ≤ hi / M) :
    M < w := by
  have e1 := Nat.div_add_mod lo M
  have e2 := Nat.div_add_mod hi M
  have h1 : M * (lo / M + 2) ≤ M * (hi / M) := Nat.mul_le_mul_left M hdiff
  have h2 : M * (lo / M + 2) = M * (lo / M) + M + M := by ring
  have h3 : lo % M < M := Nat.mod_lt _ hM
  omega

/-- Width at a loop break with adjacent leading digits but no carry
straddle: the width exceeds the second-most-significant place value. -/
theorem exit_width_near (M S b lo hi w : Nat)
    (hM : M = S * b) (hb : 2 ≤ b) (hS : 0 < S)
    (hw : hi = lo + w) (hdiff : hi / M = lo / M + 1)
    (hnstr : ¬ (lo / S % b = b - 1 ∧ hi / S % b = 0)) :
    S < w := by
  have hM0 : 0 < M := by rw [hM]; exact Nat.mul_pos hS (by omega)
  have e1 := Nat.div_add_mod lo M
  have e2 := Nat.div_add_mod hi M
  have e3 := Nat.div_add_mod (lo % M) S
  have e4 := Nat.div_add_mod (hi % M) S
  rw [hdiff] at e2
  have p2 : M * (lo / M + 1) = M * (lo / M) + M := by ring
  have hmodS1 : lo % M % S = lo % S := Nat.mod_mod_of_dvd lo ⟨b, hM⟩
  have hmodS2 : hi % M % S = hi % S := Nat.mod_mod_of_dvd hi ⟨b, hM⟩
  rw [hmodS1] at e3
  rw [hmodS2] at e4
  have hsd1 : lo / S % b = lo % M / S := by
    rw [second_digit_eq, ← hM]
  have hsd2 : hi / S % b = hi % M / S := by
    rw [second_digit_eq, ← hM]
  have hrlS : lo % S < S := Nat.mod_lt _ hS
  have hrhS : hi % S < S := Nat.mod_lt _ hS
  have hloM : lo % M < M := Nat.mod_lt _ hM0
  rw [hsd1, hsd2] at hnstr
  rcases Decidable.not_and_iff_or_not.mp hnstr with h | h
  · -- the second digit of lo is at most b - 2
    have hdig : lo % M / S < b := by
      rw [← hsd1]
      exact Nat.mod_lt _ (by omega)
    have hdig2 : lo % M / S ≤ b - 2 := by omega
    have h5 : S * (lo % M / S) ≤ S * (b - 2) := Nat.mul_le_mul_left S hdig2
    have h6 : S * (b - 2) + S + S = M := by
      rw [hM]
      have hb2 : b - 2 + 2 = b := by omega
      calc S * (b - 2) + S + S = S * ((b - 2) + 2) := by ring
      _ = S * b := by rw [hb2]
    omega
  · -- the second digit of hi is at least 1
    have hdig : 1 ≤ hi % M / S := by omega
    have h5 : S * 1 ≤ S * (hi % M / S) := Nat.mul_le_mul_left S hdig
    omega

/-- Master preservation lemma for the encoder digit-extraction loop: the
upper bound stays below `M * b`, the bounds stay ordered (witnessed by an
explicit width), every interval newly recorded in the trace satisfies the
invariant, every newly emitted symbol index is below the base, and on
return the width either exceeds `S` (loop left via a break) or has been
multiplied by `b` once per iteration. -/
theorem encEmitLoop_master (M S b : Nat) (hM : M = S * b) (hb : 2 ≤ b)
    (hS : 0 < S) :
    ∀ (n : Nat) (s : EncState) (w : Nat), s.hi = s.lo + w → s.hi < M * b →
      (encEmitLoop M S b n s).hi < M * b ∧
      (∃ w', (encEmitLoop M S b n s).hi = (encEmitLoop M S b n s).lo + w' ∧
        (S < w' ∨ w' = w * b ^ n)) ∧
      (∀ q ∈ (encEmitLoop M S b n s).trace,
        q ∈ s.trace ∨ (q.1 ≤ q.2 ∧ q.2 < M * b)) ∧
      (∀ d ∈ (encEmitLoop M S b n s).out, d ∈ s.out ∨ d < b) := by
  have hM0 : 0 < M := by rw [hM]; exact Nat.mul_pos hS (by omega)
  have hb0 : 0 < b := by omega
  have hSM : S ≤ M := by
    rw [hM]
    calc S = S * 1 := by ring
    _ ≤ S * b := Nat.mul_le_mul_left S hb0
  intro n
  induction n with
  | zero =>
    intro s w hw hhi
    exact ⟨hhi, ⟨w, hw, Or.inr (by simp)⟩,
      fun q hq => Or.inl hq, fun d hd => Or.inl hd⟩
  | succ n ih =>
    intro s w hw hhi
    have hdivle : s.lo / M ≤ s.hi / M := Nat.div_le_div_right (by omega)
    rw [encEmitLoop]
    by_cases hd : s.hi / M - s.lo / M = 1
    · have hdiff : s.hi / M = s.lo / M + 1 := by omega
      by_cases hstr : s.lo / S % b = b - 1 ∧ s.hi / S % b = 0
      · rw [if_pos hd, if_pos hstr]
        obtain ⟨heq, hlt, hle⟩ :=
          defer_shift_bounds M S b s.lo s.hi w hM hb hS hw hhi hdiff hstr.1 hstr.2
        obtain ⟨h1', ⟨w', hw', hdisj⟩, htr', hout'⟩ :=
          ih { s with
                lo := s.lo / M * M + s.lo % S * b,
                hi := s.hi / M * M + s.hi % S * b,
                digitsToAdd := s.digitsToAdd + 1,
                digitsToAddHiMsd := s.hi / M,
                trace := s.trace ++
                  [(s.lo / M * M + s.lo % S * b,
                    s.hi / M * M + s.hi % S * b)] }
            (w * b) heq hlt
        refine ⟨h1', ⟨w', hw', ?_⟩, ?_, ?_⟩
        · rcases hdisj with h | h
          · exact Or.inl h
          · refine Or.inr ?_
            rw [h, pow_succ]
            ring
        · intro q hq
          rcases htr' q hq with hq' | hq'
          · rcases List.mem_append.mp hq' with hq'' | hq''
            · exact Or.inl hq''
            · refine Or.inr ?_
              rcases List.mem_singleton.mp hq'' with rfl
              exact ⟨hle, hlt⟩
          · exact Or.inr hq'
        · intro d hd'
          exact hout' d hd'
      · rw [if_pos hd, if_neg hstr]
        refine ⟨hhi, ⟨w, hw, Or.inl ?_⟩, fun q hq => Or.inl hq, fun d hd' => Or.inl hd'⟩
        calc S < w := exit_width_near M S b s.lo s.hi w hM hb hS hw hdiff hstr
        _ = w := rfl
    · rw [if_neg hd]
      by_cases heq2 : s.lo / M = s.hi / M
      · rw [if_pos heq2]
        obtain ⟨heq, hlt⟩ :=
          settle_shift_bounds M b s.lo s.hi w hM0 hb0 hw hhi heq2
        obtain ⟨h1', ⟨w', hw', hdisj⟩, htr', hout'⟩ :=
          ih { s with
                lo := s.lo % M * b,
                hi := s.hi % M * b,
                out := s.out ++ s.hi / M ::
                  List.replicate s.digitsToAdd
                    (if s.hi / M = s.digitsToAddHiMsd then 0 else b - 1),
                digitsToAdd := 0,
                trace := s.trace ++ [(s.lo % M * b, s.hi % M * b)] }
            (w * b) heq hlt
        have hhiMsd : s.hi / M < b :=
          (Nat.div_lt_iff_lt_mul hM0).mpr (by rw [Nat.mul_comm]; exact hhi)
        refine ⟨h1', ⟨w', hw', ?_⟩, ?_, ?_⟩
        · rcases hdisj with h | h
          · exact Or.inl h
          · refine Or.inr ?_
            rw [h, pow_succ]
            ring
        · intro q hq
          rcases htr' q hq with hq' | hq'
          · rcases List.mem_append.mp hq' with hq'' | hq''
            · exact Or.inl hq''
            · refine Or.inr ?_
              rcases List.mem_singleton.mp hq'' with rfl
              exact ⟨by omega, hlt⟩
          · exact Or.inr hq'
        · intro d hd'
          rcases hout' d hd' with hd'' | hd''
          · rcases List.mem_append.mp hd'' with h3 | h3
            · exact Or.inl h3
            · rcases List.mem_cons.mp h3 with rfl | h4
              · exact Or.inr hhiMsd
              · have := List.eq_of_mem_replicate h4
                subst this
                refine Or.inr ?_
                by_cases hc : s.hi / M = s.digitsToAddHiMsd <;> simp [hc] <;> omega
          · exact Or.inr hd''
      · rw [if_neg heq2]
        have hdiff2 : s.lo / M + 2 ≤ s.hi / M := by omega
        refine ⟨hhi, ⟨w, hw, Or.inl ?_⟩, fun q hq => Or.inl hq, fun d hd' => Or.inl hd'⟩
        have := exit_width_far M s.lo s.hi w hM0 hw hdiff2
        omega

/-- Preservation across one body of the per-byte loop: narrowing followed
by the digit-extraction loop keeps the interval ordered with width at
least 2^16 + 1 and below `M * b`; every interval recorded in the trace
satisfies the invariant and every emitted index is below the base. -/
theorem encByteStep_master (M S b e : Nat) (hM : M = S * b) (hb : 2 ≤ b)
    (hS : 65537 ≤ S) (he : 2 ≤ e) (hpow : 256 ≤ b ^ (e - 1))
    (s : EncState) (byte : Nat) (hbyte : byte < 256)
    (h1 : s.lo + 65536 ≤ s.hi) (h2 : s.hi < M * b) :
    (encByteStep M S b e s byte).lo + 65536 ≤ (encByteStep M S b e s byte).hi ∧
    (encByteStep M S b e s byte).hi < M * b ∧
    (∀ q ∈ (encByteStep M S b e s byte).trace,
      q ∈ s.trace ∨ (q.1 ≤ q.2 ∧ q.2 < M * b)) ∧
    (∀ d ∈ (encByteStep M S b e s byte).out, d ∈ s.out ∨ d < b) := by
  obtain ⟨hp1, hp2, hp3⟩ := encNarrow_bounds s.lo s.hi byte hbyte h1
  have hpow512 : 512 ≤ b ^ e := by
    have hee : b ^ e = b ^ (e - 1) * b := by
      conv_lhs => rw [show e = (e - 1) + 1 by omega]
      rw [pow_succ]
    rw [hee]
    calc (512 : Nat) = 256 * 2 := by norm_num
    _ ≤ b ^ (e - 1) * b := Nat.mul_le_mul hpow hb
  have hstep : encByteStep M S b e s byte =
      { encEmitLoop M S b e
          { s with
              lo := (encNarrow s.lo s.hi byte).1,
              hi := (encNarrow s.lo s.hi byte).2,
              trace := s.trace ++ [(s.lo, s.hi)] ++ [encNarrow s.lo s.hi byte] } with
        bytesEncoded :=
          (encEmitLoop M S b e
            { s with
                lo := (encNarrow s.lo s.hi byte).1,
                hi := (encNarrow s.lo s.hi byte).2,
                trace := s.trace ++ [(s.lo, s.hi)] ++ [encNarrow s.lo s.hi byte] }).bytesEncoded
            + 1 } := rfl
  obtain ⟨h1', ⟨w', hw', hdisj⟩, htr', hout'⟩ :=
    encEmitLoop_master M S b hM hb (by omega) e
      { s with
          lo := (encNarrow s.lo s.hi byte).1,
          hi := (encNarrow s.lo s.hi byte).2,
          trace := s.trace ++ [(s.lo, s.hi)] ++ [encNarrow s.lo s.hi byte] }
      ((encNarrow s.lo s.hi byte).2 - (encNarrow s.lo s.hi byte).1)
      (by simp only []; omega) (by simp only []; omega)
  rw [hstep]
  have hw'big : 65537 ≤ w' := by
    rcases hdisj with h | h
    · omega
    · rw [h]
      have hwn : 255 ≤ (encNarrow s.lo s.hi byte).2 - (encNarrow s.lo s.hi byte).1 := by
        omega
      calc (65537 : Nat) ≤ 255 * 512 := by norm_num
      _ ≤ ((encNarrow s.lo s.hi byte).2 - (encNarrow s.lo s.hi byte).1) * b ^ e :=
        Nat.mul_le_mul hwn hpow512
  refine ⟨by simp only []; omega, by simpa using h1', ?_, ?_⟩
  · intro q hq
    simp only [] at hq
    rcases htr' q hq with hq' | hq'
    · simp only [] at hq'
      rcases List.mem_append.mp hq' with hq'' | hq''
      · rcases List.mem_append.mp hq'' with h3 | h3
        · exact Or.inl h3
        · refine Or.inr ?_
          rcases List.mem_singleton.mp h3 with rfl
          exact ⟨by omega, h2⟩
      · refine Or.inr ?_
        rcases List.mem_singleton.mp hq'' with rfl
        exact ⟨by omega, by omega⟩
    · exact Or.inr hq'
  · intro d hd'
    simp only [] at hd'
    exact hout' d hd'

/-- Preservation of the interval invariant across the whole per-byte
loop of `Encoder.encode`. -/
theorem encLoop_master (M S b e : Nat) (hM : M = S * b) (hb : 2 ≤ b)
    (hS : 65537 ≤ S) (he : 2 ≤ e) (hpow : 256 ≤ b ^ (e - 1)) :
    ∀ (bytes : List Nat), (∀ x ∈ bytes, x < 256) →
    ∀ s : EncState, s.lo + 65536 ≤ s.hi → s.hi < M * b →
      (∀ q ∈ s.trace, q.1 ≤ q.2 ∧ q.2 < M * b) →
      (∀ d ∈ s.out, d < b) →
      (List.foldl (encByteStep M S b e) s bytes).lo + 65536
          ≤ (List.foldl (encByteStep M S b e) s bytes).hi ∧
      (List.foldl (encByteStep M S b e) s bytes).hi < M * b ∧
      (∀ q ∈ (List.foldl (encByteStep M S b e) s bytes).trace,
        q.1 ≤ q.2 ∧ q.2 < M * b) ∧
      (∀ d ∈ (List.foldl (encByteStep M S b e) s bytes).out, d < b) := by
  intro bytes
  induction bytes with
  | nil =>
    intro _ s h1 h2 htr hout
    exact ⟨h1, h2, htr, hout⟩
  | cons x xs ih =>
    intro hall s h1 h2 htr hout
    rw [List.foldl_cons]
    have hx : x < 256 := hall x (List.mem_cons_self x xs)
    obtain ⟨g1, g2, g3, g4⟩ :=
      encByteStep_master M S b e hM hb hS he hpow s x hx h1 h2
    refine ih (fun y hy => hall y (List.mem_cons_of_mem x hy))
      (encByteStep M S b e s x) g1 g2 ?_ ?_
    · intro q hq
      rcases g3 q hq with h | h
      · exact htr q h
      · exact h
    · intro d hd
      rcases g4 d hd with h | h
      · exact hout d h
      · exact h

/-- C8 (amended): throughout every ENCODE call, for every base in
[2, 256] and input bytes in [0, 255], the interval state satisfies
`0 ≤ lo ≤ hi ≤ msdDivisor * base - 1` at the start of each per-byte
iteration, after each narrowing step, and after each settle/defer shift
(`encodeTrace` records exactly these checkpoints; `0 ≤ lo` holds by the
`Nat` typing).  The decode half of the original claim is refuted by
`decode_interval_invariant_violated`. -/
theorem encode_interval_invariant (base : Nat) (h2 : 2 ≤ base) (h256 : base ≤ 256)
    (bytes : List Nat) (hbytes : ∀ x ∈ bytes, x < 256) :
    ∀ q ∈ encodeTrace base bytes,
      q.1 ≤ q.2 ∧ q.2 ≤ (calculateParams base).msdDivisor * base - 1 := by
  obtain ⟨hbb, hMS, hS, he, hpow⟩ := paramsGood_of_range base h2 h256
  have hMb : 65537 ≤ (calculateParams base).msdDivisor * base := by
    calc (65537 : Nat) ≤ (calculateParams base).secondMsdDivisor := hS
    _ ≤ (calculateParams base).secondMsdDivisor * base :=
      Nat.le_mul_of_pos_right _ (by omega)
    _ = (calculateParams base).msdDivisor := hMS.symm
    _ ≤ (calculateParams base).msdDivisor * base :=
      Nat.le_mul_of_pos_right _ (by omega)
  have hfold : encLoopFinal base bytes =
      List.foldl
        (encByteStep (calculateParams base).msdDivisor
          (calculateParams base).secondMsdDivisor base
          (calculateParams base).maxDigitsToEmit)
        (encInitState (calculateParams base).msdDivisor base) bytes := rfl
  obtain ⟨g1, g2, g3, _⟩ :=
    encLoop_master (calculateParams base).msdDivisor
      (calculateParams base).secondMsdDivisor base
      (calculateParams base).maxDigitsToEmit hMS h2 hS he hpow bytes hbytes
      (encInitState (calculateParams base).msdDivisor base)
      (by simp only [encInitState]; omega)
      (by simp only [encInitState]; omega)
      (by simp [encInitState])
      (by simp [encInitState])
  intro q hq
  have hq' : q ∈ (encLoopFinal base bytes).trace ++
      [((encLoopFinal base bytes).lo, (encLoopFinal base bytes).hi)] := hq
  rcases List.mem_append.mp hq' with h | h
  · rw [hfold] at h
    have := g3 q h
    omega
  · rcases List.mem_singleton.mp h with rfl
    rw [hfold]
    constructor
    · simp only []
      omega
    · simp only []
      omega

/-- C8 witness: the amended theorem evaluated at base 3 on the byte
sequence [7, 200] (the `all` forms are the propositional hypotheses and
conclusion made computable). -/
theorem encode_interval_invariant_witness :
    2 ≤ 3 ∧ 3 ≤ 256 ∧
    ([7, 200].all (fun x => decide (x < 256)) = true) ∧
    ((encodeTrace 3 [7, 200]).all
      (fun q => decide (q.1 ≤ q.2 ∧
        q.2 ≤ (calculateParams 3).msdDivisor * 3 - 1)) = true) := by
  refine ⟨by decide, by decide, by decide, ?_⟩
  have h := encode_interval_invariant 3 (by decide) (by decide) [7, 200] (by decide)
  rw [List.all_eq_true]
  intro q hq
  simpa using h q hq

set_option maxRecDepth 100000 in
/-- C8 counterexample: the interval invariant does NOT hold throughout
every decode call.  Decoding the adversarial text "222…20" (twenty-six
"2"s and terminator "0") over the alphabet "012" — every character a
valid alphabet symbol — completes, yields a "byte" equal to 256 (already
outside [0, 255]), and reaches interval states whose upper bound exceeds
`msdDivisor * base - 1`. -/
theorem decode_interval_invariant_violated :
    tableSize table012 = 3 ∧
    advText3.all (fun c => tableHas table012 c) = true ∧
    decodeBytes 100 table012 advText3 = some (.ok [255, 256, 0, 0, 0, 220]) ∧
    (decodeTraceOf 100 table012 advText3).any
      (fun q => decide (((calculateParams 3).msdDivisor : Int) * 3 - 1 < q.2)) = true := by
  refine ⟨by rfl, by rfl, by rfl, by rfl⟩

/-- C9: for every alphabet of size in [2, 256] and bytes in [0, 255],
every index used to read the encoding table during `encode` lies in
[0, base), and hence every character of the encoded text is a symbol of
the alphabet. -/
theorem encode_output_in_alphabet (alphabet : List Nat)
    (h2 : 2 ≤ alphabet.length) (h256 : alphabet.length ≤ 256)
    (bytes : List Nat) (hbytes : ∀ x ∈ bytes, x < 256) :
    (∀ d ∈ encodeIndices alphabet.length bytes, d < alphabet.length) ∧
    (∀ c ∈ encode alphabet bytes, c ∈ alphabet) := by
  obtain ⟨hbb, hMS, hS, he, hpow⟩ := paramsGood_of_range alphabet.length h2 h256
  have hfold : encLoopFinal alphabet.length bytes =
      List.foldl
        (encByteStep (calculateParams alphabet.length).msdDivisor
          (calculateParams alphabet.length).secondMsdDivisor alphabet.length
          (calculateParams alphabet.length).maxDigitsToEmit)
        (encInitState (calculateParams alphabet.length).msdDivisor alphabet.length)
        bytes := rfl
  have hMb : 65537 ≤ (calculateParams alphabet.length).msdDivisor * alphabet.length := by
    calc (65537 : Nat) ≤ (calculateParams alphabet.length).secondMsdDivisor := hS
    _ ≤ (calculateParams alphabet.length).secondMsdDivisor * alphabet.length :=
      Nat.le_mul_of_pos_right _ (by omega)
    _ = (calculateParams alphabet.length).msdDivisor := hMS.symm
    _ ≤ (calculateParams alphabet.length).msdDivisor * alphabet.length :=
      Nat.le_mul_of_pos_right _ (by omega)
  obtain ⟨g1, g2, g3, g4⟩ :=
    encLoop_master (calculateParams alphabet.length).msdDivisor
      (calculateParams alphabet.length).secondMsdDivisor alphabet.length
      (calculateParams alphabet.length).maxDigitsToEmit hMS h2 hS he hpow bytes hbytes
      (encInitState (calculateParams alphabet.length).msdDivisor alphabet.length)
      (by simp only [encInitState]; omega)
      (by simp only [encInitState]; omega)
      (by simp [encInitState])
      (by simp [encInitState])
  have hM0 : 0 < (calculateParams alphabet.length).msdDivisor := by
    rw [hMS]
    exact Nat.mul_pos (by omega) (by omega)
  have hidx : ∀ d ∈ encodeIndices alphabet.length bytes, d < alphabet.length := by
    intro d hd
    have hd' : d ∈ (encLoopFinal alphabet.length bytes).out
        ++ [(encLoopFinal alphabet.length bytes).hi
              / (calculateParams alphabet.length).msdDivisor]
        ++ List.replicate (encLoopFinal alphabet.length bytes).digitsToAdd 0
        ++ [(encLoopFinal alphabet.length bytes).bytesEncoded % 2] := hd
    rcases List.mem_append.mp hd' with h | h
    · rcases List.mem_append.mp h with h' | h'
      · rcases List.mem_append.mp h' with h'' | h''
        · rw [hfold] at h''
          exact g4 d h''
        · rcases List.mem_singleton.mp h'' with rfl
          rw [hfold]
          exact (Nat.div_lt_iff_lt_mul hM0).mpr (by rw [Nat.mul_comm]; omega)
      · have := List.eq_of_mem_replicate h'
        omega
    · rcases List.mem_singleton.mp h with rfl
      have : (encLoopFinal alphabet.length bytes).bytesEncoded % 2 < 2 :=
        Nat.mod_lt _ (by omega)
      omega
  refine ⟨hidx, ?_⟩
  intro c hc
  rcases List.mem_map.mp hc with ⟨d, hd, rfl⟩
  have hlt := hidx d hd
  rw [List.getD_eq_getElem _ _ hlt]
  exact List.getElem_mem hlt

/-- C9 witness: the theorem evaluated for the two-symbol alphabet "01" on
the byte sequence [0, 255] (the `all` forms are the propositional
hypotheses and conclusions made computable). -/
theorem encode_output_in_alphabet_witness :
    2 ≤ alphabet01.length ∧ alphabet01.length ≤ 256 ∧
    ([0, 255].all (fun x => decide (x < 256)) = true) ∧
    ((encodeIndices alphabet01.length [0, 255]).all
      (fun d => decide (d < alphabet01.length)) = true) ∧
    ((encode alphabet01 [0, 255]).all (fun c => decide (c ∈ alphabet01)) = true) := by
  refine ⟨by decide, by decide, by decide, ?_, ?_⟩
  · have h := (encode_output_in_alphabet alphabet01 (by decide) (by decide)
      [0, 255] (by decide)).1
    rw [List.all_eq_true]
    intro d hd
    simpa using h d hd
  · have h := (encode_output_in_alphabet alphabet01 (by decide) (by decide)
      [0, 255] (by decide)).2
    rw [List.all_eq_true]
    intro c hc
    simpa using h c hc

/-! Infrastructure for the round-trip proof (C1): values of digit
strings, window arithmetic, and refined width bounds. -/

/-- Folding the digit-accumulation step from an arbitrary accumulator. -/
theorem digitsVal_from (b : Nat) :
    ∀ (ds : List Nat) (a : Nat),
      ds.foldl (fun x d => x * b + d) a = a * b ^ ds.length + digitsVal b ds := by
  intro ds
  induction ds with
  | nil => intro a; simp [digitsVal]
  | cons d t ih =>
    intro a
    rw [List.foldl_cons, ih (a * b + d)]
    have h2 : digitsVal b (d :: t) = (0 * b + d) * b ^ t.length + digitsVal b t := by
      rw [digitsVal, List.foldl_cons, ih (0 * b + d)]
    rw [h2, List.length_cons]
    ring

/-- Value of a digit string with a leading digit. -/
theorem digitsVal_cons (b d : Nat) (t : List Nat) :
    digitsVal b (d :: t) = d * b ^ t.length + digitsVal b t := by
  rw [digitsVal, List.foldl_cons, digitsVal_from]
  simp

/-- Value of a concatenation of digit strings. -/
theorem digitsVal_append (b : Nat) (l r : List Nat) :
    digitsVal b (l ++ r) = digitsVal b l * b ^ r.length + digitsVal b r := by
  rw [digitsVal, List.foldl_append, ← digitsVal, digitsVal_from]

/-- Value of a single digit. -/
theorem digitsVal_singleton (b d : Nat) : digitsVal b [d] = d := by
  rw [digitsVal_cons]
  simp [digitsVal]

/-- A string of digits below the base has value below `base ^ length`. -/
theorem digitsVal_lt (b : Nat) (hb : 0 < b) :
    ∀ ds : List Nat, (∀ d ∈ ds, d < b) → digitsVal b ds < b ^ ds.length := by
  intro ds
  induction ds with
  | nil => intro _; simp [digitsVal]
  | cons d t ih =>
    intro h
    rw [digitsVal_cons, List.length_cons, pow_succ]
    have hd : d < b := h d (List.mem_cons_self d t)
    have ht : digitsVal b t < b ^ t.length := ih (fun x hx => h x (List.mem_cons_of_mem d hx))
    calc d * b ^ t.length + digitsVal b t
        < d * b ^ t.length + b ^ t.length := by omega
    _ = (d + 1) * b ^ t.length := by ring
    _ ≤ b * b ^ t.length := Nat.mul_le_mul_right _ (by omega)
    _ = b ^ t.length * b := by ring

/-- Mapping a function over `List.range (n + 1)`, head form. -/
theorem map_range_succ_cons (f : Nat → Nat) (n : Nat) :
    (List.range (n + 1)).map f = f 0 :: (List.range n).map (fun j => f (j + 1)) := by
  rw [List.range_succ_eq_map, List.map_cons, List.map_map]
  rfl

/-- Mapping a function over `List.range (n + 1)`, last form. -/
theorem map_range_succ_snoc (f : Nat → Nat) (n : Nat) :
    (List.range (n + 1)).map f = (List.range n).map f ++ [f n] := by
  rw [List.range_succ, List.map_append]
  rfl

/-- Cancellation: from `a * b ≤ c * b + z` with `z < b` conclude `a ≤ c`. -/
theorem mul_le_mul_add_cancel (a c z b : Nat) (hz : z < b)
    (h : a * b ≤ c * b + z) : a ≤ c := by
  by_contra hlt
  push_neg at hlt
  have h1 : (c + 1) * b ≤ a * b := Nat.mul_le_mul_right b hlt
  have h2 : (c + 1) * b = c * b + b := by ring
  omega

/-- The narrowing step divides the interval difference by at least 256. -/
theorem encNarrow_width_upper (lo hi byte : Nat) :
    (encNarrow lo hi byte).2 - (encNarrow lo hi byte).1 ≤ (hi - lo) / 256 := by
  unfold encNarrow ceilDiv
  have h : (hi - lo + 1) * (byte + 1) = (hi - lo + 1) * byte + (hi - lo + 1) := by
    ring
  omega

/-- The narrowing step divides the interval difference by at most 256,
up to one unit of ceiling slack. -/
theorem encNarrow_width_lower (lo hi byte : Nat) :
    (hi - lo + 1) / 256 ≤
      (encNarrow lo hi byte).2 - (encNarrow lo hi byte).1 + 1 := by
  unfold encNarrow ceilDiv
  have h : (hi - lo + 1) * (byte + 1) = (hi - lo + 1) * byte + (hi - lo + 1) := by
    ring
  omega

set_option maxRecDepth 4000 in
/-- The round-trip precision facts hold for every base in [2, 256]. -/
theorem paramsC1_of_range (base : Nat) (h2 : 2 ≤ base) (h256 : base ≤ 256) :
    ParamsC1 base := by
  have h : ∀ b, b < 257 → 2 ≤ b → ParamsC1 b := by decide
  exact h base (by omega) h2

/-- Floor division of natural casts is natural division. -/
theorem natCast_fdiv (a n : Nat) :
    ((a : Int)).fdiv (n : Int) = ((a / n : Nat) : Int) :=
  (Int.ofNat_fdiv a n).symm

/-- Truncating remainder of natural casts is the natural remainder. -/
theorem natCast_tmod (a n : Nat) :
    ((a : Int)).tmod (n : Int) = ((a % n : Nat) : Int) :=
  (Int.ofNat_tmod a n).symm

/-- Quotient and remainder of a digit decomposition. -/
theorem addMul_div_mod (q r n : Nat) (hn : 0 < n) (hr : r < n) :
    (q * n + r) / n = q ∧ (q * n + r) % n = r := by
  constructor
  · rw [Nat.mul_comm q n, Nat.mul_add_div hn]
    simp [Nat.div_eq_of_lt hr]
  · rw [Nat.add_comm, Nat.add_mul_mod_self_right, Nat.mod_eq_of_lt hr]

/-- The value of a window tail is below `base ^ (c + 1)`. -/
theorem tailVal_lt (b c : Nat) (O : List Nat) (hO : ∀ pos, O.getD pos 0 < b)
    (base off : Nat) (n : Nat) :
    digitsVal b ((List.range n).map (fun j => O.getD (base + off + j) 0)) < b ^ n := by
  have hb : 0 < b := by
    have := hO 0
    omega
  have h := digitsVal_lt b hb ((List.range n).map (fun j => O.getD (base + off + j) 0))
    (by
      intro d hd
      rcases List.mem_map.mp hd with ⟨j, _, rfl⟩
      exact hO _)
  simpa using h

/-- Decomposition of a window value into its leading digit and tail. -/
theorem wval_decompose (b c : Nat) (O : List Nat) (off dta : Nat) :
    wval b c O off dta = O.getD off 0 * b ^ (c + 1) +
      digitsVal b ((List.range (c + 1)).map (fun j => O.getD (off + dta + 1 + j) 0)) := by
  rw [wval, digitsVal_cons]
  simp

/-- The tail of a window splits into its first digit and the rest. -/
theorem wval_tail_split (b c : Nat) (O : List Nat) (off dta : Nat) :
    digitsVal b ((List.range (c + 1)).map (fun j => O.getD (off + dta + 1 + j) 0)) =
      O.getD (off + dta + 1) 0 * b ^ c +
      digitsVal b ((List.range c).map (fun j => O.getD (off + dta + 2 + j) 0)) := by
  rw [map_range_succ_cons, digitsVal_cons]
  have h1 : (List.range c).map (fun j => O.getD (off + dta + 1 + (j + 1)) 0) =
      (List.range c).map (fun j => O.getD (off + dta + 2 + j) 0) :=
    List.map_congr_left (fun j _ => by
      have : off + dta + 1 + (j + 1) = off + dta + 2 + j := by omega
      rw [this])
  rw [h1]
  simp

/-- The tail of a window extends by one stream digit at the end. -/
theorem wval_tail_snoc (b c : Nat) (O : List Nat) (off dta : Nat) :
    digitsVal b ((List.range (c + 1)).map (fun j => O.getD (off + dta + 2 + j) 0)) =
      digitsVal b ((List.range c).map (fun j => O.getD (off + dta + 2 + j) 0)) * b
        + O.getD (off + dta + c + 2) 0 := by
  rw [map_range_succ_snoc, digitsVal_append, digitsVal_singleton]
  have h1 : off + dta + 2 + c = off + dta + c + 2 := by omega
  rw [h1]
  simp

/-- Window arithmetic for a settle shift: the window one position to the
right with the pending digits absorbed equals the current tail extended
by the next stream digit. -/
theorem wval_settle_slide (b c : Nat) (O : List Nat) (off dta : Nat) :
    wval b c O (off + 1 + dta) 0 =
      digitsVal b ((List.range (c + 1)).map (fun j => O.getD (off + dta + 1 + j) 0)) * b
        + O.getD (off + dta + c + 2) 0 := by
  have e1 : digitsVal b ((List.range (c + 1 + 1)).map (fun j => O.getD (off + dta + 1 + j) 0)) =
      O.getD (off + dta + 1 + 0) 0 * b ^ (c + 1)
        + digitsVal b ((List.range (c + 1)).map (fun j => O.getD (off + dta + 1 + (j + 1)) 0)) := by
    rw [map_range_succ_cons (fun j => O.getD (off + dta + 1 + j) 0) (c + 1), digitsVal_cons]
    simp
  have e2 : digitsVal b ((List.range (c + 1 + 1)).map (fun j => O.getD (off + dta + 1 + j) 0)) =
      digitsVal b ((List.range (c + 1)).map (fun j => O.getD (off + dta + 1 + j) 0)) * b
        + O.getD (off + dta + 1 + (c + 1)) 0 := by
    rw [map_range_succ_snoc (fun j => O.getD (off + dta + 1 + j) 0) (c + 1),
      digitsVal_append, digitsVal_singleton]
    simp
  rw [wval, digitsVal_cons]
  have h1 : (List.range (c + 1)).map (fun j => O.getD (off + 1 + dta + 0 + 1 + j) 0) =
      (List.range (c + 1)).map (fun j => O.getD (off + dta + 1 + (j + 1)) 0) :=
    List.map_congr_left (fun j _ => by
      have h : off + 1 + dta + 0 + 1 + j = off + dta + 1 + (j + 1) := by omega
      rw [h])
  rw [h1]
  have h0 : O.getD (off + 1 + dta) 0 = O.getD (off + dta + 1 + 0) 0 := by
    have h : off + 1 + dta = off + dta + 1 + 0 := by omega
    rw [h]
  rw [h0]
  have h3 : off + dta + 1 + (c + 1) = off + dta + c + 2 := by omega
  rw [h3] at e2
  simp only [List.length_map, List.length_range, pow_one] at e1 e2 ⊢
  omega

/-- Window arithmetic for a defer shift: the window with one more pending
digit keeps the head, drops the digit after it, and appends the next
stream digit. -/
theorem wval_defer_slide (b c : Nat) (O : List Nat) (off dta : Nat) :
    wval b c O off (dta + 1) =
      O.getD off 0 * b ^ (c + 1) +
      (digitsVal b ((List.range c).map (fun j => O.getD (off + dta + 2 + j) 0)) * b
        + O.getD (off + dta + c + 2) 0) := by
  rw [wval_decompose]
  have h1 : (List.range (c + 1)).map (fun j => O.getD (off + (dta + 1) + 1 + j) 0) =
      (List.range (c + 1)).map (fun j => O.getD (off + dta + 2 + j) 0) :=
    List.map_congr_left (fun j _ => by
      have : off + (dta + 1) + 1 + j = off + dta + 2 + j := by omega
      rw [this])
  rw [h1, wval_tail_snoc]

/-- The defer shift component `x % S * b` stays below `M = S * b`. -/
theorem modS_mul_lt (M S b x : Nat) (hM : M = S * b) (hS : 0 < S) (hb : 0 < b) :
    x % S * b < M := by
  have h1 : x % S < S := Nat.mod_lt x hS
  have h2 : x % S * b < S * b := Nat.mul_lt_mul_of_lt_of_le h1 (Nat.le_refl b) hb
  omega

/-- Quotient of the defer shift target by the leading place value. -/
theorem defer_div (M S b x : Nat) (hM : M = S * b) (hS : 0 < S) (hb : 0 < b) :
    (x / M * M + x % S * b) / M = x / M := by
  have hM0 : 0 < M := by rw [hM]; exact Nat.mul_pos hS hb
  exact (addMul_div_mod _ _ _ hM0 (modS_mul_lt M S b x hM hS hb)).1

/-- The defer shift keeps values inside the full range. -/
theorem defer_lt_range (M S b x : Nat) (hM : M = S * b) (hS : 0 < S) (hb : 0 < b)
    (hx : x < M * b) : x / M * M + x % S * b < M * b := by
  have hM0 : 0 < M := by rw [hM]; exact Nat.mul_pos hS hb
  have h1 : x / M < b := (Nat.div_lt_iff_lt_mul hM0).mpr (by rw [Nat.mul_comm]; exact hx)
  have h3 : (x / M + 1) * M ≤ b * M := Nat.mul_le_mul_right M (by omega)
  have h4 : (x / M + 1) * M = x / M * M + M := by ring
  have h5 : x % S * b < M := modS_mul_lt M S b x hM hS hb
  have h6 : M * b = b * M := Nat.mul_comm M b
  omega

/-- The settle shift keeps values inside the full range. -/
theorem settle_lt_range (M b x : Nat) (hM0 : 0 < M) (hb : 0 < b) :
    x % M * b < M * b :=
  Nat.mul_lt_mul_of_lt_of_le (Nat.mod_lt _ hM0) (Nat.le_refl b) hb

/-- A carry-straddling interval never settles: once the leading digits
are exactly one apart, the digit-extraction loop performs only defer
shifts or stops, so no settle is counted. -/
theorem sigmaCounts_fst_of_diff1 (M S b : Nat) (hM : M = S * b) (hS : 0 < S)
    (hb : 2 ≤ b) :
    ∀ (n lo hi : Nat), hi < M * b → hi / M = lo / M + 1 →
      (sigmaCounts M S b n lo hi).1 = 0 := by
  intro n
  induction n with
  | zero => intro lo hi _ _; rfl
  | succ n ih =>
    intro lo hi hhi hdiff
    rw [sigmaCounts]
    have hc1 : hi / M - lo / M = 1 := by omega
    rw [if_pos hc1]
    by_cases hstr : lo / S % b = b - 1 ∧ hi / S % b = 0
    · rw [if_pos hstr]
      have hlodiv := defer_div M S b lo hM hS (by omega)
      have hhidiv := defer_div M S b hi hM hS (by omega)
      have hhib := defer_lt_range M S b hi hM hS (by omega) hhi
      have := ih (lo / M * M + lo % S * b) (hi / M * M + hi % S * b) hhib
        (by rw [hlodiv, hhidiv]; exact hdiff)
      simpa using this
    · rw [if_neg hstr]

/-- Pending-digit bookkeeping is preserved by the digit-extraction loop:
if a positive pending count comes with leading digits exactly one apart
and a current recorded top digit, this still holds on exit. -/
theorem encEmitLoop_pend (M S b : Nat) (hM : M = S * b) (hS : 0 < S) (hb : 2 ≤ b) :
    ∀ (n : Nat) (s : EncState), s.hi < M * b →
      (0 < s.digitsToAdd →
        s.hi / M = s.lo / M + 1 ∧ s.digitsToAddHiMsd = s.hi / M) →
      (0 < (encEmitLoop M S b n s).digitsToAdd →
        (encEmitLoop M S b n s).hi / M = (encEmitLoop M S b n s).lo / M + 1 ∧
        (encEmitLoop M S b n s).digitsToAddHiMsd = (encEmitLoop M S b n s).hi / M) := by
  have hM0 : 0 < M := by rw [hM]; exact Nat.mul_pos hS (by omega)
  intro n
  induction n with
  | zero => intro s _ h; exact h
  | succ n ih =>
    intro s hhi hpend
    rw [encEmitLoop]
    by_cases hd : s.hi / M - s.lo / M = 1
    · by_cases hstr : s.lo / S % b = b - 1 ∧ s.hi / S % b = 0
      · rw [if_pos hd, if_pos hstr]
        have hlodiv := defer_div M S b s.lo hM hS (by omega)
        have hhidiv := defer_div M S b s.hi hM hS (by omega)
        have hhib := defer_lt_range M S b s.hi hM hS (by omega) hhi
        exact ih
          { s with
              lo := s.lo / M * M + s.lo % S * b,
              hi := s.hi / M * M + s.hi % S * b,
              digitsToAdd := s.digitsToAdd + 1,
              digitsToAddHiMsd := s.hi / M,
              trace := s.trace ++
                [(s.lo / M * M + s.lo % S * b, s.hi / M * M + s.hi % S * b)] }
          hhib (by
            intro _
            refine ⟨?_, ?_⟩
            · show (s.hi / M * M + s.hi % S * b) / M
                = (s.lo / M * M + s.lo % S * b) / M + 1
              rw [hlodiv, hhidiv]
              omega
            · show s.hi / M = (s.hi / M * M + s.hi % S * b) / M
              rw [hhidiv])
      · rw [if_pos hd, if_neg hstr]
        exact hpend
    · rw [if_neg hd]
      by_cases heq : s.lo / M = s.hi / M
      · rw [if_pos heq]
        have hhib := settle_lt_range M b s.hi hM0 (by omega)
        exact ih
          { s with
              lo := s.lo % M * b,
              hi := s.hi % M * b,
              out := s.out ++ s.hi / M ::
                List.replicate s.digitsToAdd
                  (if s.hi / M = s.digitsToAddHiMsd then 0 else b - 1),
              digitsToAdd := 0,
              trace := s.trace ++ [(s.lo % M * b, s.hi % M * b)] }
          hhib (by intro h; simp only [] at h; omega)
      · rw [if_neg heq]
        exact hpend

/-- Once the leading digits are exactly one apart, the digit-extraction
loop keeps them exactly one apart (it can only defer or stop). -/
theorem encEmitLoop_diff1 (M S b : Nat) (hM : M = S * b) (hS : 0 < S) (hb : 2 ≤ b) :
    ∀ (n : Nat) (s : EncState), s.hi < M * b → s.hi / M = s.lo / M + 1 →
      (encEmitLoop M S b n s).hi / M = (encEmitLoop M S b n s).lo / M + 1 := by
  have hM0 : 0 < M := by rw [hM]; exact Nat.mul_pos hS (by omega)
  intro n
  induction n with
  | zero => intro s _ h; exact h
  | succ n ih =>
    intro s hhi hdiff
    rw [encEmitLoop]
    have hc1 : s.hi / M - s.lo / M = 1 := by omega
    rw [if_pos hc1]
    by_cases hstr : s.lo / S % b = b - 1 ∧ s.hi / S % b = 0
    · rw [if_pos hstr]
      have hlodiv := defer_div M S b s.lo hM hS (by omega)
      have hhidiv := defer_div M S b s.hi hM hS (by omega)
      have hhib := defer_lt_range M S b s.hi hM hS (by omega) hhi
      exact ih
        { s with
            lo := s.lo / M * M + s.lo % S * b,
            hi := s.hi / M * M + s.hi % S * b,
            digitsToAdd := s.digitsToAdd + 1,
            digitsToAddHiMsd := s.hi / M,
            trace := s.trace ++
              [(s.lo / M * M + s.lo % S * b, s.hi / M * M + s.hi % S * b)] }
        hhib (by
          show (s.hi / M * M + s.hi % S * b) / M
            = (s.lo / M * M + s.lo % S * b) / M + 1
          rw [hlodiv, hhidiv]
          omega)
    · rw [if_neg hstr]
      exact hdiff

/-- A run of the digit-extraction loop that ends with equal leading
digits consisted of settles only: the exit `lo` is divisible by `base`
once per loop iteration and the width was multiplied accordingly. -/
theorem encEmitLoop_diff0 (M S b : Nat) (hM : M = S * b) (hS : 0 < S) (hb : 2 ≤ b) :
    ∀ (n : Nat) (s : EncState) (k w : Nat),
      s.hi = s.lo + w → s.hi < M * b →
      b ^ k ∣ s.lo → b ^ (n + k) ∣ M * b →
      (encEmitLoop M S b n s).hi / M = (encEmitLoop M S b n s).lo / M →
      b ^ (n + k) ∣ (encEmitLoop M S b n s).lo ∧
      (encEmitLoop M S b n s).hi = (encEmitLoop M S b n s).lo + w * b ^ n := by
  have hM0 : 0 < M := by rw [hM]; exact Nat.mul_pos hS (by omega)
  intro n
  induction n with
  | zero =>
    intro s k w hw _ hdvd _ _
    simpa using ⟨hdvd, hw⟩
  | succ n ih =>
    intro s k w hw hhi hdvd hdvdM hdiff0
    rw [encEmitLoop] at hdiff0 ⊢
    by_cases hd : s.hi / M - s.lo / M = 1
    · by_cases hstr : s.lo / S % b = b - 1 ∧ s.hi / S % b = 0
      · exfalso
        rw [if_pos hd, if_pos hstr] at hdiff0
        have hlodiv := defer_div M S b s.lo hM hS (by omega)
        have hhidiv := defer_div M S b s.hi hM hS (by omega)
        have hhib := defer_lt_range M S b s.hi hM hS (by omega) hhi
        have hd1 := encEmitLoop_diff1 M S b hM hS hb n
          { s with
              lo := s.lo / M * M + s.lo % S * b,
              hi := s.hi / M * M + s.hi % S * b,
              digitsToAdd := s.digitsToAdd + 1,
              digitsToAddHiMsd := s.hi / M,
              trace := s.trace ++
                [(s.lo / M * M + s.lo % S * b,
                  s.hi / M * M + s.hi % S * b)] }
          hhib (by simp only []; rw [hlodiv, hhidiv]; omega)
        omega
      · rw [if_pos hd, if_neg hstr] at hdiff0
        omega
    · by_cases heq : s.lo / M = s.hi / M
      · rw [if_neg hd, if_pos heq] at hdiff0 ⊢
        obtain ⟨hshift, hlt⟩ :=
          settle_shift_bounds M b s.lo s.hi w hM0 (by omega) hw hhi heq
        have hdvdM' : b ^ k ∣ M := by
          have h1 : b ^ k ∣ b ^ (n + 1 + k) := pow_dvd_pow b (by omega)
          rcases (h1.trans hdvdM) with ⟨q, hq⟩
          -- from M * b = b ^ k * q we cannot directly cancel; instead use
          -- that b ^ (n + k) divides M
          have h2 : b ^ (n + k) * b ∣ M * b := by
            have : b ^ (n + k) * b = b ^ (n + 1 + k) := by
              rw [← pow_succ]
              ring_nf
            rw [this]
            exact hdvdM
          have h3 : b ^ (n + k) ∣ M :=
            (Nat.mul_dvd_mul_iff_right (by omega : 0 < b)).mp h2
          exact (pow_dvd_pow b (by omega : k ≤ n + k)).trans h3
        have hdvd1 : b ^ (k + 1) ∣ s.lo % M * b := by
          have hmod : b ^ k ∣ s.lo % M := (Nat.dvd_mod_iff hdvdM').mpr hdvd
          rcases hmod with ⟨t, ht⟩
          exact ⟨t, by rw [ht, pow_succ]; ring⟩
        have hexp : n + (k + 1) = n + 1 + k := by omega
        obtain ⟨g1, g2⟩ := ih
          { s with
              lo := s.lo % M * b,
              hi := s.hi % M * b,
              out := s.out ++ s.hi / M ::
                List.replicate s.digitsToAdd
                  (if s.hi / M = s.digitsToAddHiMsd then 0 else b - 1),
              digitsToAdd := 0,
              trace := s.trace ++ [(s.lo % M * b, s.hi % M * b)] }
          (k + 1) (w * b) (by simp only []; omega) (by simp only []; exact hlt)
          (by simp only []; exact hdvd1) (by rw [hexp]; exact hdvdM) hdiff0
        rw [hexp] at g1
        refine ⟨g1, ?_⟩
        rw [g2, pow_succ]
        ring_nf
      · rw [if_neg hd, if_neg heq] at hdiff0
        omega

/-- Output-length and pending-count bookkeeping of the digit-extraction
loop in terms of the settle/defer counts: with at least one settle the
output grows by the settled digits plus the dumped pending run,
otherwise it is unchanged and the defers accumulate on the pending
count. -/
theorem encEmitLoop_sigma (M S b : Nat) (hM : M = S * b) (hS : 0 < S) (hb : 2 ≤ b) :
    ∀ (n : Nat) (s : EncState), s.hi < M * b →
      (encEmitLoop M S b n s).out.length = s.out.length +
        (if (sigmaCounts M S b n s.lo s.hi).1 = 0 then 0
         else (sigmaCounts M S b n s.lo s.hi).1 + s.digitsToAdd) ∧
      (encEmitLoop M S b n s).digitsToAdd =
        (if (sigmaCounts M S b n s.lo s.hi).1 = 0
         then s.digitsToAdd + (sigmaCounts M S b n s.lo s.hi).2
         else (sigmaCounts M S b n s.lo s.hi).2) := by
  have hM0 : 0 < M := by rw [hM]; exact Nat.mul_pos hS (by omega)
  intro n
  induction n with
  | zero =>
    intro s _
    simp [sigmaCounts, encEmitLoop]
  | succ n ih =>
    intro s hhi
    by_cases hd : s.hi / M - s.lo / M = 1
    · by_cases hstr : s.lo / S % b = b - 1 ∧ s.hi / S % b = 0
      · have hsig : sigmaCounts M S b (n + 1) s.lo s.hi =
            ((sigmaCounts M S b n
                (s.lo / M * M + s.lo % S * b) (s.hi / M * M + s.hi % S * b)).1,
             (sigmaCounts M S b n
                (s.lo / M * M + s.lo % S * b) (s.hi / M * M + s.hi % S * b)).2 + 1) := by
          rw [sigmaCounts, if_pos hd, if_pos hstr]
        have hlodiv := defer_div M S b s.lo hM hS (by omega)
        have hhidiv := defer_div M S b s.hi hM hS (by omega)
        have hhib := defer_lt_range M S b s.hi hM hS (by omega) hhi
        have hfst : (sigmaCounts M S b n
            (s.lo / M * M + s.lo % S * b) (s.hi / M * M + s.hi % S * b)).1 = 0 :=
          sigmaCounts_fst_of_diff1 M S b hM hS hb n _ _ hhib
            (by rw [hlodiv, hhidiv]; omega)
        obtain ⟨g1, g2⟩ := ih
          { s with
              lo := s.lo / M * M + s.lo % S * b,
              hi := s.hi / M * M + s.hi % S * b,
              digitsToAdd := s.digitsToAdd + 1,
              digitsToAddHiMsd := s.hi / M,
              trace := s.trace ++
                [(s.lo / M * M + s.lo % S * b, s.hi / M * M + s.hi % S * b)] }
          hhib
        simp only [] at g1 g2
        rw [encEmitLoop, if_pos hd, if_pos hstr, hsig]
        simp only []
        constructor
        · rw [g1]
          simp only [hfst]
          simp
        · rw [g2]
          simp only [hfst]
          simp
          omega
      · have hsig : sigmaCounts M S b (n + 1) s.lo s.hi = (0, 0) := by
          rw [sigmaCounts, if_pos hd, if_neg hstr]
        rw [encEmitLoop, if_pos hd, if_neg hstr, hsig]
        simp
    · by_cases heq : s.lo / M = s.hi / M
      · have hsig : sigmaCounts M S b (n + 1) s.lo s.hi =
            ((sigmaCounts M S b n (s.lo % M * b) (s.hi % M * b)).1 + 1,
             (sigmaCounts M S b n (s.lo % M * b) (s.hi % M * b)).2) := by
          rw [sigmaCounts, if_neg hd, if_pos heq]
        have hhib := settle_lt_range M b s.hi hM0 (by omega)
        obtain ⟨g1, g2⟩ := ih
          { s with
              lo := s.lo % M * b,
              hi := s.hi % M * b,
              out := s.out ++ s.hi / M ::
                List.replicate s.digitsToAdd
                  (if s.hi / M = s.digitsToAddHiMsd then 0 else b - 1),
              digitsToAdd := 0,
              trace := s.trace ++ [(s.lo % M * b, s.hi % M * b)] }
          hhib
        simp only [] at g1 g2
        rw [encEmitLoop, if_neg hd, if_pos heq, hsig]
        simp only []
        have hne : (sigmaCounts M S b n (s.lo % M * b) (s.hi % M * b)).1 + 1 ≠ 0 := by
          omega
        constructor
        · rw [g1, if_neg hne]
          simp only [List.length_append, List.length_cons, List.length_replicate]
          by_cases hp : (sigmaCounts M S b n (s.lo % M * b) (s.hi % M * b)).1 = 0
          · rw [if_pos hp, hp]
            omega
          · rw [if_neg hp]
            omega
        · rw [g2, if_neg hne]
          by_cases hp : (sigmaCounts M S b n (s.lo % M * b) (s.hi % M * b)).1 = 0
          · rw [if_pos hp]
            omega
          · rw [if_neg hp]
      · have hsig : sigmaCounts M S b (n + 1) s.lo s.hi = (0, 0) := by
          rw [sigmaCounts, if_neg hd, if_neg heq]
        rw [encEmitLoop, if_neg hd, if_neg heq, hsig]
        simp

/-- The decoder settle/defer loop mirrors the encoder loop: started on
the same interval (as integer casts) it follows the same branches,
producing the same interval and requesting one further digit per shift —
those of the defers also counted as MSD-preserving — while leaving the
cursor, accumulator, flag, output and byte count unchanged. -/
theorem decEmitLoop_mirror (ctx : DecCtx)
    (hM : ctx.msdDivisor = ctx.secondMsdDivisor * ctx.base)
    (hS : 0 < ctx.secondMsdDivisor) (hb : 2 ≤ ctx.base) :
    ∀ (n : Nat) (es : EncState) (ds : DecState),
      ds.lo = (es.lo : Int) → ds.hi = (es.hi : Int) →
      es.hi < ctx.msdDivisor * ctx.base →
      (decEmitLoop ctx n ds).lo =
        ((encEmitLoop ctx.msdDivisor ctx.secondMsdDivisor ctx.base n es).lo : Int) ∧
      (decEmitLoop ctx n ds).hi =
        ((encEmitLoop ctx.msdDivisor ctx.secondMsdDivisor ctx.base n es).hi : Int) ∧
      (decEmitLoop ctx n ds).requestedDigits = ds.requestedDigits +
        ((sigmaCounts ctx.msdDivisor ctx.secondMsdDivisor ctx.base n es.lo es.hi).1 +
         (sigmaCounts ctx.msdDivisor ctx.secondMsdDivisor ctx.base n es.lo es.hi).2) ∧
      (decEmitLoop ctx n ds).requestedDigitsKeepMsd = ds.requestedDigitsKeepMsd +
        (sigmaCounts ctx.msdDivisor ctx.secondMsdDivisor ctx.base n es.lo es.hi).2 ∧
      (decEmitLoop ctx n ds).i = ds.i ∧
      (decEmitLoop ctx n ds).digitsToDecode = ds.digitsToDecode ∧
      (decEmitLoop ctx n ds).isLastDigit = ds.isLastDigit ∧
      (decEmitLoop ctx n ds).out = ds.out ∧
      (decEmitLoop ctx n ds).bytesDecoded = ds.bytesDecoded := by
  have hM0 : 0 < ctx.msdDivisor := by
    rw [hM]; exact Nat.mul_pos hS (by omega)
  intro n
  induction n with
  | zero =>
    intro es ds h1 h2 _
    refine ⟨h1, h2, ?_, ?_, rfl, rfl, rfl, rfl, rfl⟩ <;> simp [sigmaCounts, decEmitLoop]
  | succ n ih =>
    intro es ds hdslo hdshi hhi
    rw [decEmitLoop, encEmitLoop]
    simp only [hdslo, hdshi, natCast_fdiv, natCast_tmod]
    by_cases hd : es.hi / ctx.msdDivisor - es.lo / ctx.msdDivisor = 1
    · have hdInt : ((es.hi / ctx.msdDivisor : Nat) : Int)
          - ((es.lo / ctx.msdDivisor : Nat) : Int) = 1 := by omega
      by_cases hstr : es.lo / ctx.secondMsdDivisor % ctx.base = ctx.base - 1 ∧
          es.hi / ctx.secondMsdDivisor % ctx.base = 0
      · have hstrInt : ((es.lo / ctx.secondMsdDivisor % ctx.base : Nat) : Int)
              = (ctx.base : Int) - 1 ∧
            ((es.hi / ctx.secondMsdDivisor % ctx.base : Nat) : Int) = 0 := by
          obtain ⟨ha, hc⟩ := hstr
          constructor <;> omega
        rw [if_pos hdInt, if_pos hstrInt, if_pos hd, if_pos hstr]
        have hsig : sigmaCounts ctx.msdDivisor ctx.secondMsdDivisor ctx.base (n + 1)
              es.lo es.hi =
            ((sigmaCounts ctx.msdDivisor ctx.secondMsdDivisor ctx.base n
                (es.lo / ctx.msdDivisor * ctx.msdDivisor
                  + es.lo % ctx.secondMsdDivisor * ctx.base)
                (es.hi / ctx.msdDivisor * ctx.msdDivisor
                  + es.hi % ctx.secondMsdDivisor * ctx.base)).1,
             (sigmaCounts ctx.msdDivisor ctx.secondMsdDivisor ctx.base n
                (es.lo / ctx.msdDivisor * ctx.msdDivisor
                  + es.lo % ctx.secondMsdDivisor * ctx.base)
                (es.hi / ctx.msdDivisor * ctx.msdDivisor
                  + es.hi % ctx.secondMsdDivisor * ctx.base)).2 + 1) := by
          rw [sigmaCounts, if_pos hd, if_pos hstr]
        rw [hsig]
        have hhib := defer_lt_range ctx.msdDivisor ctx.secondMsdDivisor ctx.base es.hi
          hM hS (by omega) hhi
        obtain ⟨g1, g2, g3, g4, g5, g6, g7, g8, g9⟩ := ih
          { es with
              lo := es.lo / ctx.msdDivisor * ctx.msdDivisor
                + es.lo % ctx.secondMsdDivisor * ctx.base,
              hi := es.hi / ctx.msdDivisor * ctx.msdDivisor
                + es.hi % ctx.secondMsdDivisor * ctx.base,
              digitsToAdd := es.digitsToAdd + 1,
              digitsToAddHiMsd := es.hi / ctx.msdDivisor,
              trace := es.trace ++
                [(es.lo / ctx.msdDivisor * ctx.msdDivisor
                    + es.lo % ctx.secondMsdDivisor * ctx.base,
                  es.hi / ctx.msdDivisor * ctx.msdDivisor
                    + es.hi % ctx.secondMsdDivisor * ctx.base)] }
          { ds with
              lo := ((es.lo / ctx.msdDivisor : Nat) : Int) * ctx.msdDivisor
                + ((es.lo % ctx.secondMsdDivisor : Nat) : Int) * ctx.base,
              hi := ((es.hi / ctx.msdDivisor : Nat) : Int) * ctx.msdDivisor
                + ((es.hi % ctx.secondMsdDivisor : Nat) : Int) * ctx.base,
              requestedDigits := ds.requestedDigits + 1,
              requestedDigitsKeepMsd := ds.requestedDigitsKeepMsd + 1,
              trace := ds.trace ++
                [(((es.lo / ctx.msdDivisor : Nat) : Int) * ctx.msdDivisor
                    + ((es.lo % ctx.secondMsdDivisor : Nat) : Int) * ctx.base,
                  ((es.hi / ctx.msdDivisor : Nat) : Int) * ctx.msdDivisor
                    + ((es.hi % ctx.secondMsdDivisor : Nat) : Int) * ctx.base)] }
          (by push_cast; ring) (by push_cast; ring) hhib
        simp only [] at g1 g2 g3 g4 g5 g6 g7 g8 g9
        refine ⟨g1, g2, ?_, ?_, g5, g6, g7, g8, g9⟩
        · rw [g3]
          simp only []
          omega
        · rw [g4]
          simp only []
          omega
      · have hstrInt : ¬ (((es.lo / ctx.secondMsdDivisor % ctx.base : Nat) : Int)
              = (ctx.base : Int) - 1 ∧
            ((es.hi / ctx.secondMsdDivisor % ctx.base : Nat) : Int) = 0) := by
          intro hcon
          obtain ⟨ha, hc⟩ := hcon
          exact hstr ⟨by omega, by omega⟩
        rw [if_pos hdInt, if_neg hstrInt, if_pos hd, if_neg hstr]
        have hsig : sigmaCounts ctx.msdDivisor ctx.secondMsdDivisor ctx.base (n + 1)
            es.lo es.hi = (0, 0) := by
          rw [sigmaCounts, if_pos hd, if_neg hstr]
        rw [hsig]
        exact ⟨hdslo, hdshi, by simp, by simp, rfl, rfl, rfl, rfl, rfl⟩
    · have hdInt : ¬ ((es.hi / ctx.msdDivisor : Nat) : Int)
          - ((es.lo / ctx.msdDivisor : Nat) : Int) = 1 := by omega
      by_cases heq : es.lo / ctx.msdDivisor = es.hi / ctx.msdDivisor
      · have heqInt : ((es.lo / ctx.msdDivisor : Nat) : Int)
            = ((es.hi / ctx.msdDivisor : Nat) : Int) := by omega
        rw [if_neg hdInt, if_pos heqInt, if_neg hd, if_pos heq]
        have hsig : sigmaCounts ctx.msdDivisor ctx.secondMsdDivisor ctx.base (n + 1)
              es.lo es.hi =
            ((sigmaCounts ctx.msdDivisor ctx.secondMsdDivisor ctx.base n
                (es.lo % ctx.msdDivisor * ctx.base)
                (es.hi % ctx.msdDivisor * ctx.base)).1 + 1,
             (sigmaCounts ctx.msdDivisor ctx.secondMsdDivisor ctx.base n
                (es.lo % ctx.msdDivisor * ctx.base)
                (es.hi % ctx.msdDivisor * ctx.base)).2) := by
          rw [sigmaCounts, if_neg hd, if_pos heq]
        rw [hsig]
        have hhib := settle_lt_range ctx.msdDivisor ctx.base es.hi hM0 (by omega)
        obtain ⟨g1, g2, g3, g4, g5, g6, g7, g8, g9⟩ := ih
          { es with
              lo := es.lo % ctx.msdDivisor * ctx.base,
              hi := es.hi % ctx.msdDivisor * ctx.base,
              out := es.out ++ es.hi / ctx.msdDivisor ::
                List.replicate es.digitsToAdd
                  (if es.hi / ctx.msdDivisor = es.digitsToAddHiMsd then 0
                   else ctx.base - 1),
              digitsToAdd := 0,
              trace := es.trace ++
                [(es.lo % ctx.msdDivisor * ctx.base,
                  es.hi % ctx.msdDivisor * ctx.base)] }
          { ds with
              lo := ((es.lo % ctx.msdDivisor : Nat) : Int) * ctx.base,
              hi := ((es.hi % ctx.msdDivisor : Nat) : Int) * ctx.base,
              requestedDigits := ds.requestedDigits + 1,
              trace := ds.trace ++
                [(((es.lo % ctx.msdDivisor : Nat) : Int) * ctx.base,
                  ((es.hi % ctx.msdDivisor : Nat) : Int) * ctx.base)] }
          (by push_cast; ring) (by push_cast; ring) hhib
        simp only [] at g1 g2 g3 g4 g5 g6 g7 g8 g9
        refine ⟨g1, g2, ?_, ?_, g5, g6, g7, g8, g9⟩
        · rw [g3]
          simp only []
          omega
        · rw [g4]
      · have heqInt : ¬ ((es.lo / ctx.msdDivisor : Nat) : Int)
            = ((es.hi / ctx.msdDivisor : Nat) : Int) := by
          intro hcon
          exact heq (by omega)
        rw [if_neg hdInt, if_neg heqInt, if_neg hd, if_neg heq]
        have hsig : sigmaCounts ctx.msdDivisor ctx.secondMsdDivisor ctx.base (n + 1)
            es.lo es.hi = (0, 0) := by
          rw [sigmaCounts, if_neg hd, if_neg heq]
        rw [hsig]
        exact ⟨hdslo, hdshi, by simp, by simp, rfl, rfl, rfl, rfl, rfl⟩

/-- Backward transport of window containment across one settle shift:
if the slid window value lies in the shifted interval and the stream
digit at the current offset is the settled leading digit, then the
current window value lies in the unshifted interval. -/
theorem settle_peel (M S b c : Nat) (hM : M = S * b) (hS : S = b ^ c) (hb : 2 ≤ b)
    (O : List Nat) (off dta lo hi : Nat)
    (hO : ∀ pos, O.getD pos 0 < b)
    (hhead : O.getD off 0 = hi / M)
    (heq : lo / M = hi / M)
    (hin_lo : lo % M * b ≤ wval b c O (off + 1 + dta) 0)
    (hin_hi : wval b c O (off + 1 + dta) 0 ≤ hi % M * b) :
    lo ≤ wval b c O off dta ∧ wval b c O off dta ≤ hi := by
  have hb0 : 0 < b := by omega
  have hMpow : M = b ^ (c + 1) := by rw [hM, hS, pow_succ]
  have hz : O.getD (off + dta + c + 2) 0 < b := hO _
  have hslide := wval_settle_slide b c O off dta
  have hdecomp := wval_decompose b c O off dta
  rw [hhead, ← hMpow] at hdecomp
  rw [hslide] at hin_lo hin_hi
  have h1 : lo % M ≤
      digitsVal b ((List.range (c + 1)).map (fun j => O.getD (off + dta + 1 + j) 0)) :=
    mul_le_mul_add_cancel _ _ _ b hz hin_lo
  have h2 : digitsVal b ((List.range (c + 1)).map (fun j => O.getD (off + dta + 1 + j) 0))
      ≤ hi % M := by
    refine Nat.le_of_mul_le_mul_right ?_ hb0
    omega
  have e1 := Nat.div_add_mod lo M
  have e2 := Nat.div_add_mod hi M
  have p1 : hi / M * M = M * (hi / M) := Nat.mul_comm _ _
  have p2 : lo / M * M = M * (lo / M) := Nat.mul_comm _ _
  rw [hdecomp]
  constructor
  · rw [← heq]
    omega
  · omega

/-- Backward transport of window containment across one defer shift:
if the window value with one more pending digit lies in the deferred
interval, the stream digit after the head is the resolved pending digit,
and the head is the recorded top digit or its predecessor, then the
current window value lies in the undeferred interval. -/
theorem defer_peel (M S b c : Nat) (hM : M = S * b) (hS : S = b ^ c) (hb : 2 ≤ b)
    (O : List Nat) (off dta lo hi : Nat)
    (hO : ∀ pos, O.getD pos 0 < b)
    (hdiff : hi / M = lo / M + 1)
    (hstr1 : lo / S % b = b - 1) (hstr2 : hi / S % b = 0)
    (hhead : O.getD off 0 = hi / M ∨ O.getD off 0 + 1 = hi / M)
    (hu1 : O.getD (off + dta + 1) 0 = if O.getD off 0 = hi / M then 0 else b - 1)
    (hin_lo : lo / M * M + lo % S * b ≤ wval b c O off (dta + 1))
    (hin_hi : wval b c O off (dta + 1) ≤ hi / M * M + hi % S * b) :
    lo ≤ wval b c O off dta ∧ wval b c O off dta ≤ hi := by
  have hb0 : 0 < b := by omega
  have hS0 : 0 < S := by rw [hS]; positivity
  have hMpow : M = b ^ (c + 1) := by rw [hM, hS, pow_succ]
  have hM0 : 0 < M := by rw [hMpow]; positivity
  have hlo2 : lo % M / S = b - 1 := by
    have h := second_digit_eq S b lo
    rw [← hM] at h
    omega
  have hhi2 : hi % M / S = 0 := by
    have h := second_digit_eq S b hi
    rw [← hM] at h
    omega
  have eL := Nat.div_add_mod (lo % M) S
  have eH := Nat.div_add_mod (hi % M) S
  have hmm1 : lo % M % S = lo % S := Nat.mod_mod_of_dvd lo ⟨b, hM⟩
  have hmm2 : hi % M % S = hi % S := Nat.mod_mod_of_dvd hi ⟨b, hM⟩
  rw [hlo2, hmm1] at eL
  rw [hhi2, hmm2] at eH
  have hloS : lo % S < S := Nat.mod_lt _ hS0
  have hhiS : hi % S < S := Nat.mod_lt _ hS0
  have hloM : lo % M < M := Nat.mod_lt _ hM0
  have hhiM : hi % M < M := Nat.mod_lt _ hM0
  have ht2 : digitsVal b ((List.range c).map (fun j => O.getD (off + dta + 2 + j) 0))
      < S := by
    rw [hS]
    exact tailVal_lt b c O hO (off + dta) 2 c
  have hz : O.getD (off + dta + c + 2) 0 < b := hO _
  have hslide := wval_defer_slide b c O off dta
  have hdecomp := wval_decompose b c O off dta
  rw [wval_tail_split] at hdecomp
  have e1 := Nat.div_add_mod lo M
  have e2 := Nat.div_add_mod hi M
  have p1 : hi / M * M = M * (hi / M) := Nat.mul_comm _ _
  have p2 : lo / M * M = M * (lo / M) := Nat.mul_comm _ _
  have p3 : M * (lo / M + 1) = M * (lo / M) + M := by ring
  have pbS : S * (b - 1) + S = M := by
    have h1 : S * (b - 1) + S = S * b := by
      have hb1 : b - 1 + 1 = b := by omega
      calc S * (b - 1) + S = S * ((b - 1) + 1) := by ring
      _ = S * b := by rw [hb1]
    omega
  rcases hhead with hhd | hhd
  · -- the head is the recorded top digit; the dropped pending digit is 0
    have hu1' : O.getD (off + dta + 1) 0 = 0 := by rw [hu1, if_pos hhd]
    rw [hhd, ← hMpow] at hdecomp hslide
    rw [hu1'] at hdecomp
    rw [hslide] at hin_lo hin_hi
    have ht2hi : digitsVal b ((List.range c).map (fun j => O.getD (off + dta + 2 + j) 0))
        ≤ hi % S := by
      refine Nat.le_of_mul_le_mul_right ?_ hb0
      omega
    rw [hdecomp]
    constructor
    · have q1 : hi / M * M = (lo / M + 1) * M := by rw [hdiff]
      have q2 : (lo / M + 1) * M = lo / M * M + M := by ring
      omega
    · omega
  · -- the head is one below the recorded top digit; the pending digit is b-1
    have hne : ¬ O.getD off 0 = hi / M := by omega
    have hu1' : O.getD (off + dta + 1) 0 = b - 1 := by rw [hu1, if_neg hne]
    have hhd' : O.getD off 0 = lo / M := by omega
    rw [hhd', ← hMpow] at hdecomp hslide
    rw [hu1', ← hS] at hdecomp
    rw [hslide] at hin_lo hin_hi
    have ht2lo : lo % S ≤
        digitsVal b ((List.range c).map (fun j => O.getD (off + dta + 2 + j) 0)) :=
      mul_le_mul_add_cancel _ _ _ b hz (by omega)
    rw [hdecomp]
    have pbS2 : (b - 1) * S = S * (b - 1) := Nat.mul_comm _ _
    constructor
    · omega
    · have q1 : hi / M * M = (lo / M + 1) * M := by rw [hdiff]
      have q2 : (lo / M + 1) * M = lo / M * M + M := by ring
      omega

/-- Reading a concatenation just past the prefix. -/
theorem getD_append_self (pre l : List Nat) (k d : Nat) :
    (pre ++ l).getD (pre.length + k) d = l.getD k d := by
  induction pre with
  | nil => simp
  | cons x t ih =>
    have h : (x :: t).length + k = (t.length + k) + 1 := by
      simp [List.length_cons]
      omega
    rw [List.cons_append, h, List.getD_cons_succ]
    exact ih

/-- Reading inside a replicated run. -/
theorem getD_replicate_lt (a : Nat) :
    ∀ (n m : Nat), m < n → (List.replicate n a).getD m 0 = a := by
  intro n
  induction n with
  | zero => intro m h; omega
  | succ n ih =>
    intro m h
    rw [List.replicate_succ]
    cases m with
    | zero => rfl
    | succ m =>
      rw [List.getD_cons_succ]
      exact ih m (by omega)

/-- Containment transport through the digit-extraction loop: if the
decoder's window value at the loop's exit offset and pending count lies
inside the exit interval — and the stream ahead of the exit state has
the resolved pending shape whenever pendings remain — then the window
value at the loop's entry offset and pending count lies inside the
entry interval, the output only grew, and the stream ahead of the entry
state has the entry's pending shape. -/
theorem encEmitLoop_transport (M S b c : Nat) (hM : M = S * b) (hS : S = b ^ c)
    (hb : 2 ≤ b) :
    ∀ (n : Nat) (s : EncState) (K : List Nat),
      s.lo ≤ s.hi → s.hi < M * b →
      (0 < s.digitsToAdd → 1 ≤ s.digitsToAddHiMsd ∧
        (s.digitsToAddHiMsd - 1) * M ≤ s.lo ∧ s.hi < (s.digitsToAddHiMsd + 1) * M) →
      (∀ pos, ((encEmitLoop M S b n s).out ++ K).getD pos 0 < b) →
      (encEmitLoop M S b n s).lo ≤ wval b c ((encEmitLoop M S b n s).out ++ K)
          (encEmitLoop M S b n s).out.length (encEmitLoop M S b n s).digitsToAdd →
      wval b c ((encEmitLoop M S b n s).out ++ K)
          (encEmitLoop M S b n s).out.length (encEmitLoop M S b n s).digitsToAdd
          ≤ (encEmitLoop M S b n s).hi →
      (0 < (encEmitLoop M S b n s).digitsToAdd →
        shapeAt b ((encEmitLoop M S b n s).out ++ K)
          (encEmitLoop M S b n s).out.length (encEmitLoop M S b n s).digitsToAdd
          (encEmitLoop M S b n s).digitsToAddHiMsd) →
      (∃ t, (encEmitLoop M S b n s).out = s.out ++ t) ∧
      s.lo ≤ wval b c ((encEmitLoop M S b n s).out ++ K) s.out.length s.digitsToAdd ∧
      wval b c ((encEmitLoop M S b n s).out ++ K) s.out.length s.digitsToAdd ≤ s.hi ∧
      (0 < s.digitsToAdd →
        shapeAt b ((encEmitLoop M S b n s).out ++ K) s.out.length s.digitsToAdd
          s.digitsToAddHiMsd) := by
  have hb0 : 0 < b := by omega
  have hS0 : 0 < S := by rw [hS]; positivity
  have hM0 : 0 < M := by rw [hM]; exact Nat.mul_pos hS0 hb0
  intro n
  induction n with
  | zero =>
    intro s K _ _ _ _ hin_lo hin_hi hshape
    exact ⟨⟨[], by show s.out = s.out ++ []; simp⟩, hin_lo, hin_hi, hshape⟩
  | succ n ih =>
    intro s K hle hhi hpend hO hin_lo hin_hi hshape
    rw [encEmitLoop] at hO hin_lo hin_hi hshape ⊢
    by_cases hd : s.hi / M - s.lo / M = 1
    · by_cases hstr : s.lo / S % b = b - 1 ∧ s.hi / S % b = 0
      · rw [if_pos hd, if_pos hstr] at hO hin_lo hin_hi hshape ⊢
        have hdle : s.lo / M ≤ s.hi / M := Nat.div_le_div_right (by omega)
        have hdiff : s.hi / M = s.lo / M + 1 := by omega
        obtain ⟨q_eq, q_lt, q_le⟩ := defer_shift_bounds M S b s.lo s.hi (s.hi - s.lo)
          hM hb hS0 (by omega) hhi hdiff hstr.1 hstr.2
        have hhidiv := defer_div M S b s.hi hM hS0 hb0
        have hlodiv := defer_div M S b s.lo hM hS0 hb0
        obtain ⟨⟨t, hout⟩, c_lo, c_hi, c_shape⟩ := ih
          { s with
              lo := s.lo / M * M + s.lo % S * b,
              hi := s.hi / M * M + s.hi % S * b,
              digitsToAdd := s.digitsToAdd + 1,
              digitsToAddHiMsd := s.hi / M,
              trace := s.trace ++
                [(s.lo / M * M + s.lo % S * b, s.hi / M * M + s.hi % S * b)] }
          K q_le q_lt
          (by
            intro _
            refine ⟨?_, ?_, ?_⟩
            · show 1 ≤ s.hi / M
              rw [hdiff]
              exact Nat.le_add_left 1 _
            · show (s.hi / M - 1) * M ≤ s.lo / M * M + s.lo % S * b
              have h1 : s.hi / M - 1 = s.lo / M := by
                rw [hdiff]
                exact Nat.add_sub_cancel _ _
              rw [h1]
              exact Nat.le_add_right _ _
            · show s.hi / M * M + s.hi % S * b < (s.hi / M + 1) * M
              have h1 : (s.hi / M + 1) * M = s.hi / M * M + M := by ring
              rw [h1]
              exact Nat.add_lt_add_left (modS_mul_lt M S b s.hi hM hS0 hb0) _)
          hO hin_lo hin_hi hshape
        simp only [] at hout c_lo c_hi c_shape
        obtain ⟨sh_head, sh_run⟩ := c_shape (by omega)
        have hu1 : ((encEmitLoop M S b n
            { s with
                lo := s.lo / M * M + s.lo % S * b,
                hi := s.hi / M * M + s.hi % S * b,
                digitsToAdd := s.digitsToAdd + 1,
                digitsToAddHiMsd := s.hi / M,
                trace := s.trace ++
                  [(s.lo / M * M + s.lo % S * b, s.hi / M * M + s.hi % S * b)] }).out
              ++ K).getD (s.out.length + s.digitsToAdd + 1) 0 =
            if ((encEmitLoop M S b n
            { s with
                lo := s.lo / M * M + s.lo % S * b,
                hi := s.hi / M * M + s.hi % S * b,
                digitsToAdd := s.digitsToAdd + 1,
                digitsToAddHiMsd := s.hi / M,
                trace := s.trace ++
                  [(s.lo / M * M + s.lo % S * b, s.hi / M * M + s.hi % S * b)] }).out
              ++ K).getD s.out.length 0 = s.hi / M then 0 else b - 1 := by
          have h := sh_run (s.digitsToAdd + 1) (by omega) (by omega)
          have hidx : s.out.length + (s.digitsToAdd + 1)
              = s.out.length + s.digitsToAdd + 1 := by omega
          rw [hidx] at h
          exact h
        obtain ⟨p_lo, p_hi⟩ := defer_peel M S b c hM hS hb _ s.out.length s.digitsToAdd
          s.lo s.hi hO hdiff hstr.1 hstr.2 sh_head hu1 c_lo c_hi
        refine ⟨⟨t, hout⟩, p_lo, p_hi, ?_⟩
        intro hdta
        obtain ⟨hm1, hm2, hm3⟩ := hpend hdta
        have hHmsd : s.hi / M = s.digitsToAddHiMsd := by
          have ha : s.hi / M < s.digitsToAddHiMsd + 1 := by
            rw [Nat.div_lt_iff_lt_mul hM0]
            exact hm3
          have hb' : s.digitsToAddHiMsd - 1 ≤ s.lo / M := by
            rw [Nat.le_div_iff_mul_le hM0]
            exact hm2
          omega
        refine ⟨?_, ?_⟩
        · rw [← hHmsd]
          exact sh_head
        · intro j hj1 hj2
          rw [← hHmsd]
          exact sh_run j hj1 (by omega)
      · rw [if_pos hd, if_neg hstr] at hO hin_lo hin_hi hshape ⊢
        exact ⟨⟨[], by simp⟩, hin_lo, hin_hi, hshape⟩
    · by_cases heq : s.lo / M = s.hi / M
      · rw [if_neg hd, if_pos heq] at hO hin_lo hin_hi hshape ⊢
        obtain ⟨q_eq, q_lt⟩ := settle_shift_bounds M b s.lo s.hi (s.hi - s.lo)
          hM0 hb0 (by omega) hhi heq
        obtain ⟨⟨t, hout⟩, c_lo, c_hi, _⟩ := ih
          { s with
              lo := s.lo % M * b,
              hi := s.hi % M * b,
              out := s.out ++ s.hi / M ::
                List.replicate s.digitsToAdd
                  (if s.hi / M = s.digitsToAddHiMsd then 0 else b - 1),
              digitsToAdd := 0,
              trace := s.trace ++ [(s.lo % M * b, s.hi % M * b)] }
          K (by
            show s.lo % M * b ≤ s.hi % M * b
            rw [q_eq]
            exact Nat.le_add_right _ _) q_lt
          (by intro h; simp only [] at h; omega)
          hO hin_lo hin_hi hshape
        simp only [] at hout c_lo c_hi
        rw [List.length_append, List.length_cons, List.length_replicate] at c_lo c_hi
        have hoff : s.out.length + (s.digitsToAdd + 1)
            = s.out.length + 1 + s.digitsToAdd := by omega
        rw [hoff] at c_lo c_hi
        have houtfull : (encEmitLoop M S b n
            { s with
                lo := s.lo % M * b,
                hi := s.hi % M * b,
                out := s.out ++ s.hi / M ::
                  List.replicate s.digitsToAdd
                    (if s.hi / M = s.digitsToAddHiMsd then 0 else b - 1),
                digitsToAdd := 0,
                trace := s.trace ++ [(s.lo % M * b, s.hi % M * b)] }).out ++ K
            = s.out ++ ((s.hi / M ::
                List.replicate s.digitsToAdd
                  (if s.hi / M = s.digitsToAddHiMsd then 0 else b - 1)) ++ (t ++ K)) := by
          rw [hout]
          simp [List.append_assoc]
        have hhead : ((encEmitLoop M S b n
            { s with
                lo := s.lo % M * b,
                hi := s.hi % M * b,
                out := s.out ++ s.hi / M ::
                  List.replicate s.digitsToAdd
                    (if s.hi / M = s.digitsToAddHiMsd then 0 else b - 1),
                digitsToAdd := 0,
                trace := s.trace ++ [(s.lo % M * b, s.hi % M * b)] }).out ++ K).getD
              s.out.length 0 = s.hi / M := by
          rw [houtfull]
          have h := getD_append_self s.out ((s.hi / M ::
              List.replicate s.digitsToAdd
                (if s.hi / M = s.digitsToAddHiMsd then 0 else b - 1)) ++ (t ++ K)) 0 0
          simpa using h
        obtain ⟨p_lo, p_hi⟩ := settle_peel M S b c hM hS hb _ s.out.length s.digitsToAdd
          s.lo s.hi hO hhead heq c_lo c_hi
        refine ⟨⟨s.hi / M ::
            List.replicate s.digitsToAdd
              (if s.hi / M = s.digitsToAddHiMsd then 0 else b - 1) ++ t, by
          rw [hout]
          simp [List.append_assoc]⟩, p_lo, p_hi, ?_⟩
        intro hdta
        obtain ⟨hm1, hm2, hm3⟩ := hpend hdta
        have hH : s.digitsToAddHiMsd - 1 ≤ s.hi / M ∧ s.hi / M ≤ s.digitsToAddHiMsd := by
          constructor
          · have hb' : s.digitsToAddHiMsd - 1 ≤ s.lo / M := by
              rw [Nat.le_div_iff_mul_le hM0]
              exact hm2
            omega
          · have ha : s.hi / M < s.digitsToAddHiMsd + 1 := by
              rw [Nat.div_lt_iff_lt_mul hM0]
              exact hm3
            omega
        refine ⟨?_, ?_⟩
        · rw [hhead]
          omega
        · intro j hj1 hj2
          obtain ⟨k, rfl⟩ : ∃ k, j = k + 1 := ⟨j - 1, by omega⟩
          rw [hhead, houtfull]
          rw [getD_append_self s.out _ (k + 1) 0]
          rw [List.cons_append, List.getD_cons_succ]
          have hk : k < (List.replicate s.digitsToAdd
              (if s.hi / M = s.digitsToAddHiMsd then 0 else b - 1)).length := by
            rw [List.length_replicate]
            omega
          rw [List.getD_append _ _ _ _ hk]
          exact getD_replicate_lt _ _ _ (by omega)
      · rw [if_neg hd, if_neg heq] at hO hin_lo hin_hi hshape ⊢
        exact ⟨⟨[], by simp⟩, hin_lo, hin_hi, hshape⟩

/-- The pending-digit bookkeeping survives a whole per-byte step: if a
positive pending count at the start of the byte comes with leading
digits one apart and a current recorded top digit, the same holds at
the end of the byte. -/
theorem encByteStep_pend (M S b e : Nat) (hM : M = S * b) (hS0 : 0 < S) (hb : 2 ≤ b)
    (he2 : 2 ≤ e) (s : EncState) (x : Nat) (hx : x < 256)
    (hw : s.lo + 65536 ≤ s.hi) (hhi : s.hi < M * b)
    (hpend : 0 < s.digitsToAdd →
      s.hi / M = s.lo / M + 1 ∧ s.digitsToAddHiMsd = s.hi / M) :
    0 < (encByteStep M S b e s x).digitsToAdd →
      (encByteStep M S b e s x).hi / M = (encByteStep M S b e s x).lo / M + 1 ∧
      (encByteStep M S b e s x).digitsToAddHiMsd = (encByteStep M S b e s x).hi / M := by
  have hM0 : 0 < M := by rw [hM]; exact Nat.mul_pos hS0 (by omega)
  have hb0 : 0 < b := by omega
  obtain ⟨e', rfl⟩ : ∃ e', e = e' + 1 := ⟨e - 1, by omega⟩
  obtain ⟨hn1, hn2, hn3⟩ := encNarrow_bounds s.lo s.hi x hx hw
  have hstep : encByteStep M S b (e' + 1) s x =
      { encEmitLoop M S b (e' + 1)
          { s with
              lo := (encNarrow s.lo s.hi x).1,
              hi := (encNarrow s.lo s.hi x).2,
              trace := s.trace ++ [(s.lo, s.hi)] ++ [encNarrow s.lo s.hi x] } with
        bytesEncoded :=
          (encEmitLoop M S b (e' + 1)
            { s with
                lo := (encNarrow s.lo s.hi x).1,
                hi := (encNarrow s.lo s.hi x).2,
                trace := s.trace ++ [(s.lo, s.hi)] ++ [encNarrow s.lo s.hi x] }).bytesEncoded
            + 1 } := rfl
  rw [hstep]
  simp only []
  have hmono_lo : s.lo / M ≤ (encNarrow s.lo s.hi x).1 / M := Nat.div_le_div_right hn1
  have hmono_hi : (encNarrow s.lo s.hi x).2 / M ≤ s.hi / M := Nat.div_le_div_right hn3
  have hmono_n : (encNarrow s.lo s.hi x).1 / M ≤ (encNarrow s.lo s.hi x).2 / M :=
    Nat.div_le_div_right (by omega)
  have hz1 : 0 ≤ s.lo / M := Nat.zero_le _
  have hz2 : 0 ≤ s.hi / M := Nat.zero_le _
  have hz3 : 0 ≤ (encNarrow s.lo s.hi x).1 / M := Nat.zero_le _
  have hz4 : 0 ≤ (encNarrow s.lo s.hi x).2 / M := Nat.zero_le _
  have hhin : (encNarrow s.lo s.hi x).2 < M * b := by omega
  rw [encEmitLoop]
  simp only []
  by_cases hd1 : (encNarrow s.lo s.hi x).2 / M - (encNarrow s.lo s.hi x).1 / M = 1
  · by_cases hstr1 : (encNarrow s.lo s.hi x).1 / S % b = b - 1 ∧
        (encNarrow s.lo s.hi x).2 / S % b = 0
    · rw [if_pos hd1, if_pos hstr1]
      have hlodiv := defer_div M S b (encNarrow s.lo s.hi x).1 hM hS0 hb0
      have hhidiv := defer_div M S b (encNarrow s.lo s.hi x).2 hM hS0 hb0
      have hhib := defer_lt_range M S b (encNarrow s.lo s.hi x).2 hM hS0 hb0 hhin
      exact encEmitLoop_pend M S b hM hS0 hb e' _ hhib (by
        intro _
        constructor
        · show ((encNarrow s.lo s.hi x).2 / M * M
              + (encNarrow s.lo s.hi x).2 % S * b) / M
            = ((encNarrow s.lo s.hi x).1 / M * M
              + (encNarrow s.lo s.hi x).1 % S * b) / M + 1
          rw [hlodiv, hhidiv]
          omega
        · show (encNarrow s.lo s.hi x).2 / M
            = ((encNarrow s.lo s.hi x).2 / M * M
              + (encNarrow s.lo s.hi x).2 % S * b) / M
          rw [hhidiv])
    · rw [if_pos hd1, if_neg hstr1]
      simp only []
      intro hdta
      obtain ⟨hp1, hp2⟩ := hpend hdta
      have hkey : (encNarrow s.lo s.hi x).2 / M = s.hi / M := by omega
      exact ⟨by omega, by rw [hp2, hkey]⟩
  · by_cases heq1 : (encNarrow s.lo s.hi x).1 / M = (encNarrow s.lo s.hi x).2 / M
    · rw [if_neg hd1, if_pos heq1]
      have hhib := settle_lt_range M b (encNarrow s.lo s.hi x).2 hM0 hb0
      exact encEmitLoop_pend M S b hM hS0 hb e' _ hhib (by
        intro h
        simp only [] at h
        omega)
    · rw [if_neg hd1, if_neg heq1]
      simp only []
      intro hdta
      obtain ⟨hp1, _⟩ := hpend hdta
      omega

/-- Preservation of the byte-boundary invariant across one per-byte
step: the interval stays ordered with difference above
`secondMsdDivisor` and inside the full range, the block of the leading
digit keeps reaching down to `lo` (for a budget-exhausted all-settle
exit with equal leading digits this rests on the divisibility of the
exit `lo`, possible only for the bases whose emit budget covers 256
exactly), and the pending bookkeeping survives. -/
theorem encByteStep_inv (M S b c e : Nat) (hM : M = S * b) (hS : S = b ^ c)
    (hb : 2 ≤ b) (hSbig : 131071 ≤ S) (he2 : 2 ≤ e) (hpow : 256 ≤ b ^ (e - 1))
    (hdvd : b ^ e ∣ M * b)
    (hpow256 : b ^ (e - 1) = 256 ∧ S % 256 = 0 ∨ 257 ≤ b ^ (e - 1))
    (s : EncState) (x : Nat) (hx : x < 256) (hinv : EncInvByte M S b s) :
    EncInvByte M S b (encByteStep M S b e s x) := by
  obtain ⟨hw, hhi, hbcont, hpend⟩ := hinv
  have hb0 : 0 < b := by omega
  have hS0 : 0 < S := by omega
  have hM0 : 0 < M := by rw [hM]; exact Nat.mul_pos hS0 hb0
  obtain ⟨hn1, hn2, hn3⟩ := encNarrow_bounds s.lo s.hi x hx (by omega)
  have hwl := encNarrow_width_lower s.lo s.hi x
  have hpow512 : 512 ≤ b ^ e := by
    have hee : b ^ e = b ^ (e - 1) * b := by
      conv_lhs => rw [show e = (e - 1) + 1 by omega]
      rw [pow_succ]
    rw [hee]
    calc (512 : Nat) = 256 * 2 := by norm_num
    _ ≤ b ^ (e - 1) * b := Nat.mul_le_mul hpow hb
  have hstep : encByteStep M S b e s x =
      { encEmitLoop M S b e
          { s with
              lo := (encNarrow s.lo s.hi x).1,
              hi := (encNarrow s.lo s.hi x).2,
              trace := s.trace ++ [(s.lo, s.hi)] ++ [encNarrow s.lo s.hi x] } with
        bytesEncoded :=
          (encEmitLoop M S b e
            { s with
                lo := (encNarrow s.lo s.hi x).1,
                hi := (encNarrow s.lo s.hi x).2,
                trace := s.trace ++ [(s.lo, s.hi)] ++ [encNarrow s.lo s.hi x] }).bytesEncoded
            + 1 } := rfl
  have hpendOut := encByteStep_pend M S b e hM hS0 hb he2 s x hx (by omega) hhi hpend
  obtain ⟨h1', ⟨w', hw', hdisj⟩, _, _⟩ :=
    encEmitLoop_master M S b hM hb hS0 e
      { s with
          lo := (encNarrow s.lo s.hi x).1,
          hi := (encNarrow s.lo s.hi x).2,
          trace := s.trace ++ [(s.lo, s.hi)] ++ [encNarrow s.lo s.hi x] }
      ((encNarrow s.lo s.hi x).2 - (encNarrow s.lo s.hi x).1)
      (by simp only []; omega) (by simp only []; omega)
  have hq : (S + 1) / 256 ≤
      (encNarrow s.lo s.hi x).2 - (encNarrow s.lo s.hi x).1 + 1 :=
    le_trans (Nat.div_le_div_right (by omega)) hwl
  have hwS : S ≤ 256 * ((encNarrow s.lo s.hi x).2 - (encNarrow s.lo s.hi x).1) + 510 := by
    omega
  have hSw' : S < w' := by
    rcases hdisj with h | h
    · exact h
    · have h2 : ((encNarrow s.lo s.hi x).2 - (encNarrow s.lo s.hi x).1) * 512 ≤
          ((encNarrow s.lo s.hi x).2 - (encNarrow s.lo s.hi x).1) * b ^ e :=
        Nat.mul_le_mul_left _ hpow512
      have h3 : S < ((encNarrow s.lo s.hi x).2 - (encNarrow s.lo s.hi x).1) * 512 := by
        omega
      omega
  rw [hstep]
  refine ⟨?_, ?_, ?_, ?_⟩
  · simp only []
    omega
  · simp only []
    exact h1'
  · simp only []
    by_cases hdd : (encEmitLoop M S b e
        { s with
            lo := (encNarrow s.lo s.hi x).1,
            hi := (encNarrow s.lo s.hi x).2,
            trace := s.trace ++ [(s.lo, s.hi)] ++ [encNarrow s.lo s.hi x] }).hi / M =
      (encEmitLoop M S b e
        { s with
            lo := (encNarrow s.lo s.hi x).1,
            hi := (encNarrow s.lo s.hi x).2,
            trace := s.trace ++ [(s.lo, s.hi)] ++ [encNarrow s.lo s.hi x] }).lo / M
    · obtain ⟨hdvdlo, hwex⟩ :=
        encEmitLoop_diff0 M S b hM hS0 hb e
          { s with
              lo := (encNarrow s.lo s.hi x).1,
              hi := (encNarrow s.lo s.hi x).2,
              trace := s.trace ++ [(s.lo, s.hi)] ++ [encNarrow s.lo s.hi x] }
          0 ((encNarrow s.lo s.hi x).2 - (encNarrow s.lo s.hi x).1)
          (by simp only []; omega) (by simp only []; omega)
          (by simp) (by simpa using hdvd) hdd
      simp only [Nat.add_zero] at hdvdlo
      have e_r1 := Nat.div_add_mod (encEmitLoop M S b e
        { s with
            lo := (encNarrow s.lo s.hi x).1,
            hi := (encNarrow s.lo s.hi x).2,
            trace := s.trace ++ [(s.lo, s.hi)] ++ [encNarrow s.lo s.hi x] }).lo M
      have e_r2 := Nat.div_add_mod (encEmitLoop M S b e
        { s with
            lo := (encNarrow s.lo s.hi x).1,
            hi := (encNarrow s.lo s.hi x).2,
            trace := s.trace ++ [(s.lo, s.hi)] ++ [encNarrow s.lo s.hi x] }).hi M
      have hmodhi : (encEmitLoop M S b e
        { s with
            lo := (encNarrow s.lo s.hi x).1,
            hi := (encNarrow s.lo s.hi x).2,
            trace := s.trace ++ [(s.lo, s.hi)] ++ [encNarrow s.lo s.hi x] }).hi % M < M :=
        Nat.mod_lt _ hM0
      have hp1 : M * ((encEmitLoop M S b e
          { s with
              lo := (encNarrow s.lo s.hi x).1,
              hi := (encNarrow s.lo s.hi x).2,
              trace := s.trace ++ [(s.lo, s.hi)] ++ [encNarrow s.lo s.hi x] }).hi / M)
          = M * ((encEmitLoop M S b e
          { s with
              lo := (encNarrow s.lo s.hi x).1,
              hi := (encNarrow s.lo s.hi x).2,
              trace := s.trace ++ [(s.lo, s.hi)] ++ [encNarrow s.lo s.hi x] }).lo / M) := by
        rw [hdd]
      rcases hpow256 with ⟨hpe, hs256⟩ | hpe7
      · have hbe : b ^ e = 256 * b := by
          conv_lhs => rw [show e = (e - 1) + 1 by omega]
          rw [pow_succ, hpe]
        rw [hbe] at hwex hdvdlo
        have hc1 : ((encNarrow s.lo s.hi x).2 - (encNarrow s.lo s.hi x).1) * (256 * b)
            = ((encNarrow s.lo s.hi x).2 - (encNarrow s.lo s.hi x).1) * 256 * b := by
          ring
        rw [hc1] at hwex
        have hmodeq : (encEmitLoop M S b e
            { s with
                lo := (encNarrow s.lo s.hi x).1,
                hi := (encNarrow s.lo s.hi x).2,
                trace := s.trace ++ [(s.lo, s.hi)] ++ [encNarrow s.lo s.hi x] }).hi % M
            = (encEmitLoop M S b e
            { s with
                lo := (encNarrow s.lo s.hi x).1,
                hi := (encNarrow s.lo s.hi x).2,
                trace := s.trace ++ [(s.lo, s.hi)] ++ [encNarrow s.lo s.hi x] }).lo % M
              + ((encNarrow s.lo s.hi x).2 - (encNarrow s.lo s.hi x).1) * 256 * b := by
          omega
        have hMSb : M = S * b := hM
        have hc2 : ((encNarrow s.lo s.hi x).2 - (encNarrow s.lo s.hi x).1) * 256 * b
            < S * b := by
          omega
        have hc3 : ((encNarrow s.lo s.hi x).2 - (encNarrow s.lo s.hi x).1) * 256 < S :=
          lt_of_mul_lt_mul_right hc2 (Nat.zero_le b)
        have hsharp : S ≤ ((encNarrow s.lo s.hi x).2 - (encNarrow s.lo s.hi x).1) * 256
            + 256 := by
          omega
        have h5 : (S - ((encNarrow s.lo s.hi x).2 - (encNarrow s.lo s.hi x).1) * 256) * b
            ≤ 256 * b := Nat.mul_le_mul_right _ (by omega)
        have h6 : S * b = (S - ((encNarrow s.lo s.hi x).2
              - (encNarrow s.lo s.hi x).1) * 256) * b
            + ((encNarrow s.lo s.hi x).2 - (encNarrow s.lo s.hi x).1) * 256 * b := by
          rw [← Nat.add_mul,
            show S - ((encNarrow s.lo s.hi x).2 - (encNarrow s.lo s.hi x).1) * 256
              + ((encNarrow s.lo s.hi x).2 - (encNarrow s.lo s.hi x).1) * 256 = S by omega]
        have hup : (encEmitLoop M S b e
            { s with
                lo := (encNarrow s.lo s.hi x).1,
                hi := (encNarrow s.lo s.hi x).2,
                trace := s.trace ++ [(s.lo, s.hi)] ++ [encNarrow s.lo s.hi x] }).lo % M
            < 256 * b := by
          omega
        have hd2 : 256 * b ∣ M := by
          refine ⟨S / 256, ?_⟩
          have hsplit : S = 256 * (S / 256) := by omega
          rw [hM]
          conv_lhs => rw [hsplit]
          ring
        have hdvdmod : 256 * b ∣ (encEmitLoop M S b e
            { s with
                lo := (encNarrow s.lo s.hi x).1,
                hi := (encNarrow s.lo s.hi x).2,
                trace := s.trace ++ [(s.lo, s.hi)] ++ [encNarrow s.lo s.hi x] }).lo % M :=
          (Nat.dvd_mod_iff hd2).mpr hdvdlo
        have hzero := Nat.eq_zero_of_dvd_of_lt hdvdmod hup
        rw [hdd]
        have pc : (encEmitLoop M S b e
            { s with
                lo := (encNarrow s.lo s.hi x).1,
                hi := (encNarrow s.lo s.hi x).2,
                trace := s.trace ++ [(s.lo, s.hi)] ++ [encNarrow s.lo s.hi x] }).lo / M * M
            = M * ((encEmitLoop M S b e
            { s with
                lo := (encNarrow s.lo s.hi x).1,
                hi := (encNarrow s.lo s.hi x).2,
                trace := s.trace ++ [(s.lo, s.hi)] ++ [encNarrow s.lo s.hi x] }).lo / M) :=
          Nat.mul_comm _ _
        omega
      · exfalso
        have hbe : b ^ e = b ^ (e - 1) * b := by
          conv_lhs => rw [show e = (e - 1) + 1 by omega]
          rw [pow_succ]
        rw [hbe] at hwex
        have hc1 : ((encNarrow s.lo s.hi x).2 - (encNarrow s.lo s.hi x).1)
              * (b ^ (e - 1) * b)
            = ((encNarrow s.lo s.hi x).2 - (encNarrow s.lo s.hi x).1) * b ^ (e - 1) * b := by
          ring
        rw [hc1] at hwex
        have hmodeq : (encEmitLoop M S b e
            { s with
                lo := (encNarrow s.lo s.hi x).1,
                hi := (encNarrow s.lo s.hi x).2,
                trace := s.trace ++ [(s.lo, s.hi)] ++ [encNarrow s.lo s.hi x] }).hi % M
            = (encEmitLoop M S b e
            { s with
                lo := (encNarrow s.lo s.hi x).1,
                hi := (encNarrow s.lo s.hi x).2,
                trace := s.trace ++ [(s.lo, s.hi)] ++ [encNarrow s.lo s.hi x] }).lo % M
              + ((encNarrow s.lo s.hi x).2 - (encNarrow s.lo s.hi x).1)
                  * b ^ (e - 1) * b := by
          omega
        have hc2 : ((encNarrow s.lo s.hi x).2 - (encNarrow s.lo s.hi x).1)
            * b ^ (e - 1) * b < S * b := by
          omega
        have hc3 : ((encNarrow s.lo s.hi x).2 - (encNarrow s.lo s.hi x).1) * b ^ (e - 1)
            < S := lt_of_mul_lt_mul_right hc2 (Nat.zero_le b)
        have h257 : ((encNarrow s.lo s.hi x).2 - (encNarrow s.lo s.hi x).1) * 257
            ≤ ((encNarrow s.lo s.hi x).2 - (encNarrow s.lo s.hi x).1) * b ^ (e - 1) :=
          Nat.mul_le_mul_left _ hpe7
        omega
    · have hble : (encEmitLoop M S b e
          { s with
              lo := (encNarrow s.lo s.hi x).1,
              hi := (encNarrow s.lo s.hi x).2,
              trace := s.trace ++ [(s.lo, s.hi)] ++ [encNarrow s.lo s.hi x] }).lo
          ≤ (encEmitLoop M S b e
          { s with
              lo := (encNarrow s.lo s.hi x).1,
              hi := (encNarrow s.lo s.hi x).2,
              trace := s.trace ++ [(s.lo, s.hi)] ++ [encNarrow s.lo s.hi x] }).hi := by
        omega
      have hmono : (encEmitLoop M S b e
          { s with
              lo := (encNarrow s.lo s.hi x).1,
              hi := (encNarrow s.lo s.hi x).2,
              trace := s.trace ++ [(s.lo, s.hi)] ++ [encNarrow s.lo s.hi x] }).lo / M
          ≤ (encEmitLoop M S b e
          { s with
              lo := (encNarrow s.lo s.hi x).1,
              hi := (encNarrow s.lo s.hi x).2,
              trace := s.trace ++ [(s.lo, s.hi)] ++ [encNarrow s.lo s.hi x] }).hi / M :=
        Nat.div_le_div_right hble
      have e_r1 := Nat.div_add_mod (encEmitLoop M S b e
        { s with
            lo := (encNarrow s.lo s.hi x).1,
            hi := (encNarrow s.lo s.hi x).2,
            trace := s.trace ++ [(s.lo, s.hi)] ++ [encNarrow s.lo s.hi x] }).lo M
      have hmod : (encEmitLoop M S b e
        { s with
            lo := (encNarrow s.lo s.hi x).1,
            hi := (encNarrow s.lo s.hi x).2,
            trace := s.trace ++ [(s.lo, s.hi)] ++ [encNarrow s.lo s.hi x] }).lo % M < M :=
        Nat.mod_lt _ hM0
      have hz1 : 0 ≤ (encEmitLoop M S b e
        { s with
            lo := (encNarrow s.lo s.hi x).1,
            hi := (encNarrow s.lo s.hi x).2,
            trace := s.trace ++ [(s.lo, s.hi)] ++ [encNarrow s.lo s.hi x] }).lo / M :=
        Nat.zero_le _
      have hz2 : 0 ≤ (encEmitLoop M S b e
        { s with
            lo := (encNarrow s.lo s.hi x).1,
            hi := (encNarrow s.lo s.hi x).2,
            trace := s.trace ++ [(s.lo, s.hi)] ++ [encNarrow s.lo s.hi x] }).hi / M :=
        Nat.zero_le _
      have hsucc : (encEmitLoop M S b e
          { s with
              lo := (encNarrow s.lo s.hi x).1,
              hi := (encNarrow s.lo s.hi x).2,
              trace := s.trace ++ [(s.lo, s.hi)] ++ [encNarrow s.lo s.hi x] }).lo / M + 1
          ≤ (encEmitLoop M S b e
          { s with
              lo := (encNarrow s.lo s.hi x).1,
              hi := (encNarrow s.lo s.hi x).2,
              trace := s.trace ++ [(s.lo, s.hi)] ++ [encNarrow s.lo s.hi x] }).hi / M := by
        omega
      have h1 : M * ((encEmitLoop M S b e
          { s with
              lo := (encNarrow s.lo s.hi x).1,
              hi := (encNarrow s.lo s.hi x).2,
              trace := s.trace ++ [(s.lo, s.hi)] ++ [encNarrow s.lo s.hi x] }).lo / M + 1)
          ≤ M * ((encEmitLoop M S b e
          { s with
              lo := (encNarrow s.lo s.hi x).1,
              hi := (encNarrow s.lo s.hi x).2,
              trace := s.trace ++ [(s.lo, s.hi)] ++ [encNarrow s.lo s.hi x] }).hi / M) :=
        Nat.mul_le_mul_left M hsucc
      have h2 : M * ((encEmitLoop M S b e
          { s with
              lo := (encNarrow s.lo s.hi x).1,
              hi := (encNarrow s.lo s.hi x).2,
              trace := s.trace ++ [(s.lo, s.hi)] ++ [encNarrow s.lo s.hi x] }).lo / M + 1)
          = M * ((encEmitLoop M S b e
          { s with
              lo := (encNarrow s.lo s.hi x).1,
              hi := (encNarrow s.lo s.hi x).2,
              trace := s.trace ++ [(s.lo, s.hi)] ++ [encNarrow s.lo s.hi x] }).lo / M)
            + M := by
        ring
      have pc : (encEmitLoop M S b e
          { s with
              lo := (encNarrow s.lo s.hi x).1,
              hi := (encNarrow s.lo s.hi x).2,
              trace := s.trace ++ [(s.lo, s.hi)] ++ [encNarrow s.lo s.hi x] }).hi / M * M
          = M * ((encEmitLoop M S b e
          { s with
              lo := (encNarrow s.lo s.hi x).1,
              hi := (encNarrow s.lo s.hi x).2,
              trace := s.trace ++ [(s.lo, s.hi)] ++ [encNarrow s.lo s.hi x] }).hi / M) :=
        Nat.mul_comm _ _
      omega
  · exact hpendOut

/-- The value of an all-zero digit string is zero. -/
theorem digitsVal_replicate_zero (b : Nat) :
    ∀ n, digitsVal b (List.replicate n 0) = 0 := by
  intro n
  induction n with
  | zero => rfl
  | succ n ih =>
    rw [List.replicate_succ, digitsVal_cons, ih]
    simp

/-- Reading the head digit of the final body segment. -/
theorem getD_body_head (out : List Nat) (h : Nat) (rest : List Nat) :
    (out ++ [h] ++ rest).getD out.length 0 = h := by
  rw [List.append_assoc]
  have h0 := getD_append_self out ([h] ++ rest) 0 0
  simpa using h0

/-- Reading inside the zero run of the final body segment. -/
theorem getD_body_run (out : List Nat) (h : Nat) (dta j : Nat)
    (h1 : 1 ≤ j) (h2 : j ≤ dta) :
    (out ++ [h] ++ List.replicate dta 0).getD (out.length + j) 0 = 0 := by
  rw [List.append_assoc, getD_append_self out ([h] ++ List.replicate dta 0) j 0]
  obtain ⟨j', rfl⟩ : ∃ j', j = j' + 1 := ⟨j - 1, by omega⟩
  rw [List.singleton_append, List.getD_cons_succ]
  exact getD_replicate_lt 0 dta j' (by omega)

/-- The window value read at the head of the final body segment: the
final leading digit scaled to the most-significant place, with every
lower digit zero. -/
theorem wval_terminal (b c : Nat) (out : List Nat) (h dta : Nat) :
    wval b c (out ++ [h] ++ List.replicate dta 0) out.length dta
      = h * b ^ (c + 1) := by
  rw [wval_decompose]
  rw [getD_body_head]
  have htail : (List.range (c + 1)).map
      (fun j => (out ++ [h] ++ List.replicate dta 0).getD
        (out.length + dta + 1 + j) 0)
      = (List.range (c + 1)).map (fun _ => (0 : Nat)) := by
    apply List.map_congr_left
    intro j _
    apply List.getD_eq_default
    simp only [List.length_append, List.length_replicate, List.length_singleton]
    omega
  rw [htail]
  have hconst : (List.range (c + 1)).map (fun _ => (0 : Nat))
      = List.replicate (c + 1) 0 := by
    simp
  rw [hconst, digitsVal_replicate_zero]
  exact Nat.add_zero _

/-- Phase one of the round-trip proof: pulling the containment of the
final window value backward through the whole per-byte loop.  Starting
from any state satisfying the byte-boundary invariant, the final digit
stream (per-byte output, final leading digit, resolved pending zeros)
read at the starting offset and pending count has window value inside
the starting interval, and ahead of the start the stream has the
starting pending shape. -/
theorem encLoop_phase1 (M S b c e : Nat) (hM : M = S * b) (hS : S = b ^ c)
    (hb : 2 ≤ b) (hSbig : 131071 ≤ S) (he2 : 2 ≤ e)
    (hpow : 256 ≤ b ^ (e - 1)) (hdvd : b ^ e ∣ M * b)
    (hpow256 : b ^ (e - 1) = 256 ∧ S % 256 = 0 ∨ 257 ≤ b ^ (e - 1)) :
    ∀ (bytes : List Nat), (∀ x ∈ bytes, x < 256) →
    ∀ (s : EncState), EncInvByte M S b s →
    (∀ pos, ((List.foldl (encByteStep M S b e) s bytes).out
        ++ [(List.foldl (encByteStep M S b e) s bytes).hi / M]
        ++ List.replicate
          (List.foldl (encByteStep M S b e) s bytes).digitsToAdd 0).getD pos 0 < b) →
    EncInvByte M S b (List.foldl (encByteStep M S b e) s bytes) ∧
    (∃ t, (List.foldl (encByteStep M S b e) s bytes).out = s.out ++ t) ∧
    s.lo ≤ wval b c ((List.foldl (encByteStep M S b e) s bytes).out
        ++ [(List.foldl (encByteStep M S b e) s bytes).hi / M]
        ++ List.replicate (List.foldl (encByteStep M S b e) s bytes).digitsToAdd 0)
        s.out.length s.digitsToAdd ∧
    wval b c ((List.foldl (encByteStep M S b e) s bytes).out
        ++ [(List.foldl (encByteStep M S b e) s bytes).hi / M]
        ++ List.replicate (List.foldl (encByteStep M S b e) s bytes).digitsToAdd 0)
        s.out.length s.digitsToAdd ≤ s.hi ∧
    (0 < s.digitsToAdd →
      shapeAt b ((List.foldl (encByteStep M S b e) s bytes).out
        ++ [(List.foldl (encByteStep M S b e) s bytes).hi / M]
        ++ List.replicate (List.foldl (encByteStep M S b e) s bytes).digitsToAdd 0)
        s.out.length s.digitsToAdd s.digitsToAddHiMsd) := by
  have hb0 : 0 < b := by omega
  have hS0 : 0 < S := by omega
  have hM0 : 0 < M := by rw [hM]; exact Nat.mul_pos hS0 hb0
  have hMpow : b ^ (c + 1) = M := by
    rw [hM, hS, pow_succ]
  intro bytes
  induction bytes with
  | nil =>
    intro _ s hinv hO
    simp only [List.foldl_nil] at hO ⊢
    obtain ⟨hw, hhi, hbcont, hpend⟩ := hinv
    refine ⟨⟨hw, hhi, hbcont, hpend⟩, ⟨[], by simp⟩, ?_, ?_, ?_⟩
    · rw [wval_terminal, hMpow]
      exact hbcont
    · rw [wval_terminal, hMpow]
      exact Nat.div_mul_le_self _ _
    · intro hdta
      obtain ⟨hp1, hp2⟩ := hpend hdta
      have hcond : (s.out ++ [s.hi / M] ++ List.replicate s.digitsToAdd 0).getD
          s.out.length 0 = s.digitsToAddHiMsd := by
        rw [getD_body_head]
        exact hp2.symm
      refine ⟨Or.inl hcond, ?_⟩
      intro j h1 h2
      rw [if_pos hcond]
      exact getD_body_run s.out (s.hi / M) s.digitsToAdd j h1 h2
  | cons x xs ih =>
    intro hall s hinv hO
    have hx : x < 256 := hall x (List.mem_cons_self x xs)
    obtain ⟨hw, hhi, hbcont, hpend⟩ := hinv
    obtain ⟨hn1, hn2, hn3⟩ := encNarrow_bounds s.lo s.hi x hx (by omega)
    rw [List.foldl_cons] at hO ⊢
    have hinv' : EncInvByte M S b (encByteStep M S b e s x) :=
      encByteStep_inv M S b c e hM hS hb hSbig he2 hpow hdvd hpow256 s x hx
        ⟨hw, hhi, hbcont, hpend⟩
    obtain ⟨hinvF, ⟨t, hFout⟩, c_lo, c_hi, c_shape⟩ :=
      ih (fun y hy => hall y (List.mem_cons_of_mem x hy))
        (encByteStep M S b e s x) hinv' hO
    have e_lo : (encByteStep M S b e s x).lo = (encEmitLoop M S b e
        { s with
            lo := (encNarrow s.lo s.hi x).1,
            hi := (encNarrow s.lo s.hi x).2,
            trace := s.trace ++ [(s.lo, s.hi)] ++ [encNarrow s.lo s.hi x] }).lo := rfl
    have e_hi : (encByteStep M S b e s x).hi = (encEmitLoop M S b e
        { s with
            lo := (encNarrow s.lo s.hi x).1,
            hi := (encNarrow s.lo s.hi x).2,
            trace := s.trace ++ [(s.lo, s.hi)] ++ [encNarrow s.lo s.hi x] }).hi := rfl
    have e_out : (encByteStep M S b e s x).out = (encEmitLoop M S b e
        { s with
            lo := (encNarrow s.lo s.hi x).1,
            hi := (encNarrow s.lo s.hi x).2,
            trace := s.trace ++ [(s.lo, s.hi)] ++ [encNarrow s.lo s.hi x] }).out := rfl
    have e_dta : (encByteStep M S b e s x).digitsToAdd = (encEmitLoop M S b e
        { s with
            lo := (encNarrow s.lo s.hi x).1,
            hi := (encNarrow s.lo s.hi x).2,
            trace := s.trace ++ [(s.lo, s.hi)] ++ [encNarrow s.lo s.hi x] }).digitsToAdd := rfl
    have e_hmsd : (encByteStep M S b e s x).digitsToAddHiMsd = (encEmitLoop M S b e
        { s with
            lo := (encNarrow s.lo s.hi x).1,
            hi := (encNarrow s.lo s.hi x).2,
            trace := s.trace ++ [(s.lo, s.hi)] ++ [encNarrow s.lo s.hi x] }).digitsToAddHiMsd := rfl
    have hsplit : (List.foldl (encByteStep M S b e) (encByteStep M S b e s x) xs).out
        ++ [(List.foldl (encByteStep M S b e) (encByteStep M S b e s x) xs).hi / M]
        ++ List.replicate
          (List.foldl (encByteStep M S b e) (encByteStep M S b e s x) xs).digitsToAdd 0
        = (encEmitLoop M S b e
            { s with
                lo := (encNarrow s.lo s.hi x).1,
                hi := (encNarrow s.lo s.hi x).2,
                trace := s.trace ++ [(s.lo, s.hi)] ++ [encNarrow s.lo s.hi x] }).out
          ++ (t ++ ([(List.foldl (encByteStep M S b e) (encByteStep M S b e s x) xs).hi / M]
            ++ List.replicate
              (List.foldl (encByteStep M S b e) (encByteStep M S b e s x) xs).digitsToAdd 0)) := by
      rw [hFout, e_out]
      simp [List.append_assoc]
    rw [e_lo, e_out, e_dta, hsplit] at c_lo
    rw [e_hi, e_out, e_dta, hsplit] at c_hi
    rw [e_dta, e_out, e_hmsd, hsplit] at c_shape
    rw [hsplit] at hO
    obtain ⟨⟨t', hout'⟩, p_lo, p_hi, p_shape⟩ :=
      encEmitLoop_transport M S b c hM hS hb e
        { s with
            lo := (encNarrow s.lo s.hi x).1,
            hi := (encNarrow s.lo s.hi x).2,
            trace := s.trace ++ [(s.lo, s.hi)] ++ [encNarrow s.lo s.hi x] }
        (t ++ ([(List.foldl (encByteStep M S b e) (encByteStep M S b e s x) xs).hi / M]
          ++ List.replicate
            (List.foldl (encByteStep M S b e) (encByteStep M S b e s x) xs).digitsToAdd 0))
        (by simp only []; omega)
        (by simp only []; omega)
        (by
          simp only []
          intro hdta
          obtain ⟨hp1, hp2⟩ := hpend hdta
          refine ⟨?_, ?_, ?_⟩
          · rw [hp2, hp1]
            exact Nat.le_add_left 1 _
          · have h1 : s.digitsToAddHiMsd - 1 = s.lo / M := by
              rw [hp2, hp1]
              exact Nat.add_sub_cancel _ _
            rw [h1]
            calc s.lo / M * M ≤ s.lo := Nat.div_mul_le_self _ _
            _ ≤ (encNarrow s.lo s.hi x).1 := hn1
          · rw [hp2]
            have e1 := Nat.div_add_mod s.hi M
            have e2 : s.hi % M < M := Nat.mod_lt _ hM0
            have e3 : (s.hi / M + 1) * M = M * (s.hi / M) + M := by ring
            omega)
        hO c_lo c_hi c_shape
    simp only [] at hout' p_lo p_hi p_shape
    refine ⟨hinvF, ⟨t' ++ t, ?_⟩, ?_, ?_, ?_⟩
    · rw [hFout, e_out, hout', List.append_assoc]
    · rw [hsplit]
      exact le_trans hn1 p_lo
    · rw [hsplit]
      exact le_trans p_hi hn3
    · rw [hsplit]
      exact p_shape

/-- Recovering a byte from its narrowed subinterval: any point between
the ceiling offsets of byte `x` scales back to `x` under the decoder's
floor division. -/
theorem byte_recover (w v0 x : Nat) (hw : 0 < w)
    (h1 : ceilDiv (w * x) 256 ≤ v0)
    (h2 : v0 + 1 ≤ ceilDiv (w * (x + 1)) 256) :
    256 * v0 / w = x := by
  unfold ceilDiv at h1 h2
  have e1 := Nat.div_add_mod (w * x + 256 - 1) 256
  have e2 := Nat.div_add_mod (w * (x + 1) + 256 - 1) 256
  have m1 : (w * x + 256 - 1) % 256 < 256 := Nat.mod_lt _ (by omega)
  have m2 : (w * (x + 1) + 256 - 1) % 256 < 256 := Nat.mod_lt _ (by omega)
  have hA : w * x ≤ 256 * v0 := by omega
  have hB : 256 * v0 < w * (x + 1) := by omega
  have hle : x ≤ 256 * v0 / w := by
    rw [Nat.le_div_iff_mul_le hw]
    have : x * w = w * x := Nat.mul_comm _ _
    omega
  have hlt : 256 * v0 / w < x + 1 := by
    rw [Nat.div_lt_iff_lt_mul hw]
    have : (x + 1) * w = w * (x + 1) := Nat.mul_comm _ _
    omega
  omega

/-- The decoder's integer ceiling division agrees with the encoder's
natural-number ceiling division on casts of naturals. -/
theorem natCast_ceilDiv (a : Nat) :
    ceilDivInt (a : Int) 256 = ((ceilDiv a 256 : Nat) : Int) := by
  unfold ceilDivInt ceilDiv
  have h : ((a : Int) + 256 - 1) = ((a + 255 : Nat) : Int) := by push_cast; ring
  rw [h]
  have h2 : (256 : Int) = ((256 : Nat) : Int) := by norm_num
  rw [h2, natCast_fdiv]
  norm_num

/-- The shift counts are bounded by the loop fuel. -/
theorem sigmaCounts_le (M S b : Nat) :
    ∀ (n lo hi : Nat),
      (sigmaCounts M S b n lo hi).1 + (sigmaCounts M S b n lo hi).2 ≤ n := by
  intro n
  induction n with
  | zero => intro lo hi; simp [sigmaCounts]
  | succ n ih =>
    intro lo hi
    rw [sigmaCounts]
    by_cases hd : hi / M - lo / M = 1
    · by_cases hstr : lo / S % b = b - 1 ∧ hi / S % b = 0
      · rw [if_pos hd, if_pos hstr]
        simp only []
        have := ih (lo / M * M + lo % S * b) (hi / M * M + hi % S * b)
        omega
      · rw [if_pos hd, if_neg hstr]
        simp
    · by_cases heq : lo / M = hi / M
      · rw [if_neg hd, if_pos heq]
        simp only []
        have := ih (lo % M * b) (hi % M * b)
        omega
      · rw [if_neg hd, if_neg heq]
        simp

/-- When the shift counter records no shifts at all, the digit-extraction
loop leaves the state unchanged. -/
theorem sigma_zero_stall (M S b : Nat) (n : Nat) (s : EncState)
    (hz : sigmaCounts M S b (n + 1) s.lo s.hi = (0, 0)) :
    encEmitLoop M S b (n + 1) s = s := by
  rw [sigmaCounts] at hz
  rw [encEmitLoop]
  by_cases hd : s.hi / M - s.lo / M = 1
  · by_cases hstr : s.lo / S % b = b - 1 ∧ s.hi / S % b = 0
    · rw [if_pos hd, if_pos hstr] at hz
      simp only [Prod.mk.injEq] at hz
      omega
    · rw [if_pos hd, if_neg hstr]
  · by_cases heq : s.lo / M = s.hi / M
    · rw [if_neg hd, if_pos heq] at hz
      simp only [Prod.mk.injEq] at hz
      omega
    · rw [if_neg hd, if_neg heq]

/-- When the shift counter records no shifts at all, the interval width
already exceeds the second-most-significant place value. -/
theorem sigma_zero_width (M S b : Nat) (hM : M = S * b) (hS : 0 < S)
    (hb : 2 ≤ b) (n lo hi : Nat) (hle : lo ≤ hi)
    (hz : sigmaCounts M S b (n + 1) lo hi = (0, 0)) :
    S < hi - lo := by
  have hM0 : 0 < M := by rw [hM]; exact Nat.mul_pos hS (by omega)
  rw [sigmaCounts] at hz
  have hmono : lo / M ≤ hi / M := Nat.div_le_div_right hle
  by_cases hd : hi / M - lo / M = 1
  · by_cases hstr : lo / S % b = b - 1 ∧ hi / S % b = 0
    · rw [if_pos hd, if_pos hstr] at hz
      simp only [Prod.mk.injEq] at hz
      omega
    · have hdiff : hi / M = lo / M + 1 := by
        have hz1 : 0 ≤ lo / M := Nat.zero_le _
        have hz2 : 0 ≤ hi / M := Nat.zero_le _
        omega
      exact exit_width_near M S b lo hi (hi - lo) hM hb hS (by omega) hdiff hstr
  · by_cases heq : lo / M = hi / M
    · rw [if_neg hd, if_pos heq] at hz
      simp only [Prod.mk.injEq] at hz
      omega
    · have hdiff : lo / M + 2 ≤ hi / M := by
        have hz1 : 0 ≤ lo / M := Nat.zero_le _
        have hz2 : 0 ≤ hi / M := Nat.zero_le _
        omega
      have hMlt := exit_width_far M lo hi (hi - lo) hM0 (by omega) hdiff
      have hSM : S < M := by
        rw [hM]
        calc S = S * 1 := by ring
        _ < S * b := by
          have h := (Nat.mul_lt_mul_left hS).mpr (show 1 < b by omega)
          exact h
      omega

/-- One byte step advances the combined count of emitted and pending
digits by exactly the total number of shifts of its extraction loop. -/
theorem encByteStep_offdta (M S b e : Nat) (hM : M = S * b) (hS : 0 < S)
    (hb : 2 ≤ b) (s : EncState) (x : Nat) (hx : x < 256)
    (hw : s.lo + 65536 ≤ s.hi) (hhi : s.hi < M * b) :
    (encByteStep M S b e s x).out.length + (encByteStep M S b e s x).digitsToAdd
      = s.out.length + s.digitsToAdd
        + ((sigmaCounts M S b e (encNarrow s.lo s.hi x).1 (encNarrow s.lo s.hi x).2).1
          + (sigmaCounts M S b e (encNarrow s.lo s.hi x).1 (encNarrow s.lo s.hi x).2).2) := by
  have e_out : (encByteStep M S b e s x).out = (encEmitLoop M S b e
      { s with
          lo := (encNarrow s.lo s.hi x).1,
          hi := (encNarrow s.lo s.hi x).2,
          trace := s.trace ++ [(s.lo, s.hi)] ++ [encNarrow s.lo s.hi x] }).out := rfl
  have e_dta : (encByteStep M S b e s x).digitsToAdd = (encEmitLoop M S b e
      { s with
          lo := (encNarrow s.lo s.hi x).1,
          hi := (encNarrow s.lo s.hi x).2,
          trace := s.trace ++ [(s.lo, s.hi)] ++ [encNarrow s.lo s.hi x] }).digitsToAdd := rfl
  have hhib : (encNarrow s.lo s.hi x).2 < M * b := by
    obtain ⟨_, _, h3⟩ := encNarrow_bounds s.lo s.hi x hx hw
    omega
  obtain ⟨g1, g2⟩ := encEmitLoop_sigma M S b hM hS hb e
    { s with
        lo := (encNarrow s.lo s.hi x).1,
        hi := (encNarrow s.lo s.hi x).2,
        trace := s.trace ++ [(s.lo, s.hi)] ++ [encNarrow s.lo s.hi x] }
    (by simp only []; exact hhib)
  simp only [] at g1 g2
  rw [e_out, e_dta, g1, g2]
  by_cases hp : (sigmaCounts M S b e (encNarrow s.lo s.hi x).1 (encNarrow s.lo s.hi x).2).1 = 0
  · rw [if_pos hp, if_pos hp, hp]
    omega
  · rw [if_neg hp, if_neg hp]
    omega

/-- The digit-consumption tail in the MSD-preserving case, as one record
update. -/
theorem decConsume_keep (ctx : DecCtx) (s : DecState) (digit : Nat)
    (h : s.requestedDigits = s.requestedDigitsKeepMsd) :
    decConsume ctx s digit = { s with
      i := s.i + 1,
      digitsToDecode := (s.digitsToDecode.fdiv ctx.msdDivisor) * ctx.msdDivisor
        + (s.digitsToDecode.tmod ctx.secondMsdDivisor) * ctx.base + (digit : Int),
      requestedDigitsKeepMsd := s.requestedDigitsKeepMsd - 1,
      requestedDigits := s.requestedDigits - 1 } := by
  rw [decConsume]
  simp only []
  rw [if_pos h]

/-- The digit-consumption tail in the plain case, as one record update. -/
theorem decConsume_plain (ctx : DecCtx) (s : DecState) (digit : Nat)
    (h : ¬ s.requestedDigits = s.requestedDigitsKeepMsd) :
    decConsume ctx s digit = { s with
      i := s.i + 1,
      digitsToDecode := (s.digitsToDecode.tmod ctx.msdDivisor) * ctx.base + (digit : Int),
      requestedDigits := s.requestedDigits - 1 } := by
  rw [decConsume]
  simp only []
  rw [if_neg h]

/-- One iteration of the digit-request loop on the round-trip input:
with a positive request count, the loop consumes the stream digit at the
cursor (through the decoding table before `endIndex`, as a synthesized
zero at or past it), and the final-digit flag afterwards records whether
the position `endIndex + (maxDigitsToDecode - 2)` has been consumed. -/
theorem decFetch_step (ctx : DecCtx) (O : List Nat) (c : Nat)
    (hMD : ctx.maxDigitsToDecode = c + 2)
    (hend : ctx.endIndex = O.length)
    (hdig : ∀ p, p < ctx.endIndex →
      tableGet ctx.decodingTable (ctx.encodedText.getD p 0) = some (O.getD p 0))
    (fuel : Nat) (s : DecState) (hR : ¬ s.requestedDigits = 0)
    (hflag : s.isLastDigit = decide (ctx.endIndex + c < s.i)) :
    decFetchLoop ctx (fuel + 1) s =
      decFetchLoop ctx fuel
        (decConsume ctx { s with isLastDigit := decide (ctx.endIndex + c < s.i + 1) }
          (O.getD s.i 0)) := by
  rw [decFetchLoop, if_neg hR]
  by_cases hlt : s.i < ctx.endIndex
  · rw [if_pos hlt]
    have hflag2 : decide (ctx.endIndex + c < s.i + 1) = s.isLastDigit := by
      rw [hflag]
      simp only [decide_eq_decide]
      omega
    have hrec : ({ s with isLastDigit := decide (ctx.endIndex + c < s.i + 1) }
        : DecState) = s := by
      rw [hflag2]
    rw [hrec, hdig s.i hlt]
  · rw [if_neg hlt]
    simp only []
    have hO0 : O.getD s.i 0 = 0 := by
      apply List.getD_eq_default
      omega
    rw [hO0]
    by_cases heq : s.i - ctx.endIndex = ctx.maxDigitsToDecode - 2
    · rw [if_pos heq]
      have ht : decide (ctx.endIndex + c < s.i + 1) = true := by
        simp only [decide_eq_true_eq]
        rw [hMD] at heq
        omega
      rw [ht]
    · rw [if_neg heq]
      have hflag2 : decide (ctx.endIndex + c < s.i + 1) = s.isLastDigit := by
        rw [hflag]
        simp only [decide_eq_decide]
        rw [hMD] at heq
        omega
      have hrec : ({ s with isLastDigit := decide (ctx.endIndex + c < s.i + 1) }
          : DecState) = s := by
        rw [hflag2]
      rw [hrec]

/-- Division facts for a window value: the leading digit, the tail
below the most-significant place, and the tail below the
second-most-significant place. -/
theorem wval_div_mod (b c M S : Nat) (hM : M = S * b) (hS : S = b ^ c)
    (hb : 2 ≤ b) (O : List Nat) (hOdig : ∀ pos, O.getD pos 0 < b) (off t : Nat) :
    wval b c O off t / M = O.getD off 0 ∧
    wval b c O off t % M
      = digitsVal b ((List.range (c + 1)).map (fun j => O.getD (off + t + 1 + j) 0)) ∧
    wval b c O off t % S
      = digitsVal b ((List.range c).map (fun j => O.getD (off + t + 2 + j) 0)) := by
  have hb0 : 0 < b := by omega
  have hS0 : 0 < S := by rw [hS]; positivity
  have hM0 : 0 < M := by rw [hM]; exact Nat.mul_pos hS0 hb0
  have hMpow : b ^ (c + 1) = M := by rw [hM, hS, pow_succ]
  have hT : digitsVal b ((List.range (c + 1)).map (fun j => O.getD (off + t + 1 + j) 0))
      < M := by
    rw [← hMpow]
    have h := digitsVal_lt b hb0
      ((List.range (c + 1)).map (fun j => O.getD (off + t + 1 + j) 0))
      (by
        intro d hd
        rcases List.mem_map.mp hd with ⟨j, _, rfl⟩
        exact hOdig _)
    simpa using h
  have ht2 : digitsVal b ((List.range c).map (fun j => O.getD (off + t + 2 + j) 0))
      < S := by
    rw [hS]
    have h := digitsVal_lt b hb0
      ((List.range c).map (fun j => O.getD (off + t + 2 + j) 0))
      (by
        intro d hd
        rcases List.mem_map.mp hd with ⟨j, _, rfl⟩
        exact hOdig _)
    simpa using h
  have hdec := wval_decompose b c O off t
  rw [hMpow] at hdec
  obtain ⟨hdiv, hmod⟩ := addMul_div_mod (O.getD off 0)
    (digitsVal b ((List.range (c + 1)).map (fun j => O.getD (off + t + 1 + j) 0)))
    M hM0 hT
  have harr : wval b c O off t
      = (O.getD off 0 * b + O.getD (off + t + 1) 0) * S
        + digitsVal b ((List.range c).map (fun j => O.getD (off + t + 2 + j) 0)) := by
    rw [hdec, wval_tail_split, ← hMpow, hS, pow_succ]
    ring
  obtain ⟨_, hmodS⟩ := addMul_div_mod (O.getD off 0 * b + O.getD (off + t + 1) 0)
    (digitsVal b ((List.range c).map (fun j => O.getD (off + t + 2 + j) 0)))
    S hS0 ht2
  refine ⟨?_, ?_, ?_⟩
  · rw [hdec]
    exact hdiv
  · rw [hdec]
    exact hmod
  · rw [harr]
    exact hmodS

/-- A run of MSD-preserving digit requests: when the request counts are
equal, each consumed digit extends the pending run of the window, the
leading digit staying in place. -/
theorem decFetch_run_keep (ctx : DecCtx) (O : List Nat) (M S b c : Nat)
    (hcM : ctx.msdDivisor = M) (hcS : ctx.secondMsdDivisor = S) (hcb : ctx.base = b)
    (hM : M = S * b) (hS : S = b ^ c) (hb : 2 ≤ b)
    (hMD : ctx.maxDigitsToDecode = c + 2) (hend : ctx.endIndex = O.length)
    (hdig : ∀ p, p < ctx.endIndex →
      tableGet ctx.decodingTable (ctx.encodedText.getD p 0) = some (O.getD p 0))
    (hOdig : ∀ pos, O.getD pos 0 < b) :
    ∀ (dc fuel : Nat) (s : DecState) (off t : Nat),
      dc < fuel →
      s.requestedDigits = dc → s.requestedDigitsKeepMsd = dc →
      s.i = off + t + (c + 2) →
      s.digitsToDecode = ((wval b c O off t : Nat) : Int) →
      s.isLastDigit = decide (ctx.endIndex + c < s.i) →
      ∃ s', decFetchLoop ctx fuel s = some (.ok s') ∧
        s'.digitsToDecode = ((wval b c O off (t + dc) : Nat) : Int) ∧
        s'.i = s.i + dc ∧ s'.requestedDigits = 0 ∧ s'.requestedDigitsKeepMsd = 0 ∧
        s'.isLastDigit = decide (ctx.endIndex + c < s.i + dc) ∧
        s'.lo = s.lo ∧ s'.hi = s.hi ∧ s'.out = s.out ∧
        s'.bytesDecoded = s.bytesDecoded ∧ s'.trace = s.trace := by
  intro dc
  induction dc with
  | zero =>
    intro fuel s off t hfuel hR hkm hi hdtd hflag
    obtain ⟨f, rfl⟩ : ∃ f, fuel = f + 1 := ⟨fuel - 1, by omega⟩
    refine ⟨s, ?_, ?_, by omega, hR, hkm, ?_, rfl, rfl, rfl, rfl, rfl⟩
    · rw [decFetchLoop, if_pos hR]
    · rw [hdtd]
      norm_num
    · rw [hflag]
      simp only [decide_eq_decide]
      omega
  | succ dc ih =>
    intro fuel s off t hfuel hR hkm hi hdtd hflag
    obtain ⟨f, rfl⟩ : ∃ f, fuel = f + 1 := ⟨fuel - 1, by omega⟩
    rw [decFetch_step ctx O c hMD hend hdig f s (by omega) hflag]
    have hcons := decConsume_keep ctx
      { s with isLastDigit := decide (ctx.endIndex + c < s.i + 1) } (O.getD s.i 0)
      (by simp only []; omega)
    rw [hcons]
    simp only []
    obtain ⟨v_div, v_modM, v_modS⟩ := wval_div_mod b c M S hM hS hb O hOdig off t
    have hMpow : b ^ (c + 1) = M := by rw [hM, hS, pow_succ]
    have hidx : off + t + (c + 2) = off + t + c + 2 := by omega
    have hnat : O.getD off 0 * M
        + (digitsVal b ((List.range c).map (fun j => O.getD (off + t + 2 + j) 0)) * b
          + O.getD (off + t + c + 2) 0)
        = wval b c O off (t + 1) := by
      rw [wval_defer_slide, hMpow]
    have hdtd' : (s.digitsToDecode.fdiv ctx.msdDivisor) * ctx.msdDivisor
        + (s.digitsToDecode.tmod ctx.secondMsdDivisor) * ctx.base
        + ((O.getD s.i 0 : Nat) : Int)
        = ((wval b c O off (t + 1) : Nat) : Int) := by
      rw [hdtd, hcM, hcS, hcb, natCast_fdiv, natCast_tmod, v_div, v_modS, hi, hidx,
        ← hnat]
      push_cast
      ring
    obtain ⟨s', h1, h2, h3, h4, h5, h6, h7, h8, h9, h10, h11⟩ :=
      ih f
        { s with
          i := s.i + 1,
          digitsToDecode := (s.digitsToDecode.fdiv ctx.msdDivisor) * ctx.msdDivisor
            + (s.digitsToDecode.tmod ctx.secondMsdDivisor) * ctx.base
            + ((O.getD s.i 0 : Nat) : Int),
          requestedDigitsKeepMsd := s.requestedDigitsKeepMsd - 1,
          requestedDigits := s.requestedDigits - 1,
          isLastDigit := decide (ctx.endIndex + c < s.i + 1) }
        off (t + 1) (by omega)
        (by simp only []; omega) (by simp only []; omega)
        (by simp only []; omega)
        (by simp only []; exact hdtd')
        (by simp only [])
    simp only [] at h1 h2 h3 h6 h7 h8 h9 h10 h11
    refine ⟨s', h1, ?_, by omega, h4, h5, ?_, h7, h8, h9, h10, h11⟩
    · rw [h2]
      have : t + 1 + dc = t + (dc + 1) := by omega
      rw [this]
    · rw [h6]
      simp only [decide_eq_decide]
      omega

/-- A run of plain digit requests followed by the MSD-preserving ones:
the first consumed digit resolves the pending run and restarts the
window behind it, each further plain digit slides the window by one, and
the remaining MSD-preserving requests extend the new pending run. -/
theorem decFetch_run_plain (ctx : DecCtx) (O : List Nat) (M S b c : Nat)
    (hcM : ctx.msdDivisor = M) (hcS : ctx.secondMsdDivisor = S) (hcb : ctx.base = b)
    (hM : M = S * b) (hS : S = b ^ c) (hb : 2 ≤ b)
    (hMD : ctx.maxDigitsToDecode = c + 2) (hend : ctx.endIndex = O.length)
    (hdig : ∀ p, p < ctx.endIndex →
      tableGet ctx.decodingTable (ctx.encodedText.getD p 0) = some (O.getD p 0))
    (hOdig : ∀ pos, O.getD pos 0 < b) :
    ∀ (sc : Nat), 1 ≤ sc → ∀ (dc fuel : Nat) (s : DecState) (off t : Nat),
      sc + dc < fuel →
      s.requestedDigits = sc + dc → s.requestedDigitsKeepMsd = dc →
      s.i = off + t + (c + 2) →
      s.digitsToDecode = ((wval b c O off t : Nat) : Int) →
      s.isLastDigit = decide (ctx.endIndex + c < s.i) →
      ∃ s', decFetchLoop ctx fuel s = some (.ok s') ∧
        s'.digitsToDecode = ((wval b c O (off + t + sc) dc : Nat) : Int) ∧
        s'.i = s.i + (sc + dc) ∧ s'.requestedDigits = 0 ∧
        s'.requestedDigitsKeepMsd = 0 ∧
        s'.isLastDigit = decide (ctx.endIndex + c < s.i + (sc + dc)) ∧
        s'.lo = s.lo ∧ s'.hi = s.hi ∧ s'.out = s.out ∧
        s'.bytesDecoded = s.bytesDecoded ∧ s'.trace = s.trace := by
  intro sc hsc
  obtain ⟨sc', rfl⟩ : ∃ k, sc = k + 1 := ⟨sc - 1, by omega⟩
  clear hsc
  induction sc' with
  | zero =>
    intro dc fuel s off t hfuel hR hkm hi hdtd hflag
    obtain ⟨f, rfl⟩ : ∃ f, fuel = f + 1 := ⟨fuel - 1, by omega⟩
    rw [decFetch_step ctx O c hMD hend hdig f s (by omega) hflag]
    have hcons := decConsume_plain ctx
      { s with isLastDigit := decide (ctx.endIndex + c < s.i + 1) } (O.getD s.i 0)
      (by simp only []; omega)
    rw [hcons]
    simp only []
    obtain ⟨v_div, v_modM, v_modS⟩ := wval_div_mod b c M S hM hS hb O hOdig off t
    have hidx : off + t + (c + 2) = off + t + c + 2 := by omega
    have hnat : digitsVal b ((List.range (c + 1)).map (fun j => O.getD (off + t + 1 + j) 0))
          * b + O.getD (off + t + c + 2) 0
        = wval b c O (off + 1 + t) 0 :=
      (wval_settle_slide b c O off t).symm
    have hdtd' : (s.digitsToDecode.tmod ctx.msdDivisor) * ctx.base
        + ((O.getD s.i 0 : Nat) : Int)
        = ((wval b c O (off + 1 + t) 0 : Nat) : Int) := by
      rw [hdtd, hcM, hcb, natCast_tmod, v_modM, hi, hidx, ← hnat]
      push_cast
      ring
    obtain ⟨s', h1, h2, h3, h4, h5, h6, h7, h8, h9, h10, h11⟩ :=
      decFetch_run_keep ctx O M S b c hcM hcS hcb hM hS hb hMD hend hdig hOdig
        dc f
        { s with
          i := s.i + 1,
          digitsToDecode := (s.digitsToDecode.tmod ctx.msdDivisor) * ctx.base
            + ((O.getD s.i 0 : Nat) : Int),
          requestedDigits := s.requestedDigits - 1,
          isLastDigit := decide (ctx.endIndex + c < s.i + 1) }
        (off + 1 + t) 0 (by omega)
        (by simp only []; omega) (by simp only []; omega)
        (by simp only []; omega)
        (by simp only []; exact hdtd')
        (by simp only [])
    simp only [] at h1 h2 h3 h6 h7 h8 h9 h10 h11
    refine ⟨s', h1, ?_, by omega, h4, h5, ?_, h7, h8, h9, h10, h11⟩
    · rw [h2]
      have e1 : off + 1 + t = off + t + 1 := by omega
      rw [e1, Nat.zero_add]
    · rw [h6]
      simp only [decide_eq_decide]
      omega
  | succ n ih =>
    intro dc fuel s off t hfuel hR hkm hi hdtd hflag
    obtain ⟨f, rfl⟩ : ∃ f, fuel = f + 1 := ⟨fuel - 1, by omega⟩
    rw [decFetch_step ctx O c hMD hend hdig f s (by omega) hflag]
    have hcons := decConsume_plain ctx
      { s with isLastDigit := decide (ctx.endIndex + c < s.i + 1) } (O.getD s.i 0)
      (by simp only []; omega)
    rw [hcons]
    simp only []
    obtain ⟨v_div, v_modM, v_modS⟩ := wval_div_mod b c M S hM hS hb O hOdig off t
    have hidx : off + t + (c + 2) = off + t + c + 2 := by omega
    have hnat : digitsVal b ((List.range (c + 1)).map (fun j => O.getD (off + t + 1 + j) 0))
          * b + O.getD (off + t + c + 2) 0
        = wval b c O (off + 1 + t) 0 :=
      (wval_settle_slide b c O off t).symm
    have hdtd' : (s.digitsToDecode.tmod ctx.msdDivisor) * ctx.base
        + ((O.getD s.i 0 : Nat) : Int)
        = ((wval b c O (off + 1 + t) 0 : Nat) : Int) := by
      rw [hdtd, hcM, hcb, natCast_tmod, v_modM, hi, hidx, ← hnat]
      push_cast
      ring
    obtain ⟨s', h1, h2, h3, h4, h5, h6, h7, h8, h9, h10, h11⟩ :=
      ih dc f
        { s with
          i := s.i + 1,
          digitsToDecode := (s.digitsToDecode.tmod ctx.msdDivisor) * ctx.base
            + ((O.getD s.i 0 : Nat) : Int),
          requestedDigits := s.requestedDigits - 1,
          isLastDigit := decide (ctx.endIndex + c < s.i + 1) }
        (off + 1 + t) 0 (by omega)
        (by simp only []; omega) (by simp only []; omega)
        (by simp only []; omega)
        (by simp only []; exact hdtd')
        (by simp only [])
    simp only [] at h1 h2 h3 h6 h7 h8 h9 h10 h11
    refine ⟨s', h1, ?_, by omega, h4, h5, ?_, h7, h8, h9, h10, h11⟩
    · rw [h2]
      have e1 : off + 1 + t + 0 + (n + 1) = off + t + (n + 1 + 1) := by omega
      rw [e1]
    · rw [h6]
      simp only [decide_eq_decide]
      omega

/-- Extending a mapped-range digit string by its next digit. -/
theorem digitsVal_range_snoc (b : Nat) (f : Nat → Nat) (n : Nat) :
    digitsVal b ((List.range (n + 1)).map f)
      = digitsVal b ((List.range n).map f) * b + f n := by
  rw [map_range_succ_snoc, digitsVal_append, digitsVal_singleton]
  simp

/-- The window at the very start of the stream is the value of its first
`maxDigitsToDecode` digits. -/
theorem wval_zero_prefix (b c : Nat) (O : List Nat) :
    wval b c O 0 0
      = digitsVal b ((List.range (c + 2)).map (fun p => O.getD p 0)) := by
  rw [wval]
  rw [map_range_succ_cons (fun p => O.getD p 0) (c + 1)]
  congr 1
  congr 1
  apply List.map_congr_left
  intro j _
  have h : 0 + 0 + 1 + j = j + 1 := by omega
  rw [h]

/-- The initial digit-request run of `decode`: starting from a zero
accumulator, the first `maxDigitsToDecode` requests (all plain, as no
MSD-preserving requests are pending) build up the window value at the
head of the stream. -/
theorem decFetch_initial (ctx : DecCtx) (O : List Nat) (M S b c : Nat)
    (hcM : ctx.msdDivisor = M) (hcS : ctx.secondMsdDivisor = S) (hcb : ctx.base = b)
    (hM : M = S * b) (hS : S = b ^ c) (hb : 2 ≤ b)
    (hMD : ctx.maxDigitsToDecode = c + 2) (hend : ctx.endIndex = O.length)
    (hdig : ∀ p, p < ctx.endIndex →
      tableGet ctx.decodingTable (ctx.encodedText.getD p 0) = some (O.getD p 0))
    (hOdig : ∀ pos, O.getD pos 0 < b) :
    ∀ (m fuel : Nat) (s : DecState) (j : Nat),
      m < fuel → j + m = c + 2 →
      s.requestedDigits = m → s.requestedDigitsKeepMsd = 0 →
      s.i = j →
      s.digitsToDecode
        = ((digitsVal b ((List.range j).map (fun p => O.getD p 0)) : Nat) : Int) →
      s.isLastDigit = decide (ctx.endIndex + c < s.i) →
      ∃ s', decFetchLoop ctx fuel s = some (.ok s') ∧
        s'.digitsToDecode = ((wval b c O 0 0 : Nat) : Int) ∧
        s'.i = c + 2 ∧ s'.requestedDigits = 0 ∧ s'.requestedDigitsKeepMsd = 0 ∧
        s'.isLastDigit = decide (ctx.endIndex + c < c + 2) ∧
        s'.lo = s.lo ∧ s'.hi = s.hi ∧ s'.out = s.out ∧
        s'.bytesDecoded = s.bytesDecoded ∧ s'.trace = s.trace := by
  have hb0 : 0 < b := by omega
  have hS0 : 0 < S := by rw [hS]; positivity
  have hM0 : 0 < M := by rw [hM]; exact Nat.mul_pos hS0 hb0
  have hMpow : b ^ (c + 1) = M := by rw [hM, hS, pow_succ]
  intro m
  induction m with
  | zero =>
    intro fuel s j hfuel hj hR hkm hi hdtd hflag
    have hj2 : j = c + 2 := by omega
    subst hj2
    obtain ⟨f, rfl⟩ : ∃ f, fuel = f + 1 := ⟨fuel - 1, by omega⟩
    refine ⟨s, ?_, ?_, by omega, hR, hkm, ?_, rfl, rfl, rfl, rfl, rfl⟩
    · rw [decFetchLoop, if_pos hR]
    · rw [hdtd, wval_zero_prefix]
    · rw [hflag, hi]
  | succ m ih =>
    intro fuel s j hfuel hj hR hkm hi hdtd hflag
    obtain ⟨f, rfl⟩ : ∃ f, fuel = f + 1 := ⟨fuel - 1, by omega⟩
    rw [decFetch_step ctx O c hMD hend hdig f s (by omega) hflag]
    have hcons := decConsume_plain ctx
      { s with isLastDigit := decide (ctx.endIndex + c < s.i + 1) } (O.getD s.i 0)
      (by simp only []; omega)
    rw [hcons]
    simp only []
    have hvlt : digitsVal b ((List.range j).map (fun p => O.getD p 0)) < M := by
      have h := digitsVal_lt b hb0 ((List.range j).map (fun p => O.getD p 0))
        (by
          intro d hd
          rcases List.mem_map.mp hd with ⟨p, _, rfl⟩
          exact hOdig _)
      have hlen : ((List.range j).map (fun p => O.getD p 0)).length = j := by simp
      rw [hlen] at h
      calc digitsVal b ((List.range j).map (fun p => O.getD p 0)) < b ^ j := h
      _ ≤ b ^ (c + 1) := Nat.pow_le_pow_right (by omega) (by omega)
      _ = M := hMpow
    have hdtd' : (s.digitsToDecode.tmod ctx.msdDivisor) * ctx.base
        + ((O.getD s.i 0 : Nat) : Int)
        = ((digitsVal b ((List.range (j + 1)).map (fun p => O.getD p 0)) : Nat) : Int) := by
      rw [hdtd, hcM, hcb, natCast_tmod,
        Nat.mod_eq_of_lt hvlt, hi, digitsVal_range_snoc]
      push_cast
      ring
    obtain ⟨s', h1, h2, h3, h4, h5, h6, h7, h8, h9, h10, h11⟩ :=
      ih f
        { s with
          i := s.i + 1,
          digitsToDecode := (s.digitsToDecode.tmod ctx.msdDivisor) * ctx.base
            + ((O.getD s.i 0 : Nat) : Int),
          requestedDigits := s.requestedDigits - 1,
          isLastDigit := decide (ctx.endIndex + c < s.i + 1) }
        (j + 1) (by omega) (by omega)
        (by simp only []; omega) (by simp only []; omega)
        (by simp only []; omega)
        (by simp only []; exact hdtd')
        (by simp only [])
    simp only [] at h1 h2 h3 h6 h7 h8 h9 h10 h11
    exact ⟨s', h1, h2, h3, h4, h5, h6, h7, h8, h9, h10, h11⟩

/-- Sharpened phase one: at a byte boundary, the final window value read
at the current offset lies inside the interval narrowed by the next
byte (not only inside the full current interval). -/
theorem encLoop_phase1_narrow (M S b c e : Nat) (hM : M = S * b) (hS : S = b ^ c)
    (hb : 2 ≤ b) (hSbig : 131071 ≤ S) (he2 : 2 ≤ e)
    (hpow : 256 ≤ b ^ (e - 1)) (hdvd : b ^ e ∣ M * b)
    (hpow256 : b ^ (e - 1) = 256 ∧ S % 256 = 0 ∨ 257 ≤ b ^ (e - 1))
    (x : Nat) (xs : List Nat) (hx : x < 256) (hall : ∀ y ∈ xs, y < 256)
    (s : EncState) (hinv : EncInvByte M S b s)
    (hO : ∀ pos, ((List.foldl (encByteStep M S b e) s (x :: xs)).out
        ++ [(List.foldl (encByteStep M S b e) s (x :: xs)).hi / M]
        ++ List.replicate
          (List.foldl (encByteStep M S b e) s (x :: xs)).digitsToAdd 0).getD pos 0 < b) :
    (encNarrow s.lo s.hi x).1
        ≤ wval b c ((List.foldl (encByteStep M S b e) s (x :: xs)).out
            ++ [(List.foldl (encByteStep M S b e) s (x :: xs)).hi / M]
            ++ List.replicate
              (List.foldl (encByteStep M S b e) s (x :: xs)).digitsToAdd 0)
          s.out.length s.digitsToAdd ∧
    wval b c ((List.foldl (encByteStep M S b e) s (x :: xs)).out
        ++ [(List.foldl (encByteStep M S b e) s (x :: xs)).hi / M]
        ++ List.replicate
          (List.foldl (encByteStep M S b e) s (x :: xs)).digitsToAdd 0)
        s.out.length s.digitsToAdd ≤ (encNarrow s.lo s.hi x).2 := by
  have hb0 : 0 < b := by omega
  have hS0 : 0 < S := by omega
  have hM0 : 0 < M := by rw [hM]; exact Nat.mul_pos hS0 hb0
  obtain ⟨hw, hhi, hbcont, hpend⟩ := hinv
  obtain ⟨hn1, hn2, hn3⟩ := encNarrow_bounds s.lo s.hi x hx (by omega)
  rw [List.foldl_cons] at hO ⊢
  have hinv' : EncInvByte M S b (encByteStep M S b e s x) :=
    encByteStep_inv M S b c e hM hS hb hSbig he2 hpow hdvd hpow256 s x hx
      ⟨hw, hhi, hbcont, hpend⟩
  obtain ⟨hinvF, ⟨t, hFout⟩, c_lo, c_hi, c_shape⟩ :=
    encLoop_phase1 M S b c e hM hS hb hSbig he2 hpow hdvd hpow256 xs hall
      (encByteStep M S b e s x) hinv' hO
  have e_lo : (encByteStep M S b e s x).lo = (encEmitLoop M S b e
      { s with
          lo := (encNarrow s.lo s.hi x).1,
          hi := (encNarrow s.lo s.hi x).2,
          trace := s.trace ++ [(s.lo, s.hi)] ++ [encNarrow s.lo s.hi x] }).lo := rfl
  have e_hi : (encByteStep M S b e s x).hi = (encEmitLoop M S b e
      { s with
          lo := (encNarrow s.lo s.hi x).1,
          hi := (encNarrow s.lo s.hi x).2,
          trace := s.trace ++ [(s.lo, s.hi)] ++ [encNarrow s.lo s.hi x] }).hi := rfl
  have e_out : (encByteStep M S b e s x).out = (encEmitLoop M S b e
      { s with
          lo := (encNarrow s.lo s.hi x).1,
          hi := (encNarrow s.lo s.hi x).2,
          trace := s.trace ++ [(s.lo, s.hi)] ++ [encNarrow s.lo s.hi x] }).out := rfl
  have e_dta : (encByteStep M S b e s x).digitsToAdd = (encEmitLoop M S b e
      { s with
          lo := (encNarrow s.lo s.hi x).1,
          hi := (encNarrow s.lo s.hi x).2,
          trace := s.trace ++ [(s.lo, s.hi)] ++ [encNarrow s.lo s.hi x] }).digitsToAdd := rfl
  have e_hmsd : (encByteStep M S b e s x).digitsToAddHiMsd = (encEmitLoop M S b e
      { s with
          lo := (encNarrow s.lo s.hi x).1,
          hi := (encNarrow s.lo s.hi x).2,
          trace := s.trace ++ [(s.lo, s.hi)] ++ [encNarrow s.lo s.hi x] }).digitsToAddHiMsd := rfl
  have hsplit : (List.foldl (encByteStep M S b e) (encByteStep M S b e s x) xs).out
      ++ [(List.foldl (encByteStep M S b e) (encByteStep M S b e s x) xs).hi / M]
      ++ List.replicate
        (List.foldl (encByteStep M S b e) (encByteStep M S b e s x) xs).digitsToAdd 0
      = (encEmitLoop M S b e
          { s with
              lo := (encNarrow s.lo s.hi x).1,
              hi := (encNarrow s.lo s.hi x).2,
              trace := s.trace ++ [(s.lo, s.hi)] ++ [encNarrow s.lo s.hi x] }).out
        ++ (t ++ ([(List.foldl (encByteStep M S b e) (encByteStep M S b e s x) xs).hi / M]
          ++ List.replicate
            (List.foldl (encByteStep M S b e) (encByteStep M S b e s x) xs).digitsToAdd 0)) := by
    rw [hFout, e_out]
    simp [List.append_assoc]
  rw [e_lo, e_out, e_dta, hsplit] at c_lo
  rw [e_hi, e_out, e_dta, hsplit] at c_hi
  rw [e_dta, e_out, e_hmsd, hsplit] at c_shape
  rw [hsplit] at hO
  obtain ⟨⟨t', hout'⟩, p_lo, p_hi, p_shape⟩ :=
    encEmitLoop_transport M S b c hM hS hb e
      { s with
          lo := (encNarrow s.lo s.hi x).1,
          hi := (encNarrow s.lo s.hi x).2,
          trace := s.trace ++ [(s.lo, s.hi)] ++ [encNarrow s.lo s.hi x] }
      (t ++ ([(List.foldl (encByteStep M S b e) (encByteStep M S b e s x) xs).hi / M]
        ++ List.replicate
          (List.foldl (encByteStep M S b e) (encByteStep M S b e s x) xs).digitsToAdd 0))
      (by simp only []; omega)
      (by simp only []; omega)
      (by
        simp only []
        intro hdta
        obtain ⟨hp1, hp2⟩ := hpend hdta
        refine ⟨?_, ?_, ?_⟩
        · rw [hp2, hp1]
          exact Nat.le_add_left 1 _
        · have h1 : s.digitsToAddHiMsd - 1 = s.lo / M := by
            rw [hp2, hp1]
            exact Nat.add_sub_cancel _ _
          rw [h1]
          calc s.lo / M * M ≤ s.lo := Nat.div_mul_le_self _ _
          _ ≤ (encNarrow s.lo s.hi x).1 := hn1
        · rw [hp2]
          have e1 := Nat.div_add_mod s.hi M
          have e2 : s.hi % M < M := Nat.mod_lt _ hM0
          have e3 : (s.hi / M + 1) * M = M * (s.hi / M) + M := by ring
          omega)
      hO c_lo c_hi c_shape
  simp only [] at p_lo p_hi
  rw [hsplit]
  exact ⟨p_lo, p_hi⟩

/-- Two consecutive bytes cannot both go without shifts: a shift-free
byte leaves the interval at most a 256th of the full range, while a
shift-free exit needs width above `secondMsdDivisor`, which a second
narrowing cannot reach. -/
theorem no_two_empty (M S b c e : Nat) (hM : M = S * b) (hS : S = b ^ c)
    (hb : 2 ≤ b) (hb256 : b ≤ 256) (hSbig : 131071 ≤ S) (he2 : 2 ≤ e)
    (s : EncState) (x y : Nat) (hx : x < 256) (hy : y < 256)
    (hinv : EncInvByte M S b s)
    (h1 : sigmaCounts M S b e (encNarrow s.lo s.hi x).1 (encNarrow s.lo s.hi x).2
      = (0, 0))
    (h2 : sigmaCounts M S b e
        (encNarrow (encByteStep M S b e s x).lo (encByteStep M S b e s x).hi y).1
        (encNarrow (encByteStep M S b e s x).lo (encByteStep M S b e s x).hi y).2
      = (0, 0)) :
    False := by
  obtain ⟨hw, hhi, hbcont, hpend⟩ := hinv
  have hb0 : 0 < b := by omega
  have hS0 : 0 < S := by omega
  have hM0 : 0 < M := by rw [hM]; exact Nat.mul_pos hS0 hb0
  obtain ⟨hn1, hn2, hn3⟩ := encNarrow_bounds s.lo s.hi x hx (by omega)
  obtain ⟨e', rfl⟩ : ∃ e', e = e' + 1 := ⟨e - 1, by omega⟩
  have e_lo : (encByteStep M S b (e' + 1) s x).lo = (encEmitLoop M S b (e' + 1)
      { s with
          lo := (encNarrow s.lo s.hi x).1,
          hi := (encNarrow s.lo s.hi x).2,
          trace := s.trace ++ [(s.lo, s.hi)] ++ [encNarrow s.lo s.hi x] }).lo := rfl
  have e_hi : (encByteStep M S b (e' + 1) s x).hi = (encEmitLoop M S b (e' + 1)
      { s with
          lo := (encNarrow s.lo s.hi x).1,
          hi := (encNarrow s.lo s.hi x).2,
          trace := s.trace ++ [(s.lo, s.hi)] ++ [encNarrow s.lo s.hi x] }).hi := rfl
  have hstall := sigma_zero_stall M S b e'
    { s with
        lo := (encNarrow s.lo s.hi x).1,
        hi := (encNarrow s.lo s.hi x).2,
        trace := s.trace ++ [(s.lo, s.hi)] ++ [encNarrow s.lo s.hi x] }
    (by simp only []; exact h1)
  have hslo : (encByteStep M S b (e' + 1) s x).lo = (encNarrow s.lo s.hi x).1 := by
    rw [e_lo, hstall]
  have hshi : (encByteStep M S b (e' + 1) s x).hi = (encNarrow s.lo s.hi x).2 := by
    rw [e_hi, hstall]
  rw [hslo, hshi] at h2
  have hw1 : S < (encNarrow s.lo s.hi x).2 - (encNarrow s.lo s.hi x).1 :=
    sigma_zero_width M S b hM hS0 hb e' _ _ (by omega) h1
  obtain ⟨hm1, hm2, hm3⟩ := encNarrow_bounds (encNarrow s.lo s.hi x).1
    (encNarrow s.lo s.hi x).2 y hy (by omega)
  have hw2 : S < (encNarrow (encNarrow s.lo s.hi x).1
        (encNarrow s.lo s.hi x).2 y).2
      - (encNarrow (encNarrow s.lo s.hi x).1
        (encNarrow s.lo s.hi x).2 y).1 :=
    sigma_zero_width M S b hM hS0 hb e' _ _ (by omega) h2
  have wu1 := encNarrow_width_upper s.lo s.hi x
  have wu2 := encNarrow_width_upper (encNarrow s.lo s.hi x).1
    (encNarrow s.lo s.hi x).2 y
  have hbb : M * b ≤ S * 65536 := by
    rw [hM]
    have h1' : S * b * b = S * (b * b) := by ring
    rw [h1']
    exact Nat.mul_le_mul_left S (Nat.mul_le_mul hb256 hb256)
  omega

/-- The combined count of emitted and pending digits never decreases
along the per-byte loop. -/
theorem offdta_fold_ge (M S b c e : Nat) (hM : M = S * b) (hS : S = b ^ c)
    (hb : 2 ≤ b) (hSbig : 131071 ≤ S) (he2 : 2 ≤ e)
    (hpow : 256 ≤ b ^ (e - 1)) (hdvd : b ^ e ∣ M * b)
    (hpow256 : b ^ (e - 1) = 256 ∧ S % 256 = 0 ∨ 257 ≤ b ^ (e - 1)) :
    ∀ (xs : List Nat), (∀ y ∈ xs, y < 256) →
    ∀ (s : EncState), EncInvByte M S b s →
      s.out.length + s.digitsToAdd
        ≤ (List.foldl (encByteStep M S b e) s xs).out.length
          + (List.foldl (encByteStep M S b e) s xs).digitsToAdd := by
  have hS0 : 0 < S := by omega
  intro xs
  induction xs with
  | nil =>
    intro _ s _
    simp only [List.foldl_nil]
    exact le_refl _
  | cons x xs ih =>
    intro hall s hinv
    rw [List.foldl_cons]
    have hx : x < 256 := hall x (List.mem_cons_self x xs)
    have hstep := encByteStep_offdta M S b e hM hS0 hb s x hx
      (by obtain ⟨hw, _, _, _⟩ := hinv; omega) hinv.2.1
    have hinv' : EncInvByte M S b (encByteStep M S b e s x) :=
      encByteStep_inv M S b c e hM hS hb hSbig he2 hpow hdvd hpow256 s x hx hinv
    have hih := ih (fun y hy => hall y (List.mem_cons_of_mem x hy))
      (encByteStep M S b e s x) hinv'
    omega

/-- Setting an absent key appends one entry. -/
theorem tableSet_length_new (k v : Nat) :
    ∀ (t : Table), tableGet t k = none → (tableSet t k v).length = t.length + 1 := by
  intro t
  induction t with
  | nil => intro _; rfl
  | cons p t ih =>
    intro hget
    rw [tableGet] at hget
    by_cases hp : p.1 = k
    · rw [if_pos hp] at hget
      exact absurd hget (by simp)
    · rw [if_neg hp] at hget
      rw [tableSet, if_neg hp, List.length_cons, List.length_cons, ih hget]

/-- For an alphabet of distinct symbols, the decoding table has one
entry per symbol. -/
theorem buildTableLoop_size (alphabet : List Nat) (hnd : alphabet.Nodup) :
    ∀ (n : Nat) (t : Table), n ≤ alphabet.length →
      (∀ i, i < n → tableGet t (alphabet.getD i 0) = none) →
      (buildTableLoop alphabet n t).length = t.length + n := by
  intro n
  induction n with
  | zero => intro t _ _; rfl
  | succ n ih =>
    intro t hn hnone
    rw [buildTableLoop]
    have hset := tableSet_length_new (alphabet.getD n 0) n t (hnone n (by omega))
    have hrec : ∀ i, i < n →
        tableGet (tableSet t (alphabet.getD n 0) n) (alphabet.getD i 0) = none := by
      intro i hi
      rw [tableGet_tableSet]
      have hne : alphabet.getD i 0 ≠ alphabet.getD n 0 := by
        intro heq
        have hi' : i < alphabet.length := by omega
        have hn' : n < alphabet.length := by omega
        rw [List.getD_eq_getElem alphabet 0 hi', List.getD_eq_getElem alphabet 0 hn']
          at heq
        have := (List.Nodup.getElem_inj_iff hnd).mp heq
        omega
      rw [if_neg hne]
      exact hnone i (by omega)
    rw [ih (tableSet t (alphabet.getD n 0) n) (by omega) hrec, hset]
    omega

/-- Size of the decoding table of a distinct alphabet. -/
theorem tableSize_buildDecodingTable (alphabet : List Nat) (hnd : alphabet.Nodup) :
    tableSize (buildDecodingTable alphabet) = alphabet.length := by
  rw [tableSize, buildDecodingTable,
    buildTableLoop_size alphabet hnd alphabet.length [] (le_refl _)
      (fun i _ => rfl)]
  simp

/-- For an alphabet of distinct symbols, looking up the symbol at an
index recovers that index. -/
theorem tableGet_buildDecodingTable_nodup (alphabet : List Nat)
    (hnd : alphabet.Nodup) (d : Nat) (hd : d < alphabet.length) :
    tableGet (buildDecodingTable alphabet) (alphabet.getD d 0) = some d := by
  rw [buildDecodingTable, buildTableLoop_get]
  have hfind : ((List.range alphabet.length).find?
      (fun i => alphabet.getD i 0 == alphabet.getD d 0)).isSome := by
    rw [List.find?_isSome]
    exact ⟨d, List.mem_range.mpr hd, by simp⟩
  rcases Option.isSome_iff_exists.mp hfind with ⟨i, hi⟩
  have hmem := List.mem_of_find?_eq_some hi
  have hi_lt : i < alphabet.length := List.mem_range.mp hmem
  have hpi := (range_find?_least _ _ _ hi).1
  have heq : alphabet.getD i 0 = alphabet.getD d 0 := by simpa using hpi
  rw [List.getD_eq_getElem alphabet 0 hi_lt, List.getD_eq_getElem alphabet 0 hd] at heq
  have hid : i = d := (List.Nodup.getElem_inj_iff hnd).mp heq
  rw [hi, hid]
  rfl

/-- Reading a mapped list below its length. -/
theorem getD_map_lt (f : Nat → Nat) (d : Nat) :
    ∀ (l : List Nat) (p : Nat), p < l.length →
      (l.map f).getD p d = f (l.getD p 0) := by
  intro l
  induction l with
  | nil => intro p hp; simp at hp
  | cons a t ih =>
    intro p hp
    cases p with
    | zero => rfl
    | succ p =>
      rw [List.map_cons, List.getD_cons_succ, List.getD_cons_succ]
      exact ih p (by simpa using hp)

/-- The decoder's lower narrowing bound is the cast of the encoder's. -/
theorem natCast_encNarrow_fst (lo hi x : Nat) (hle : lo ≤ hi) :
    (lo : Int) + ceilDivInt (((hi : Int) - (lo : Int) + 1) * ((x : Nat) : Int)) 256
      = ((encNarrow lo hi x).1 : Int) := by
  have hw : ((hi : Int) - (lo : Int) + 1) = ((hi - lo + 1 : Nat) : Int) := by
    rw [Nat.cast_add, Nat.cast_sub hle, Nat.cast_one]
  rw [hw, ← Nat.cast_mul, natCast_ceilDiv, ← Nat.cast_add]
  rfl

/-- The decoder's upper narrowing bound is the cast of the encoder's. -/
theorem natCast_encNarrow_snd (lo hi x : Nat) (hle : lo ≤ hi) :
    (lo : Int) + ceilDivInt (((hi : Int) - (lo : Int) + 1) * (((x : Nat) : Int) + 1)) 256
        - 1
      = ((encNarrow lo hi x).2 : Int) := by
  have hw : ((hi : Int) - (lo : Int) + 1) = ((hi - lo + 1 : Nat) : Int) := by
    rw [Nat.cast_add, Nat.cast_sub hle, Nat.cast_one]
  have hx1 : ((x : Nat) : Int) + 1 = ((x + 1 : Nat) : Int) := by push_cast; ring
  rw [hw, hx1, ← Nat.cast_mul, natCast_ceilDiv, ← Nat.cast_add]
  have hceil1 : 1 ≤ lo + ceilDiv ((hi - lo + 1) * (x + 1)) 256 := by
    unfold ceilDiv
    have h1 : 1 ≤ (hi - lo + 1) * (x + 1) := Nat.mul_pos (by omega) (by omega)
    omega
  rw [show (1 : Int) = ((1 : Nat) : Int) from rfl, ← Nat.cast_sub hceil1]
  rfl

/-- Forward simulation of the decoder against the encoder: entered at a
byte boundary whose digit-request round completes into the aligned
window state, the outer decode loop reproduces exactly the remaining
input bytes and stops on the parity terminator. -/
theorem dec_sim (ctx : DecCtx) (O : List Nat) (M S b c e : Nat)
    (hcM : ctx.msdDivisor = M) (hcS : ctx.secondMsdDivisor = S) (hcb : ctx.base = b)
    (hMD : ctx.maxDigitsToDecode = c + 2)
    (hend : ctx.endIndex = O.length)
    (hdig : ∀ p, p < ctx.endIndex →
      tableGet ctx.decodingTable (ctx.encodedText.getD p 0) = some (O.getD p 0))
    (hOdig : ∀ pos, O.getD pos 0 < b)
    (hM : M = S * b) (hS : S = b ^ c) (hb : 2 ≤ b) (hb256 : b ≤ 256)
    (hSbig : 131071 ≤ S) (he2 : 2 ≤ e)
    (hpow : 256 ≤ b ^ (e - 1)) (hdvd : b ^ e ∣ M * b)
    (hpow256 : b ^ (e - 1) = 256 ∧ S % 256 = 0 ∨ 257 ≤ b ^ (e - 1))
    (hce : ctx.maxDigitsToEmit = e)
    (ffuel : Nat) (hfe : e < ffuel) :
    ∀ (xs : List Nat), (∀ y ∈ xs, y < 256) →
    ∀ (fo : Nat) (s : EncState) (ds dsf : DecState),
      xs.length < fo →
      EncInvByte M S b s →
      O = (List.foldl (encByteStep M S b e) s xs).out
        ++ [(List.foldl (encByteStep M S b e) s xs).hi / M]
        ++ List.replicate (List.foldl (encByteStep M S b e) s xs).digitsToAdd 0 →
      decFetchLoop ctx ffuel { ds with trace := ds.trace ++ [(ds.lo, ds.hi)] }
        = some (.ok dsf) →
      dsf.lo = (s.lo : Int) → dsf.hi = (s.hi : Int) →
      dsf.digitsToDecode = ((wval b c O s.out.length s.digitsToAdd : Nat) : Int) →
      dsf.i = s.out.length + s.digitsToAdd + (c + 2) →
      dsf.requestedDigits = 0 → dsf.requestedDigitsKeepMsd = 0 →
      dsf.isLastDigit = decide (ctx.endIndex + c < dsf.i) →
      (dsf.bytesDecoded + xs.length) % 2 = ctx.lengthParity →
      ∃ d', decOuterLoop ctx ffuel fo ds = some (.ok d') ∧
        d'.out = dsf.out ++ xs.map (fun y => ((y : Nat) : Int)) := by
  have hb0 : 0 < b := by omega
  have hS0 : 0 < S := by omega
  have hM0 : 0 < M := by rw [hM]; exact Nat.mul_pos hS0 hb0
  intro xs
  induction xs with
  | nil =>
    intro _ fo s ds dsf hfo hinv hOfold hfetch hdslo hdshi hdtd hdi hdR hdkm
      hdflag hpar
    obtain ⟨fo', rfl⟩ : ∃ k, fo = k + 1 := ⟨fo - 1, by omega⟩
    simp only [List.foldl_nil] at hOfold
    have hOlen : O.length = s.out.length + 1 + s.digitsToAdd := by
      rw [hOfold]
      simp only [List.length_append, List.length_replicate, List.length_cons,
        List.length_nil]
    have hflag_true : dsf.isLastDigit = true := by
      rw [hdflag]
      simp only [decide_eq_true_eq]
      rw [hend, hOlen, hdi]
      omega
    have hpar' : dsf.bytesDecoded % 2 = ctx.lengthParity := by
      simpa using hpar
    rw [decOuterLoop, hfetch]
    simp only []
    rw [if_pos hflag_true,
      if_neg (show ¬ (dsf.bytesDecoded % 2 ≠ ctx.lengthParity) from fun h => h hpar')]
    exact ⟨dsf, rfl, by simp⟩
  | cons x xs ih =>
    intro hall fo s ds dsf hfo hinv hOfold hfetch hdslo hdshi hdtd hdi hdR hdkm
      hdflag hpar
    obtain ⟨fo', rfl⟩ : ∃ k, fo = k + 1 := ⟨fo - 1, by omega⟩
    simp only [List.length_cons] at hfo
    have hx : x < 256 := hall x (List.mem_cons_self x xs)
    have hallxs : ∀ y ∈ xs, y < 256 := fun y hy => hall y (List.mem_cons_of_mem x hy)
    have hOfold1 := hOfold
    rw [List.foldl_cons] at hOfold1
    obtain ⟨hw, hhi_s, hbcont, hpend⟩ := hinv
    obtain ⟨hn1, hn2, hn3⟩ := encNarrow_bounds s.lo s.hi x hx (by omega)
    have hinv1 : EncInvByte M S b (encByteStep M S b e s x) :=
      encByteStep_inv M S b c e hM hS hb hSbig he2 hpow hdvd hpow256 s x hx
        ⟨hw, hhi_s, hbcont, hpend⟩
    obtain ⟨p_lo, p_hi⟩ := encLoop_phase1_narrow M S b c e hM hS hb hSbig he2 hpow
      hdvd hpow256 x xs hx hallxs s ⟨hw, hhi_s, hbcont, hpend⟩
      (by intro pos; rw [← hOfold]; exact hOdig pos)
    rw [← hOfold] at p_lo p_hi
    have hfst : (encNarrow s.lo s.hi x).1
        = s.lo + ceilDiv ((s.hi - s.lo + 1) * x) 256 := rfl
    have hsnd : (encNarrow s.lo s.hi x).2
        = s.lo + ceilDiv ((s.hi - s.lo + 1) * (x + 1)) 256 - 1 := rfl
    have hvlo : s.lo ≤ wval b c O s.out.length s.digitsToAdd := by
      rw [hfst] at p_lo
      omega
    have hceil1 : 1 ≤ ceilDiv ((s.hi - s.lo + 1) * (x + 1)) 256 := by
      unfold ceilDiv
      have h1 : 1 ≤ (s.hi - s.lo + 1) * (x + 1) := Nat.mul_pos (by omega) (by omega)
      omega
    have hbyteNat : 256 * (wval b c O s.out.length s.digitsToAdd - s.lo)
        / (s.hi - s.lo + 1) = x := by
      apply byte_recover (s.hi - s.lo + 1) _ x (by omega)
      · rw [hfst] at p_lo
        omega
      · rw [hsnd] at p_hi
        omega
    have hbyteInt : (256 * (dsf.digitsToDecode - dsf.lo)).fdiv (dsf.hi - dsf.lo + 1)
        = ((x : Nat) : Int) := by
      rw [hdtd, hdslo, hdshi]
      have e1 : ((wval b c O s.out.length s.digitsToAdd : Nat) : Int) - (s.lo : Int)
          = ((wval b c O s.out.length s.digitsToAdd - s.lo : Nat) : Int) :=
        (Nat.cast_sub hvlo).symm
      have e2 : (s.hi : Int) - (s.lo : Int) + 1 = ((s.hi - s.lo + 1 : Nat) : Int) := by
        rw [Nat.cast_add, Nat.cast_sub (show s.lo ≤ s.hi by omega), Nat.cast_one]
      rw [e1, e2]
      have e3 : (256 : Int) * ((wval b c O s.out.length s.digitsToAdd - s.lo : Nat) : Int)
          = ((256 * (wval b c O s.out.length s.digitsToAdd - s.lo) : Nat) : Int) := by
        push_cast
        ring
      rw [e3, natCast_fdiv, hbyteNat]
    by_cases hfl : dsf.isLastDigit = true
    · -- early fire: the remaining shifts must all be empty
      have hflagP : ctx.endIndex + c < dsf.i := by
        have h := hfl
        rw [hdflag] at h
        simpa using h
      have hOlen : O.length
          = (List.foldl (encByteStep M S b e) (encByteStep M S b e s x) xs).out.length
            + 1
            + (List.foldl (encByteStep M S b e) (encByteStep M S b e s x) xs).digitsToAdd := by
        rw [hOfold1]
        simp only [List.length_append, List.length_replicate, List.length_cons,
          List.length_nil]
      have hmono2 := offdta_fold_ge M S b c e hM hS hb hSbig he2 hpow hdvd hpow256
        xs hallxs (encByteStep M S b e s x) hinv1
      have hstepx := encByteStep_offdta M S b e hM hS0 hb s x hx (by omega) hhi_s
      have hsigx : sigmaCounts M S b e (encNarrow s.lo s.hi x).1
          (encNarrow s.lo s.hi x).2 = (0, 0) := by
        apply Prod.ext
        · simp only []
          rw [hend, hOlen, hdi] at hflagP
          omega
        · simp only []
          rw [hend, hOlen, hdi] at hflagP
          omega
      cases xs with
      | nil =>
        have hpar2 : dsf.bytesDecoded % 2 ≠ ctx.lengthParity := by
          simp only [List.length_cons, List.length_nil] at hpar
          omega
        rw [decOuterLoop, hfetch]
        simp only []
        rw [if_pos hfl, if_pos hpar2, hbyteInt]
        refine ⟨{ dsf with out := dsf.out ++ [((x : Nat) : Int)] }, rfl, ?_⟩
        simp
      | cons y ys =>
        exfalso
        have hy : y < 256 := hallxs y (List.mem_cons_self y ys)
        have hallys : ∀ z ∈ ys, z < 256 :=
          fun z hz => hallxs z (List.mem_cons_of_mem y hz)
        have hinv2 : EncInvByte M S b
            (encByteStep M S b e (encByteStep M S b e s x) y) :=
          encByteStep_inv M S b c e hM hS hb hSbig he2 hpow hdvd hpow256 _ y hy hinv1
        have hmono3 := offdta_fold_ge M S b c e hM hS hb hSbig he2 hpow hdvd hpow256
          ys hallys (encByteStep M S b e (encByteStep M S b e s x) y) hinv2
        have hstepy := encByteStep_offdta M S b e hM hS0 hb
          (encByteStep M S b e s x) y hy
          (by obtain ⟨hw1, _, _, _⟩ := hinv1; omega) hinv1.2.1
        rw [List.foldl_cons] at hmono2 hOlen
        have hsigy : sigmaCounts M S b e
            (encNarrow (encByteStep M S b e s x).lo (encByteStep M S b e s x).hi y).1
            (encNarrow (encByteStep M S b e s x).lo (encByteStep M S b e s x).hi y).2
            = (0, 0) := by
          apply Prod.ext
          · simp only []
            rw [hend, hOlen, hdi] at hflagP
            omega
          · simp only []
            rw [hend, hOlen, hdi] at hflagP
            omega
        exact no_two_empty M S b c e hM hS hb hb256 hSbig he2 s x y hx hy
          ⟨hw, hhi_s, hbcont, hpend⟩ hsigx hsigy
    · -- ordinary round
      have hnloInt : dsf.lo + ceilDivInt ((dsf.hi - dsf.lo + 1) * ((x : Nat) : Int)) 256
          = (((encNarrow s.lo s.hi x).1 : Nat) : Int) := by
        rw [hdslo, hdshi]
        exact natCast_encNarrow_fst s.lo s.hi x (by omega)
      have hnhiInt : dsf.lo
            + ceilDivInt ((dsf.hi - dsf.lo + 1) * (((x : Nat) : Int) + 1)) 256 - 1
          = (((encNarrow s.lo s.hi x).2 : Nat) : Int) := by
        rw [hdslo, hdshi]
        exact natCast_encNarrow_snd s.lo s.hi x (by omega)
      set DSM : DecState :=
        { dsf with
            out := dsf.out ++ [((x : Nat) : Int)],
            lo := (((encNarrow s.lo s.hi x).1 : Nat) : Int),
            hi := (((encNarrow s.lo s.hi x).2 : Nat) : Int),
            trace := dsf.trace ++ [((((encNarrow s.lo s.hi x).1 : Nat) : Int),
              (((encNarrow s.lo s.hi x).2 : Nat) : Int))] } with hDSM
      set LL : DecState := decEmitLoop ctx e DSM with hLL
      set DN : DecState :=
        { bytesDecoded := LL.bytesDecoded + 1, lo := LL.lo, hi := LL.hi, i := LL.i,
          digitsToDecode := LL.digitsToDecode, requestedDigits := LL.requestedDigits,
          requestedDigitsKeepMsd := LL.requestedDigitsKeepMsd,
          isLastDigit := LL.isLastDigit, out := LL.out, trace := LL.trace } with hDN
      set DP : DecState := { DN with trace := DN.trace ++ [(DN.lo, DN.hi)] } with hDP
      have hDSMlo : DSM.lo = (((encNarrow s.lo s.hi x).1 : Nat) : Int) := by rw [hDSM]
      have hDSMhi : DSM.hi = (((encNarrow s.lo s.hi x).2 : Nat) : Int) := by rw [hDSM]
      have hDSMi : DSM.i = dsf.i := by rw [hDSM]
      have hDSMdtd : DSM.digitsToDecode = dsf.digitsToDecode := by rw [hDSM]
      have hDSMR : DSM.requestedDigits = dsf.requestedDigits := by rw [hDSM]
      have hDSMkm : DSM.requestedDigitsKeepMsd = dsf.requestedDigitsKeepMsd := by
        rw [hDSM]
      have hDSMflag : DSM.isLastDigit = dsf.isLastDigit := by rw [hDSM]
      have hDSMout : DSM.out = dsf.out ++ [((x : Nat) : Int)] := by rw [hDSM]
      have hDSMbd : DSM.bytesDecoded = dsf.bytesDecoded := by rw [hDSM]
      have heq : decOuterLoop ctx ffuel (fo' + 1) ds = decOuterLoop ctx ffuel fo' DN := by
        rw [decOuterLoop, hfetch]
        simp only []
        rw [if_neg hfl, hbyteInt, hnloInt, hnhiInt, hce, ← hDSM, ← hLL, ← hDN]
      obtain ⟨g1, g2, g3, g4, g5, g6, g7, g8, g9⟩ :=
        decEmitLoop_mirror ctx
          (by rw [hcM, hcS, hcb]; exact hM)
          (by rw [hcS]; exact hS0)
          (by rw [hcb]; exact hb)
          e
          { s with
              lo := (encNarrow s.lo s.hi x).1,
              hi := (encNarrow s.lo s.hi x).2,
              trace := s.trace ++ [(s.lo, s.hi)] ++ [encNarrow s.lo s.hi x] }
          DSM
          (by rw [hDSMlo]) (by rw [hDSMhi])
          (by simp only []; rw [hcM, hcb]; omega)
      rw [hcM, hcS, hcb] at g1 g2 g3 g4
      rw [← hLL] at g1 g2 g3 g4 g5 g6 g7 g8 g9
      simp only [] at g1 g2 g3 g4
      have e_lo : (encByteStep M S b e s x).lo = (encEmitLoop M S b e
          { s with
              lo := (encNarrow s.lo s.hi x).1,
              hi := (encNarrow s.lo s.hi x).2,
              trace := s.trace ++ [(s.lo, s.hi)] ++ [encNarrow s.lo s.hi x] }).lo := rfl
      have e_hi : (encByteStep M S b e s x).hi = (encEmitLoop M S b e
          { s with
              lo := (encNarrow s.lo s.hi x).1,
              hi := (encNarrow s.lo s.hi x).2,
              trace := s.trace ++ [(s.lo, s.hi)] ++ [encNarrow s.lo s.hi x] }).hi := rfl
      have e_out : (encByteStep M S b e s x).out = (encEmitLoop M S b e
          { s with
              lo := (encNarrow s.lo s.hi x).1,
              hi := (encNarrow s.lo s.hi x).2,
              trace := s.trace ++ [(s.lo, s.hi)] ++ [encNarrow s.lo s.hi x] }).out := rfl
      have e_dta : (encByteStep M S b e s x).digitsToAdd = (encEmitLoop M S b e
          { s with
              lo := (encNarrow s.lo s.hi x).1,
              hi := (encNarrow s.lo s.hi x).2,
              trace := s.trace ++ [(s.lo, s.hi)] ++ [encNarrow s.lo s.hi x] }).digitsToAdd
        := rfl
      rw [← e_lo] at g1
      rw [← e_hi] at g2
      obtain ⟨q1, q2⟩ := encEmitLoop_sigma M S b hM hS0 hb e
        { s with
            lo := (encNarrow s.lo s.hi x).1,
            hi := (encNarrow s.lo s.hi x).2,
            trace := s.trace ++ [(s.lo, s.hi)] ++ [encNarrow s.lo s.hi x] }
        (by simp only []; omega)
      simp only [] at q1 q2
      have hsig_le := sigmaCounts_le M S b e (encNarrow s.lo s.hi x).1
        (encNarrow s.lo s.hi x).2
      have hLLi : LL.i = dsf.i := by rw [g5, hDSMi]
      have hLLdtd : LL.digitsToDecode = dsf.digitsToDecode := by rw [g6, hDSMdtd]
      have hLLflag : LL.isLastDigit = dsf.isLastDigit := by rw [g7, hDSMflag]
      have hLLout : LL.out = dsf.out ++ [((x : Nat) : Int)] := by rw [g8, hDSMout]
      have hLLbd : LL.bytesDecoded = dsf.bytesDecoded := by rw [g9, hDSMbd]
      have hLLR : LL.requestedDigits = dsf.requestedDigits
          + ((sigmaCounts M S b e (encNarrow s.lo s.hi x).1 (encNarrow s.lo s.hi x).2).1
            + (sigmaCounts M S b e (encNarrow s.lo s.hi x).1
              (encNarrow s.lo s.hi x).2).2) := by
        rw [g3, hDSMR]
      have hLLkm : LL.requestedDigitsKeepMsd = dsf.requestedDigitsKeepMsd
          + (sigmaCounts M S b e (encNarrow s.lo s.hi x).1
            (encNarrow s.lo s.hi x).2).2 := by
        rw [g4, hDSMkm]
      have hDPi : DP.i = s.out.length + s.digitsToAdd + (c + 2) := by
        rw [hDP]
        simp only []
        rw [hLLi]
        exact hdi
      have hDPdtd : DP.digitsToDecode
          = ((wval b c O s.out.length s.digitsToAdd : Nat) : Int) := by
        rw [hDP]
        simp only []
        rw [hLLdtd]
        exact hdtd
      have hDPflag : DP.isLastDigit = decide (ctx.endIndex + c < DP.i) := by
        rw [hDP]
        simp only []
        rw [hLLflag, hLLi]
        exact hdflag
      have hDPR : DP.requestedDigits = dsf.requestedDigits
          + ((sigmaCounts M S b e (encNarrow s.lo s.hi x).1 (encNarrow s.lo s.hi x).2).1
            + (sigmaCounts M S b e (encNarrow s.lo s.hi x).1
              (encNarrow s.lo s.hi x).2).2) := by
        rw [hDP]
        simp only []
        rw [hLLR]
      have hDPkm : DP.requestedDigitsKeepMsd = dsf.requestedDigitsKeepMsd
          + (sigmaCounts M S b e (encNarrow s.lo s.hi x).1
            (encNarrow s.lo s.hi x).2).2 := by
        rw [hDP]
        simp only []
        rw [hLLkm]
      have hDPlo : DP.lo = LL.lo := by
        rw [hDP]
      have hDPhi : DP.hi = LL.hi := by
        rw [hDP]
      have hDPout : DP.out = dsf.out ++ [((x : Nat) : Int)] := by
        rw [hDP]
        simp only []
        rw [hLLout]
      have hDPbd : DP.bytesDecoded = dsf.bytesDecoded + 1 := by
        rw [hDP]
        simp only []
        rw [hLLbd]
      by_cases hsc : (sigmaCounts M S b e (encNarrow s.lo s.hi x).1
          (encNarrow s.lo s.hi x).2).1 = 0
      · have ho2 : (encByteStep M S b e s x).out.length = s.out.length := by
          rw [e_out, q1, if_pos hsc]
          omega
        have hd2 : (encByteStep M S b e s x).digitsToAdd
            = s.digitsToAdd + (sigmaCounts M S b e (encNarrow s.lo s.hi x).1
              (encNarrow s.lo s.hi x).2).2 := by
          rw [e_dta, q2, if_pos hsc]
        obtain ⟨dsf', f1, f2, f3, f4, f5, f6, f7, f8, f9, f10, f11⟩ :=
          decFetch_run_keep ctx O M S b c hcM hcS hcb hM hS hb hMD hend hdig hOdig
            (sigmaCounts M S b e (encNarrow s.lo s.hi x).1
              (encNarrow s.lo s.hi x).2).2
            ffuel DP s.out.length s.digitsToAdd
            (by omega)
            (by rw [hDPR, hdR]; omega)
            (by rw [hDPkm, hdkm]; omega)
            hDPi hDPdtd hDPflag
        obtain ⟨d', r1, r2⟩ := ih hallxs fo' (encByteStep M S b e s x) DN dsf'
          (by omega) hinv1 hOfold1
          (by rw [← hDP]; exact f1)
          (by rw [f7, hDPlo, g1])
          (by rw [f8, hDPhi, g2])
          (by rw [ho2, hd2]; exact f2)
          (by rw [ho2, hd2]; omega)
          f4 f5
          (by rw [f6, f3])
          (by
            rw [f10, hDPbd]
            simp only [List.length_cons] at hpar
            omega)
        refine ⟨d', ?_, ?_⟩
        · rw [heq]
          exact r1
        · rw [r2, f9, hDPout, List.map_cons, List.append_assoc, List.singleton_append]
      · have ho2 : (encByteStep M S b e s x).out.length
            = s.out.length + ((sigmaCounts M S b e (encNarrow s.lo s.hi x).1
              (encNarrow s.lo s.hi x).2).1 + s.digitsToAdd) := by
          rw [e_out, q1, if_neg hsc]
        have hd2 : (encByteStep M S b e s x).digitsToAdd
            = (sigmaCounts M S b e (encNarrow s.lo s.hi x).1
              (encNarrow s.lo s.hi x).2).2 := by
          rw [e_dta, q2, if_neg hsc]
        obtain ⟨dsf', f1, f2, f3, f4, f5, f6, f7, f8, f9, f10, f11⟩ :=
          decFetch_run_plain ctx O M S b c hcM hcS hcb hM hS hb hMD hend hdig hOdig
            (sigmaCounts M S b e (encNarrow s.lo s.hi x).1
              (encNarrow s.lo s.hi x).2).1
            (by omega)
            (sigmaCounts M S b e (encNarrow s.lo s.hi x).1
              (encNarrow s.lo s.hi x).2).2
            ffuel DP s.out.length s.digitsToAdd
            (by omega)
            (by rw [hDPR, hdR]; omega)
            (by rw [hDPkm, hdkm]; omega)
            hDPi hDPdtd hDPflag
        have hidx2 : s.out.length + s.digitsToAdd
              + (sigmaCounts M S b e (encNarrow s.lo s.hi x).1
                (encNarrow s.lo s.hi x).2).1
            = s.out.length + ((sigmaCounts M S b e (encNarrow s.lo s.hi x).1
                (encNarrow s.lo s.hi x).2).1 + s.digitsToAdd) := by
          omega
        rw [hidx2] at f2
        obtain ⟨d', r1, r2⟩ := ih hallxs fo' (encByteStep M S b e s x) DN dsf'
          (by omega) hinv1 hOfold1
          (by rw [← hDP]; exact f1)
          (by rw [f7, hDPlo, g1])
          (by rw [f8, hDPhi, g2])
          (by rw [ho2, hd2]; exact f2)
          (by rw [ho2, hd2]; omega)
          f4 f5
          (by rw [f6, f3])
          (by
            rw [f10, hDPbd]
            simp only [List.length_cons] at hpar
            omega)
        refine ⟨d', ?_, ?_⟩
        · rw [heq]
          exact r1
        · rw [r2, f9, hDPout, List.map_cons, List.append_assoc, List.singleton_append]


/-- Reading an appended list below the length of its first part. -/
theorem getD_append_lt (l l' : List Nat) (n d : Nat) (h : n < l.length) :
    (l ++ l').getD n d = l.getD n d := by
  induction l generalizing n with
  | nil => simp at h
  | cons a t ih =>
    cases n with
    | zero => rfl
    | succ n =>
      rw [List.cons_append, List.getD_cons_succ, List.getD_cons_succ]
      exact ih n (by simpa using h)

/-- Every digit of the encoded body stream is a valid symbol index. -/
theorem encodeBody_getD_lt (base : Nat) (h2 : 2 ≤ base) (h256 : base ≤ 256)
    (bytes : List Nat) (hbytes : ∀ x ∈ bytes, x < 256) :
    ∀ pos, (encodeBody base bytes).getD pos 0 < base := by
  obtain ⟨hbb, hMS, hSb, he, hpow⟩ := paramsGood_of_range base h2 h256
  have hfold : encLoopFinal base bytes =
      List.foldl
        (encByteStep (calculateParams base).msdDivisor
          (calculateParams base).secondMsdDivisor base
          (calculateParams base).maxDigitsToEmit)
        (encInitState (calculateParams base).msdDivisor base) bytes := rfl
  have hMb : 65537 ≤ (calculateParams base).msdDivisor * base := by
    calc (65537 : Nat) ≤ (calculateParams base).secondMsdDivisor := hSb
    _ ≤ (calculateParams base).secondMsdDivisor * base :=
      Nat.le_mul_of_pos_right _ (by omega)
    _ = (calculateParams base).msdDivisor := hMS.symm
    _ ≤ (calculateParams base).msdDivisor * base :=
      Nat.le_mul_of_pos_right _ (by omega)
  obtain ⟨g1, g2, g3, g4⟩ :=
    encLoop_master (calculateParams base).msdDivisor
      (calculateParams base).secondMsdDivisor base
      (calculateParams base).maxDigitsToEmit hMS h2 hSb he hpow bytes hbytes
      (encInitState (calculateParams base).msdDivisor base)
      (by simp only [encInitState]; omega)
      (by simp only [encInitState]; omega)
      (by simp [encInitState])
      (by simp [encInitState])
  have hM0 : 0 < (calculateParams base).msdDivisor := by
    rw [hMS]
    exact Nat.mul_pos (by omega) (by omega)
  intro pos
  have hform : encodeBody base bytes = (encLoopFinal base bytes).out
      ++ [(encLoopFinal base bytes).hi / (calculateParams base).msdDivisor]
      ++ List.replicate (encLoopFinal base bytes).digitsToAdd 0 := rfl
  rw [hform]
  by_cases hp1 : pos < (encLoopFinal base bytes).out.length
  · rw [List.append_assoc, getD_append_lt _ _ _ _ hp1]
    have hmem : (encLoopFinal base bytes).out.getD pos 0
        ∈ (encLoopFinal base bytes).out := by
      rw [List.getD_eq_getElem _ _ hp1]
      exact List.getElem_mem hp1
    rw [hfold] at hmem
    exact g4 _ hmem
  · by_cases hp2 : pos < (encLoopFinal base bytes).out.length + 1
        + (encLoopFinal base bytes).digitsToAdd
    · by_cases hp3 : pos = (encLoopFinal base bytes).out.length
      · rw [hp3, getD_body_head, hfold]
        exact (Nat.div_lt_iff_lt_mul hM0).mpr (by rw [Nat.mul_comm]; omega)
      · obtain ⟨j, rfl⟩ : ∃ j, pos = (encLoopFinal base bytes).out.length + j :=
          ⟨pos - (encLoopFinal base bytes).out.length, by omega⟩
        rw [getD_body_run _ _ _ j (by omega) (by omega)]
        omega
    · rw [List.getD_eq_default]
      · omega
      · simp only [List.length_append, List.length_replicate, List.length_cons,
          List.length_nil]
        omega

/-- One controlled unfolding of `decodeRun` on a text whose last
character carries a valid parity symbol. -/
theorem decodeRun_unfold (table : Table) (text : List Nat) (fuel : Nat)
    (body : List Nat) (par : Nat)
    (hlen : text.length = body.length + 1)
    (hterm : tableGet table (text.getD body.length 0) = some par)
    (hpar : par ≤ 1) :
    decodeRun fuel table text
      = decOuterLoop
        { decodingTable := table, encodedText := text, endIndex := body.length,
          msdDivisor := (calculateParams (tableSize table)).msdDivisor,
          secondMsdDivisor := (calculateParams (tableSize table)).secondMsdDivisor,
          base := tableSize table,
          maxDigitsToEmit := (calculateParams (tableSize table)).maxDigitsToEmit,
          maxDigitsToDecode := (calculateParams (tableSize table)).maxDigitsToDecode,
          lengthParity := par }
        fuel fuel
        { bytesDecoded := 0, lo := 0,
          hi := ((calculateParams (tableSize table)).msdDivisor : Int)
            * (tableSize table : Nat) - 1,
          i := 0, digitsToDecode := 0,
          requestedDigits := (calculateParams (tableSize table)).maxDigitsToDecode,
          requestedDigitsKeepMsd := 0, isLastDigit := false,
          out := [], trace := [] } := by
  rw [decodeRun, hlen]
  simp only []
  rw [hterm]
  simp only []
  rw [if_neg (by omega)]


/-- C1: for every alphabet of distinct symbols with size between 2 and
256 and for every finite byte sequence `bytes` (including the empty
sequence and sequences with trailing zero bytes), decoding the text
produced by encoding `bytes` yields exactly `bytes`:
`decode(encode(B)) == B` (with the decoder's loop fuel large enough for
the run to complete, which `bytes.length + maxDigitsToDecode + 2` always
is). -/
theorem roundtrip_decode_encode (alphabet bytes : List Nat)
    (hlen2 : 2 ≤ alphabet.length) (hlen256 : alphabet.length ≤ 256)
    (hnd : alphabet.Nodup) (hbytes : ∀ x ∈ bytes, x < 256)
    (fuel : Nat)
    (hfuel : bytes.length + (calculateParams alphabet.length).maxDigitsToDecode + 2
      ≤ fuel) :
    decodeBytes fuel (buildDecodingTable alphabet) (encode alphabet bytes)
      = some (.ok (bytes.map (fun y => ((y : Nat) : Int)))) := by
  obtain ⟨hb2x, hD3, hMeq, hSeq, he2x, heD, hSbigx, hpowEx, hpow256x⟩ :=
    paramsC1_of_range alphabet.length hlen2 hlen256
  have hS : (calculateParams alphabet.length).secondMsdDivisor
      = alphabet.length ^ ((calculateParams alphabet.length).maxDigitsToDecode - 2) :=
    hSeq
  have hM : (calculateParams alphabet.length).msdDivisor
      = (calculateParams alphabet.length).secondMsdDivisor * alphabet.length := by
    rw [hMeq, hSeq,
      show (calculateParams alphabet.length).maxDigitsToDecode - 1
        = (calculateParams alphabet.length).maxDigitsToDecode - 2 + 1 by omega,
      pow_succ]
  have hdvd : alphabet.length ^ (calculateParams alphabet.length).maxDigitsToEmit
      ∣ (calculateParams alphabet.length).msdDivisor * alphabet.length := by
    rw [hMeq, ← pow_succ,
      show (calculateParams alphabet.length).maxDigitsToDecode - 1 + 1
        = (calculateParams alphabet.length).maxDigitsToDecode by omega]
    exact pow_dvd_pow alphabet.length (by omega)
  have hM0 : 0 < (calculateParams alphabet.length).msdDivisor := by
    rw [hM]
    exact Nat.mul_pos (by omega) (by omega)
  have hbase := tableSize_buildDecodingTable alphabet hnd
  have hOdigAll := encodeBody_getD_lt alphabet.length hlen2 hlen256 bytes hbytes
  have hbe : (encLoopFinal alphabet.length bytes).bytesEncoded = bytes.length := by
    have hfold : encLoopFinal alphabet.length bytes =
        List.foldl (encByteStep (calculateParams alphabet.length).msdDivisor
          (calculateParams alphabet.length).secondMsdDivisor alphabet.length
          (calculateParams alphabet.length).maxDigitsToEmit)
          (encInitState (calculateParams alphabet.length).msdDivisor alphabet.length)
          bytes := rfl
    rw [hfold, encLoop_bytesEncoded]
    simp [encInitState]
  have hbody : encodeIndices alphabet.length bytes
      = encodeBody alphabet.length bytes ++ [bytes.length % 2] := by
    show (encLoopFinal alphabet.length bytes).out
        ++ [(encLoopFinal alphabet.length bytes).hi
              / (calculateParams alphabet.length).msdDivisor]
        ++ List.replicate (encLoopFinal alphabet.length bytes).digitsToAdd 0
        ++ [(encLoopFinal alphabet.length bytes).bytesEncoded % 2]
      = encodeBody alphabet.length bytes ++ [bytes.length % 2]
    rw [hbe]
    rfl
  have hIlen : (encodeIndices alphabet.length bytes).length
      = (encodeBody alphabet.length bytes).length + 1 := by
    rw [hbody]
    simp
  have hlen : (encode alphabet bytes).length
      = (encodeBody alphabet.length bytes).length + 1 := by
    rw [encode, List.length_map, hIlen]
  have hterm : tableGet (buildDecodingTable alphabet)
      ((encode alphabet bytes).getD (encodeBody alphabet.length bytes).length 0)
      = some (bytes.length % 2) := by
    have hchar : (encode alphabet bytes).getD
        (encodeBody alphabet.length bytes).length 0
        = alphabet.getD (bytes.length % 2) 0 := by
      rw [encode, getD_map_lt _ _ _ _ (by rw [hIlen]; omega)]
      congr 1
      rw [hbody]
      have h := getD_append_self (encodeBody alphabet.length bytes)
        [bytes.length % 2] 0 0
      simpa using h
    rw [hchar]
    exact tableGet_buildDecodingTable_nodup alphabet hnd (bytes.length % 2)
      (by omega)
  have hdigAll : ∀ p, p < (encodeBody alphabet.length bytes).length →
      tableGet (buildDecodingTable alphabet) ((encode alphabet bytes).getD p 0)
        = some ((encodeBody alphabet.length bytes).getD p 0) := by
    intro p hp
    have hchar : (encode alphabet bytes).getD p 0
        = alphabet.getD ((encodeBody alphabet.length bytes).getD p 0) 0 := by
      rw [encode, getD_map_lt _ _ _ _ (by rw [hIlen]; omega)]
      congr 1
      rw [hbody, getD_append_lt _ _ _ _ hp]
    rw [hchar]
    exact tableGet_buildDecodingTable_nodup alphabet hnd _ (hOdigAll p)
  have hrun := decodeRun_unfold (buildDecodingTable alphabet)
    (encode alphabet bytes) fuel (encodeBody alphabet.length bytes)
    (bytes.length % 2) hlen hterm (by omega)
  rw [hbase] at hrun
  have hrun2 : decodeRun fuel (buildDecodingTable alphabet) (encode alphabet bytes)
      = decOuterLoop (c1Ctx alphabet bytes) fuel fuel (c1Init alphabet) := hrun
  have hinv : EncInvByte (calculateParams alphabet.length).msdDivisor
      (calculateParams alphabet.length).secondMsdDivisor alphabet.length
      (encInitState (calculateParams alphabet.length).msdDivisor alphabet.length) := by
    have e1 : (encInitState (calculateParams alphabet.length).msdDivisor
        alphabet.length).lo = 0 := rfl
    have e2 : (encInitState (calculateParams alphabet.length).msdDivisor
        alphabet.length).hi
        = (calculateParams alphabet.length).msdDivisor * alphabet.length - 1 := rfl
    have e3 : (encInitState (calculateParams alphabet.length).msdDivisor
        alphabet.length).digitsToAdd = 0 := rfl
    have hSM : (calculateParams alphabet.length).secondMsdDivisor
        < (calculateParams alphabet.length).msdDivisor := by
      rw [hM]
      have h := (Nat.mul_lt_mul_left
        (show 0 < (calculateParams alphabet.length).secondMsdDivisor by omega)).mpr
        (show 1 < alphabet.length by omega)
      simpa using h
    have hMb1 : 0 < (calculateParams alphabet.length).msdDivisor * alphabet.length :=
      Nat.mul_pos hM0 (by omega)
    have hMMb : (calculateParams alphabet.length).msdDivisor
        ≤ (calculateParams alphabet.length).msdDivisor * alphabet.length :=
      Nat.le_mul_of_pos_right _ (by omega)
    refine ⟨?_, ?_, ?_, ?_⟩
    · rw [e1, e2]
      omega
    · rw [e2]
      omega
    · rw [e1]
      exact Nat.zero_le _
    · rw [e3]
      exact fun h => absurd h (by omega)
  obtain ⟨dsf, F1, F2, F3, F4, F5, F6, F7, F8, F9, F10, F11⟩ :=
    decFetch_initial (c1Ctx alphabet bytes) (encodeBody alphabet.length bytes)
      (calculateParams alphabet.length).msdDivisor
      (calculateParams alphabet.length).secondMsdDivisor
      alphabet.length ((calculateParams alphabet.length).maxDigitsToDecode - 2)
      rfl rfl rfl hM hS hlen2
      (by
        show (calculateParams alphabet.length).maxDigitsToDecode
          = (calculateParams alphabet.length).maxDigitsToDecode - 2 + 2
        omega)
      rfl hdigAll hOdigAll
      (calculateParams alphabet.length).maxDigitsToDecode fuel
      { c1Init alphabet with
        trace := (c1Init alphabet).trace
          ++ [((c1Init alphabet).lo, (c1Init alphabet).hi)] }
      0 (by omega) (by omega) rfl rfl rfl
      (by
        show (0 : Int) = _
        simp [digitsVal])
      (by
        show false = decide ((c1Ctx alphabet bytes).endIndex
          + ((calculateParams alphabet.length).maxDigitsToDecode - 2) < 0)
        simp)
  obtain ⟨d', R1, R2⟩ :=
    dec_sim (c1Ctx alphabet bytes) (encodeBody alphabet.length bytes)
      (calculateParams alphabet.length).msdDivisor
      (calculateParams alphabet.length).secondMsdDivisor
      alphabet.length ((calculateParams alphabet.length).maxDigitsToDecode - 2)
      (calculateParams alphabet.length).maxDigitsToEmit
      rfl rfl rfl
      (by
        show (calculateParams alphabet.length).maxDigitsToDecode
          = (calculateParams alphabet.length).maxDigitsToDecode - 2 + 2
        omega)
      rfl hdigAll hOdigAll hM hS hlen2 hlen256 hSbigx he2x hpowEx hdvd hpow256x
      rfl fuel (by omega)
      bytes hbytes fuel
      (encInitState (calculateParams alphabet.length).msdDivisor alphabet.length)
      (c1Init alphabet) dsf
      (by omega) hinv rfl F1
      (by
        rw [F7]
        simp [c1Init, encInitState])
      (by
        rw [F8]
        show ((calculateParams alphabet.length).msdDivisor : Int)
            * (alphabet.length : Int) - 1
          = (((calculateParams alphabet.length).msdDivisor * alphabet.length - 1
              : Nat) : Int)
        rw [Nat.cast_sub
            (by
              have := Nat.mul_pos hM0 (show 0 < alphabet.length by omega)
              omega),
          Nat.cast_mul, Nat.cast_one])
      (by
        rw [F2]
        simp [encInitState])
      (by
        rw [F3]
        show (calculateParams alphabet.length).maxDigitsToDecode - 2 + 2
          = 0 + 0 + ((calculateParams alphabet.length).maxDigitsToDecode - 2 + 2)
        omega)
      F4 F5
      (by rw [F6, F3])
      (by
        rw [F10]
        show (0 + bytes.length) % 2 = bytes.length % 2
        omega)
  rw [decodeBytes, hrun2, R1]
  simp [Except.map, R2, F9, c1Init]

/-- C1 witness: the round-trip theorem evaluated for the two-symbol
alphabet "01" on the byte sequence [7], with all hypotheses checked by
computation. -/
theorem roundtrip_decode_encode_witness :
    (2 ≤ ([48, 49] : List Nat).length ∧ ([48, 49] : List Nat).length ≤ 256 ∧
      ([48, 49] : List Nat).Nodup ∧ (∀ x ∈ ([7] : List Nat), x < 256) ∧
      ([7] : List Nat).length
        + (calculateParams ([48, 49] : List Nat).length).maxDigitsToDecode + 2
        ≤ 50) ∧
    decodeBytes 50 (buildDecodingTable [48, 49]) (encode [48, 49] [7])
      = some (.ok (([7] : List Nat).map (fun y => ((y : Nat) : Int)))) :=
  ⟨⟨by decide, by decide, by decide, by decide, by decide⟩,
    roundtrip_decode_encode [48, 49] [7] (by decide) (by decide) (by decide)
      (by decide) 50 (by decide)⟩

end BasinCoding
